import Mathlib

/-!
Verification development for the algorithm engines of the beyond-bigo
repository: a DNA trie, an Aho-Corasick automaton, a sliding-window
dot-product matcher, and an FFT-based correlation pipeline.

Strings are modelled as `List Char`.  The pointer-based node graphs of the
source are modelled as flat association-list stores keyed by the path from
the root (mirroring the source's `root-a-t-...` id scheme).  JavaScript
`while` loops over failure chains and the breadth-first queue are modelled
with explicit fuel; every claim-relevant use is given fuel that provably
suffices.  Floating-point numerics of the FFT engine are modelled over the
exact reals; `Math.round` is modelled by `round : ℝ → ℤ` (both round
half-up).
-/

/-- Alphabet test used by the regex `/^[ATGC]+$/` and the strip
`replace(/[^ATGC]/g, '')` in the source. -/
def isATGC (c : Char) : Bool :=
  c == 'A' || c == 'T' || c == 'G' || c == 'C'

/-- Whitespace stripped by JavaScript `String.prototype.trim` (ASCII
whitespace, NBSP, BOM, and the Unicode space and line separators). -/
def jsWhite (c : Char) : Bool :=
  c == ' ' || c == '\t' || c == '\n' || c == '\r' || c == '\x0b' ||
  c == '\x0c' || c == '\xa0' || c == ' ' ||
  (decide (' ' ≤ c) && decide (c ≤ ' ')) || c == ' ' ||
  c == ' ' || c == ' ' || c == ' ' || c == '　' ||
  c == '﻿'

/-- Model of `s.trim()`. -/
def jsTrim (l : List Char) : List Char :=
  ((l.dropWhile jsWhite).reverse.dropWhile jsWhite).reverse

/-- Model of `s.toUpperCase()` restricted to the ASCII case mapping
(the only case mapping that can produce characters of the DNA alphabet). -/
def jsUpper (l : List Char) : List Char := l.map Char.toUpper

/-- Model of `s.toLowerCase()` restricted to the ASCII case mapping. -/
def jsLower (l : List Char) : List Char := l.map Char.toLower

/-- Normalization `word.toUpperCase().trim()` shared by `Trie.insert`,
`Trie.search` and `AhoCorasick.addPattern`. -/
def normalizeSeq (l : List Char) : List Char := jsTrim (jsUpper l)

/-- Test `word && /^[ATGC]+$/.test(word)`: nonempty and every character in
the DNA alphabet. -/
def validSeq (l : List Char) : Bool := !l.isEmpty && l.all isATGC

/-- Node ids are the path of child characters from the root, mirroring the
source's `id = parent.id + '-' + char` scheme. -/
abbrev NodeId := List Char

/-- A list is an initial segment of another. -/
def isPre (a b : List Char) : Prop := ∃ t, b = a ++ t

instance (a b : List Char) : Decidable (isPre a b) :=
  decidable_of_iff (b.take a.length = a) (by
    constructor
    · intro h
      refine ⟨b.drop a.length, ?_⟩
      conv_lhs => rw [← List.take_append_drop a.length b]
      rw [h]
    · rintro ⟨t, rfl⟩
      simp)

theorem isPre_refl (a : List Char) : isPre a a := ⟨[], by simp⟩

theorem isPre_trans {a b c : List Char} (h1 : isPre a b) (h2 : isPre b c) :
    isPre a c := by
  obtain ⟨t, rfl⟩ := h1
  obtain ⟨s, rfl⟩ := h2
  exact ⟨t ++ s, by simp⟩

theorem isPre_length {a b : List Char} (h : isPre a b) : a.length ≤ b.length := by
  obtain ⟨t, rfl⟩ := h
  simp

theorem isPre_antisymm {a b : List Char} (h : isPre a b)
    (hl : b.length ≤ a.length) : a = b := by
  obtain ⟨t, rfl⟩ := h
  have h0 : t.length = 0 := by
    rw [List.length_append] at hl
    omega
  simp [List.eq_nil_of_length_eq_zero h0]

theorem isPre_append_one (a : List Char) (c : Char) : isPre a (a ++ [c]) :=
  ⟨[c], rfl⟩

theorem isPre_snoc_elim {a b : List Char} {c : Char} (h : isPre a (b ++ [c]))
    (hne : a ≠ b ++ [c]) : isPre a b := by
  obtain ⟨t, ht⟩ := h
  rcases List.eq_nil_or_concat t with rfl | ⟨s, x, rfl⟩
  · simp at ht
    exact absurd ht.symm hne
  · have h2 : b ++ [c] = (a ++ s) ++ [x] := by
      simpa [List.concat_eq_append, List.append_assoc] using ht
    have h3 := List.append_inj' h2 (by simp)
    exact ⟨s, h3.1⟩

/-! ## Trie engine (TrieDemo source) -/

/-- Per-node data of the source's `TrieNode` (display coordinates and
highlight flags omitted; `children` is represented by the ordered list of
its keys, the child on `c` of node `id` being the node `id ++ [c]`). -/
structure TrieData where
  childrenKeys : List Char
  isEnd : Bool
  level : Nat
deriving DecidableEq

abbrev TStore := List (NodeId × TrieData)

/-- Model of the `Trie` class: node store in creation order plus the
`wordCount` field. -/
structure Trie where
  nodes : TStore
  wordCount : Nat
deriving DecidableEq

/-- Lookup of a node by id. -/
def getT (st : TStore) (id : NodeId) : Option TrieData :=
  match st with
  | [] => none
  | e :: rest => if e.1 = id then some e.2 else getT rest id

/-- In-place update of a node (models field mutation through a pointer). -/
def setT (st : TStore) (id : NodeId) (d : TrieData) : TStore :=
  st.map fun e => if e.1 = id then (id, d) else e

/-- Fresh trie with a single root, as built by the `Trie` constructor and
by `clear()`. -/
def Trie.empty : Trie := ⟨[([], ⟨[], false, 0⟩)], 0⟩

/-- The walk of `insert` that creates missing nodes along the path
(`if (!node.children.has(char)) node.children.set(char, …)`). -/
def insertWalk (st : TStore) (cur : NodeId) (cs : List Char) : TStore :=
  match cs with
  | [] => st
  | c :: rest =>
      let st' :=
        match getT st cur with
        | some d =>
            if c ∈ d.childrenKeys then st
            else
              setT st cur { d with childrenKeys := d.childrenKeys ++ [c] } ++
                [(cur ++ [c], ⟨[], false, d.level + 1⟩)]
        | none => st
      insertWalk st' (cur ++ [c]) rest

/-- Model of `Trie.insert`. -/
def Trie.insert (t : Trie) (word : List Char) : Trie × Bool :=
  let w := normalizeSeq word
  if ¬ validSeq w then (t, false)
  else
    let st := insertWalk t.nodes [] w
    match getT st w with
    | some d =>
        if d.isEnd then (⟨st, t.wordCount⟩, false)
        else (⟨setT st w { d with isEnd := true }, t.wordCount + 1⟩, true)
    | none => (⟨st, t.wordCount⟩, false)

/-- Result record of `Trie.search`. -/
structure TrieSearchResult where
  found : Bool
  isPrefixOnly : Bool
  path : List NodeId
deriving DecidableEq

/-- The walk of `Trie.search`, accumulating the visited node path. -/
def searchWalk (st : TStore) (cur : NodeId) (cs : List Char)
    (path : List NodeId) : TrieSearchResult :=
  match cs with
  | [] =>
      match getT st cur with
      | some d => ⟨d.isEnd, !d.isEnd && !d.childrenKeys.isEmpty, path⟩
      | none => ⟨false, false, path⟩
  | c :: rest =>
      match getT st cur with
      | some d =>
          if c ∈ d.childrenKeys then
            searchWalk st (cur ++ [c]) rest (path ++ [cur ++ [c]])
          else ⟨false, false, path⟩
      | none => ⟨false, false, path⟩

/-- Model of `Trie.search` (normalizes, walks from the root, path starts
with the root node). -/
def Trie.search (t : Trie) (word : List Char) : TrieSearchResult :=
  searchWalk t.nodes [] (normalizeSeq word) [[]]

/-- Children ids of a node, in insertion order. -/
def childIdsT (st : TStore) (id : NodeId) : List NodeId :=
  (((getT st id).map (·.childrenKeys)).getD []).map fun c => id ++ [c]

/-- Depth-first traversal of `getAllNodes`, with fuel bounding recursion
depth (the store size always suffices for stores built by `insert`). -/
def traverseT (st : TStore) : Nat → NodeId → List NodeId
  | 0, _ => []
  | fuel + 1, id => id :: ((childIdsT st id).map (traverseT st fuel)).flatten

/-- Model of `Trie.getAllNodes` (returns node ids). -/
def Trie.getAllNodes (t : Trie) : List NodeId :=
  traverseT t.nodes t.nodes.length []

/-- The store contains the given full sequence as an inserted word. -/
def TrieContains (st : TStore) (w : NodeId) : Bool :=
  match getT st w with
  | some d => d.isEnd
  | none => false

/-- Reference walk: resolve a sequence to the node at its end, `none` when
a transition is missing. -/
def resolveT (st : TStore) (cur : NodeId) (cs : List Char) : Option NodeId :=
  match cs with
  | [] => some cur
  | c :: rest =>
      match getT st cur with
      | some d => if c ∈ d.childrenKeys then resolveT st (cur ++ [c]) rest else none
      | none => none

/-- The parent of a non-root node is present and lists it as a child. -/
def parentOKT (st : TStore) (id : NodeId) : Bool :=
  match id.getLast? with
  | none => true
  | some c =>
      match getT st id.dropLast with
      | some d => d.childrenKeys.contains c
      | none => false

/-- Static well-formedness of a trie store: no duplicate ids, root present
and non-terminal, levels record path length, child keys duplicate-free and
accurate in both directions.  Phrased entry-wise so it is decidable. -/
def TrieWF (st : TStore) : Prop :=
  (st.map (·.1)).Nodup ∧
  (getT st []).isSome = true ∧
  (∀ e ∈ st, e.1 = [] → e.2.isEnd = false) ∧
  (∀ e ∈ st, e.2.level = e.1.length) ∧
  (∀ e ∈ st, e.2.childrenKeys.Nodup) ∧
  (∀ e ∈ st, ∀ c ∈ e.2.childrenKeys, (getT st (e.1 ++ [c])).isSome = true) ∧
  (∀ e ∈ st, parentOKT st e.1 = true)

instance (st : TStore) : Decidable (TrieWF st) := by
  unfold TrieWF
  infer_instance

/-! ### Store lemmas -/

def keysT (st : TStore) : List NodeId := st.map (·.1)

theorem getT_nil (id : NodeId) : getT [] id = none := rfl

theorem getT_cons (e : NodeId × TrieData) (st : TStore) (id : NodeId) :
    getT (e :: st) id = if e.1 = id then some e.2 else getT st id := rfl

theorem setT_nil (id : NodeId) (d : TrieData) : setT [] id d = [] := rfl

theorem setT_cons (e : NodeId × TrieData) (st : TStore) (id : NodeId)
    (d : TrieData) :
    setT (e :: st) id d = (if e.1 = id then (id, d) else e) :: setT st id d := by
  simp [setT]

theorem keysT_nil : keysT [] = [] := rfl

theorem keysT_cons (e : NodeId × TrieData) (st : TStore) :
    keysT (e :: st) = e.1 :: keysT st := rfl

theorem getT_mem {st : TStore} {id : NodeId} {d : TrieData}
    (h : getT st id = some d) : (id, d) ∈ st := by
  induction st with
  | nil => simp [getT_nil] at h
  | cons e rest ih =>
      rw [getT_cons] at h
      by_cases he : e.1 = id
      · rw [if_pos he] at h
        have : e = (id, d) := by
          cases e
          simp at he h
          simp [he, h]
        simp [this]
      · rw [if_neg he] at h
        exact List.mem_cons_of_mem _ (ih h)

theorem getT_isSome_iff_mem {st : TStore} {id : NodeId} :
    (getT st id).isSome = true ↔ id ∈ keysT st := by
  induction st with
  | nil => simp [getT_nil, keysT_nil]
  | cons e rest ih =>
      rw [getT_cons, keysT_cons]
      by_cases he : e.1 = id
      · simp [he]
      · rw [if_neg he, List.mem_cons]
        simp only [ih]
        constructor
        · exact fun h => Or.inr h
        · rintro (h | h)
          · exact absurd h.symm he
          · exact h

theorem getT_eq_none_of_not_mem {st : TStore} {id : NodeId}
    (h : id ∉ keysT st) : getT st id = none := by
  cases hg : getT st id with
  | none => rfl
  | some d => exact absurd (getT_isSome_iff_mem.mp (by simp [hg])) h

theorem mem_keysT_of_getT {st : TStore} {id : NodeId} {d : TrieData}
    (h : getT st id = some d) : id ∈ keysT st :=
  getT_isSome_iff_mem.mp (by simp [h])

theorem keysT_setT (st : TStore) (id : NodeId) (d : TrieData) :
    keysT (setT st id d) = keysT st := by
  induction st with
  | nil => rfl
  | cons e rest ih =>
      rw [setT_cons, keysT_cons, keysT_cons, ih]
      by_cases he : e.1 = id
      · simp [he]
      · simp [he]

theorem getT_setT_self {st : TStore} {id : NodeId} {d0 : TrieData}
    (h : getT st id = some d0) (d : TrieData) :
    getT (setT st id d) id = some d := by
  induction st with
  | nil => simp [getT_nil] at h
  | cons e rest ih =>
      rw [getT_cons] at h
      rw [setT_cons]
      by_cases he : e.1 = id
      · rw [if_pos he, getT_cons]
        simp
      · rw [if_neg he] at h
        rw [if_neg he, getT_cons, if_neg he]
        exact ih h

theorem getT_setT_other {st : TStore} {id id' : NodeId} (hne : id' ≠ id)
    (d : TrieData) : getT (setT st id d) id' = getT st id' := by
  induction st with
  | nil => rfl
  | cons e rest ih =>
      rw [setT_cons, getT_cons, getT_cons]
      by_cases he : e.1 = id
      · rw [if_pos he]
        simp only []
        rw [if_neg (Ne.symm hne), if_neg (by rw [he]; exact Ne.symm hne)]
        exact ih
      · rw [if_neg he]
        by_cases he' : e.1 = id'
        · rw [if_pos he', if_pos he']
        · rw [if_neg he', if_neg he']
          exact ih

theorem getT_setT_none {st : TStore} {id : NodeId}
    (h : getT st id = none) (d : TrieData) : getT (setT st id d) id = none := by
  induction st with
  | nil => rfl
  | cons e rest ih =>
      rw [getT_cons] at h
      rw [setT_cons]
      by_cases he : e.1 = id
      · rw [if_pos he] at h
        simp at h
      · rw [if_neg he] at h
        rw [if_neg he, getT_cons, if_neg he]
        exact ih h

theorem getT_append_some {st st2 : TStore} {id : NodeId} {d : TrieData}
    (h : getT st id = some d) : getT (st ++ st2) id = some d := by
  induction st with
  | nil => simp [getT_nil] at h
  | cons e rest ih =>
      rw [getT_cons] at h
      rw [List.cons_append, getT_cons]
      by_cases he : e.1 = id
      · rwa [if_pos he] at h ⊢
      · rw [if_neg he] at h ⊢
        exact ih h

theorem getT_append_none {st st2 : TStore} {id : NodeId}
    (h : getT st id = none) : getT (st ++ st2) id = getT st2 id := by
  induction st with
  | nil => rfl
  | cons e rest ih =>
      rw [getT_cons] at h
      rw [List.cons_append, getT_cons]
      by_cases he : e.1 = id
      · rw [if_pos he] at h
        simp at h
      · rw [if_neg he] at h ⊢
        exact ih h

theorem contains_iff_memChar {l : List Char} {c : Char} :
    l.contains c = true ↔ c ∈ l := by
  simp [List.contains]

/-! ### Well-formedness consequences -/

theorem parent_spec {st : TStore} (hwf : TrieWF st) {id : NodeId} {c : Char}
    {d' : TrieData} (h : getT st (id ++ [c]) = some d') :
    ∃ d, getT st id = some d ∧ c ∈ d.childrenKeys := by
  have hmem := getT_mem h
  have hpo := hwf.2.2.2.2.2.2 _ hmem
  unfold parentOKT at hpo
  simp only [List.getLast?_concat, List.dropLast_concat] at hpo
  cases hg : getT st id with
  | none => rw [hg] at hpo; simp at hpo
  | some d =>
      rw [hg] at hpo
      exact ⟨d, rfl, contains_iff_memChar.mp hpo⟩

theorem child_spec {st : TStore} (hwf : TrieWF st) {id : NodeId} {d : TrieData}
    (h : getT st id = some d) {c : Char} (hc : c ∈ d.childrenKeys) :
    ∃ d', getT st (id ++ [c]) = some d' := by
  have hmem := getT_mem h
  have := hwf.2.2.2.2.2.1 _ hmem c hc
  exact Option.isSome_iff_exists.mp this

theorem not_mem_child_of_not_key {st : TStore} (hwf : TrieWF st) {id : NodeId}
    {d : TrieData} (h : getT st id = some d) {c : Char}
    (hc : c ∉ d.childrenKeys) : getT st (id ++ [c]) = none := by
  cases hg : getT st (id ++ [c]) with
  | none => rfl
  | some d2 =>
      obtain ⟨d1, hd1, hcd1⟩ := parent_spec hwf hg
      rw [h] at hd1
      cases hd1
      exact absurd hcd1 hc

theorem mem_of_pre {st : TStore} (hwf : TrieWF st) {id q : NodeId}
    (hid : id ∈ keysT st) (hq : isPre q id) : q ∈ keysT st := by
  induction id using List.reverseRecOn with
  | nil =>
      obtain ⟨t, ht⟩ := hq
      have hq0 : q = [] := by
        have := congrArg List.length ht
        simp at this
        exact List.eq_nil_of_length_eq_zero (by omega)
      simpa [hq0] using hid
  | append_singleton id' x ih =>
      by_cases hqe : q = id' ++ [x]
      · simpa [hqe] using hid
      · have hq' : isPre q id' := isPre_snoc_elim hq hqe
        obtain ⟨d', hd'⟩ := Option.isSome_iff_exists.mp (getT_isSome_iff_mem.mpr hid)
        obtain ⟨d, hd, _⟩ := parent_spec hwf hd'
        exact ih (mem_keysT_of_getT hd) hq'

theorem resolveT_of_mem {st : TStore} (hwf : TrieWF st) {id : NodeId}
    (hid : id ∈ keysT st) :
    ∀ cs cur, cur ++ cs = id → resolveT st cur cs = some id := by
  intro cs
  induction cs with
  | nil =>
      intro cur hcur
      simp at hcur
      simp [resolveT, hcur]
  | cons c rest ih =>
      intro cur hcur
      have hpre : isPre (cur ++ [c]) id := ⟨rest, by rw [← hcur]; simp⟩
      have hmemc : (cur ++ [c]) ∈ keysT st := mem_of_pre hwf hid hpre
      obtain ⟨dc, hdc⟩ := Option.isSome_iff_exists.mp (getT_isSome_iff_mem.mpr hmemc)
      obtain ⟨d, hd, hcd⟩ := parent_spec hwf hdc
      unfold resolveT
      rw [hd]
      show (if c ∈ d.childrenKeys then resolveT st (cur ++ [c]) rest else none) =
        some id
      rw [if_pos hcd]
      exact ih (cur ++ [c]) (by rw [← hcur]; simp)

/-! ### Effect of one node-creation step of `insertWalk` -/

theorem step_facts {st : TStore} (hwf : TrieWF st) {cur : NodeId} {d : TrieData}
    (hcur : getT st cur = some d) {c : Char} (hc : c ∉ d.childrenKeys) :
    getT (setT st cur { d with childrenKeys := d.childrenKeys ++ [c] } ++
        [(cur ++ [c], ⟨[], false, d.level + 1⟩)]) cur =
      some { d with childrenKeys := d.childrenKeys ++ [c] } ∧
    getT (setT st cur { d with childrenKeys := d.childrenKeys ++ [c] } ++
        [(cur ++ [c], ⟨[], false, d.level + 1⟩)]) (cur ++ [c]) =
      some ⟨[], false, d.level + 1⟩ ∧
    (∀ id, id ≠ cur → id ≠ cur ++ [c] →
      getT (setT st cur { d with childrenKeys := d.childrenKeys ++ [c] } ++
        [(cur ++ [c], ⟨[], false, d.level + 1⟩)]) id = getT st id) ∧
    keysT (setT st cur { d with childrenKeys := d.childrenKeys ++ [c] } ++
        [(cur ++ [c], ⟨[], false, d.level + 1⟩)]) = keysT st ++ [cur ++ [c]] := by
  set dnew : TrieData := { d with childrenKeys := d.childrenKeys ++ [c] } with hdnew
  have hnone : getT st (cur ++ [c]) = none := not_mem_child_of_not_key hwf hcur hc
  have hne : cur ++ [c] ≠ cur := by
    intro h
    have := congrArg List.length h
    simp at this
  have hnone1 : getT (setT st cur dnew) (cur ++ [c]) = none := by
    rw [getT_setT_other hne]
    exact hnone
  refine ⟨?_, ?_, ?_, ?_⟩
  · exact getT_append_some (getT_setT_self hcur dnew)
  · rw [getT_append_none hnone1, getT_cons]
    simp
  · intro id hid1 hid2
    by_cases hm : (getT st id).isSome
    · obtain ⟨d0, hd0⟩ := Option.isSome_iff_exists.mp hm
      rw [hd0]
      exact getT_append_some (by rw [getT_setT_other hid1]; exact hd0)
    · have h0 : getT st id = none := by
        cases h : getT st id
        · rfl
        · rw [h] at hm; simp at hm
      rw [h0]
      rw [getT_append_none (by rw [getT_setT_other hid1]; exact h0), getT_cons]
      rw [if_neg (fun h => hid2 h.symm), getT_nil]
  · have : keysT (setT st cur dnew ++ [(cur ++ [c], (⟨[], false, d.level + 1⟩ : TrieData))]) =
        keysT (setT st cur dnew) ++ [cur ++ [c]] := by
      simp [keysT]
    rw [this, keysT_setT]

theorem step_wf {st : TStore} (hwf : TrieWF st) {cur : NodeId} {d : TrieData}
    (hcur : getT st cur = some d) {c : Char} (hc : c ∉ d.childrenKeys) :
    TrieWF (setT st cur { d with childrenKeys := d.childrenKeys ++ [c] } ++
      [(cur ++ [c], ⟨[], false, d.level + 1⟩)]) := by
  obtain ⟨hgcur, hgnew, hgother, hkeys⟩ := step_facts hwf hcur hc
  set dnew : TrieData := { d with childrenKeys := d.childrenKeys ++ [c] } with hdnew
  set newE : NodeId × TrieData := (cur ++ [c], ⟨[], false, d.level + 1⟩) with hnewE
  set st2 : TStore := setT st cur dnew ++ [newE] with hst2
  have hnotmem : (cur ++ [c]) ∉ keysT st := by
    intro hm
    obtain ⟨d2, hd2⟩ := Option.isSome_iff_exists.mp (getT_isSome_iff_mem.mpr hm)
    obtain ⟨d1, hd1, hcd1⟩ := parent_spec hwf hd2
    rw [hcur] at hd1
    cases hd1
    exact hc hcd1
  obtain ⟨hnd, hroot, hrend, hlvl, hcknd, hacc, hpok⟩ := hwf
  have hcurmem : (cur, d) ∈ st := getT_mem hcur
  have hne : cur ++ [c] ≠ cur := by
    intro h
    have := congrArg List.length h
    simp at this
  have hmono : ∀ id, (getT st id).isSome = true → (getT st2 id).isSome = true := by
    intro id hm
    by_cases h1 : id = cur
    · subst h1; simp [hgcur]
    · by_cases h2 : id = cur ++ [c]
      · subst h2; simp [hgnew]
      · rw [hgother id h1 h2]; exact hm
  have hmem2 : ∀ e, e ∈ st2 → (∃ e0 ∈ st, e = if e0.1 = cur then (cur, dnew) else e0) ∨
      e = newE := by
    intro e he
    rw [hst2, List.mem_append] at he
    rcases he with he | he
    · left
      obtain ⟨e0, he0, heq⟩ := List.mem_map.mp he
      exact ⟨e0, he0, heq.symm⟩
    · right
      simpa using he
  have hpok2 : ∀ id, parentOKT st id = true → parentOKT st2 id = true := by
    intro id hp
    unfold parentOKT at hp ⊢
    cases hlast : id.getLast? with
    | none => rfl
    | some c' =>
        rw [hlast] at hp
        cases hgp : getT st id.dropLast with
        | none => rw [hgp] at hp; exact absurd hp (by simp)
        | some dp =>
            rw [hgp] at hp
            by_cases hdc : id.dropLast = cur
            · rw [hdc] at hgp ⊢
              rw [hgcur]
              rw [hcur] at hgp
              cases hgp
              have : c' ∈ dnew.childrenKeys := by
                rw [hdnew]
                exact List.mem_append_left _ (contains_iff_memChar.mp hp)
              exact contains_iff_memChar.mpr this
            · by_cases hdc2 : id.dropLast = cur ++ [c]
              · exact absurd (hdc2 ▸ mem_keysT_of_getT hgp) hnotmem
              · rw [hgother _ hdc hdc2, hgp]
                exact hp
  refine ⟨?_, ?_, ?_, ?_, ?_, ?_, ?_⟩
  · show (keysT st2).Nodup
    rw [hkeys]
    rw [List.nodup_append]
    exact ⟨hnd, List.nodup_singleton _, by
      intro a ha hb
      simp at hb
      exact hnotmem (hb ▸ ha)⟩
  · by_cases h1 : ([] : NodeId) = cur
    · rw [← h1] at hgcur
      rw [hgcur]
      rfl
    · exact hmono [] hroot
  · intro e he h1
    rcases hmem2 e he with ⟨e0, he0, heq⟩ | heq
    · by_cases h0 : e0.1 = cur
      · rw [if_pos h0] at heq
        subst heq
        have hcur0 : cur = [] := h1
        show d.isEnd = false
        exact hrend _ hcurmem hcur0
      · rw [if_neg h0] at heq
        subst heq
        exact hrend _ he0 h1
    · subst heq
      simp only at h1
      exact absurd h1 (by simp)
  · intro e he
    rcases hmem2 e he with ⟨e0, he0, heq⟩ | heq
    · by_cases h0 : e0.1 = cur
      · rw [if_pos h0] at heq
        subst heq
        show dnew.level = cur.length
        have := hlvl _ hcurmem
        simpa [hdnew] using this
      · rw [if_neg h0] at heq
        subst heq
        exact hlvl _ he0
    · subst heq
      show (⟨[], false, d.level + 1⟩ : TrieData).level = (cur ++ [c]).length
      have := hlvl _ hcurmem
      simp at this ⊢
      omega
  · intro e he
    rcases hmem2 e he with ⟨e0, he0, heq⟩ | heq
    · by_cases h0 : e0.1 = cur
      · rw [if_pos h0] at heq
        subst heq
        show dnew.childrenKeys.Nodup
        rw [hdnew]
        show (d.childrenKeys ++ [c]).Nodup
        rw [List.nodup_append]
        exact ⟨hcknd _ hcurmem, List.nodup_singleton _, by
          intro a ha hb
          simp at hb
          exact hc (hb ▸ ha)⟩
      · rw [if_neg h0] at heq
        subst heq
        exact hcknd _ he0
    · subst heq
      show (⟨[], false, d.level + 1⟩ : TrieData).childrenKeys.Nodup
      simp
  · intro e he c' hc'
    rcases hmem2 e he with ⟨e0, he0, heq⟩ | heq
    · by_cases h0 : e0.1 = cur
      · rw [if_pos h0] at heq
        subst heq
        have hc2 : c' ∈ d.childrenKeys ++ [c] := hc'
        rcases List.mem_append.mp hc2 with hold | hnew
        · exact hmono _ (hacc _ hcurmem c' hold)
        · have hcc : c' = c := by simpa using hnew
          subst hcc
          show (getT st2 (cur ++ [c'])).isSome = true
          rw [hgnew]
          rfl
      · rw [if_neg h0] at heq
        subst heq
        exact hmono _ (hacc _ he0 c' hc')
    · subst heq
      exact absurd hc' (by simp)
  · intro e he
    rcases hmem2 e he with ⟨e0, he0, heq⟩ | heq
    · by_cases h0 : e0.1 = cur
      · rw [if_pos h0] at heq
        subst heq
        exact hpok2 cur (by rw [← h0]; exact hpok _ he0)
      · rw [if_neg h0] at heq
        subst heq
        exact hpok2 _ (hpok _ he0)
    · subst heq
      show parentOKT st2 (cur ++ [c]) = true
      unfold parentOKT
      simp only [List.getLast?_concat, List.dropLast_concat]
      rw [hgcur]
      refine contains_iff_memChar.mpr ?_
      rw [hdnew]
      exact List.mem_append_right _ (by simp)

/-! ### Insert-walk lemmas -/

/-- Relation between stores: existing nodes survive with their terminal
flag intact, and any fresh node is non-terminal. -/
def StoreExtends (st st' : TStore) : Prop :=
  (∀ id d0, getT st id = some d0 →
    ∃ d', getT st' id = some d' ∧ d'.isEnd = d0.isEnd) ∧
  (∀ id d', getT st' id = some d' → getT st id = none → d'.isEnd = false)

theorem storeExtends_refl (st : TStore) : StoreExtends st st :=
  ⟨fun _ d0 h => ⟨d0, h, rfl⟩, fun _ _ h hn => by rw [h] at hn; cases hn⟩

theorem storeExtends_trans {st1 st2 st3 : TStore} (h12 : StoreExtends st1 st2)
    (h23 : StoreExtends st2 st3) : StoreExtends st1 st3 := by
  constructor
  · intro id d0 h
    obtain ⟨d1, hd1, he1⟩ := h12.1 id d0 h
    obtain ⟨d2, hd2, he2⟩ := h23.1 id d1 hd1
    exact ⟨d2, hd2, he2.trans he1⟩
  · intro id d' h3 h1
    cases h2 : getT st2 id with
    | none => exact h23.2 id d' h3 h2
    | some d2 =>
        have he2 : d2.isEnd = false := h12.2 id d2 h2 h1
        obtain ⟨d3, hd3, he3⟩ := h23.1 id d2 h2
        rw [h3] at hd3
        cases hd3
        exact he3.trans he2

theorem storeExtends_end {st st' : TStore} (h : StoreExtends st st')
    {id : NodeId} {d' : TrieData} (hg : getT st' id = some d') :
    (∃ d0, getT st id = some d0 ∧ d'.isEnd = d0.isEnd) ∨
    (getT st id = none ∧ d'.isEnd = false) := by
  cases h0 : getT st id with
  | none => exact Or.inr ⟨rfl, h.2 id d' hg h0⟩
  | some d0 =>
      obtain ⟨d1, hd1, he1⟩ := h.1 id d0 h0
      rw [hg] at hd1
      cases hd1
      exact Or.inl ⟨d0, rfl, he1⟩

theorem insertWalk_cons (st : TStore) (cur : NodeId) (c : Char)
    (rest : List Char) :
    insertWalk st cur (c :: rest) =
      insertWalk (match getT st cur with
        | some d =>
            if c ∈ d.childrenKeys then st
            else setT st cur { d with childrenKeys := d.childrenKeys ++ [c] } ++
              [(cur ++ [c], ⟨[], false, d.level + 1⟩)]
        | none => st) (cur ++ [c]) rest := rfl

theorem insertWalk_cons_mem {st : TStore} {cur : NodeId} {d : TrieData}
    (hg : getT st cur = some d) {c : Char} (hc : c ∈ d.childrenKeys)
    (rest : List Char) :
    insertWalk st cur (c :: rest) = insertWalk st (cur ++ [c]) rest := by
  rw [insertWalk_cons, hg]
  show insertWalk
      (if c ∈ d.childrenKeys then st
       else setT st cur { d with childrenKeys := d.childrenKeys ++ [c] } ++
         [(cur ++ [c], ⟨[], false, d.level + 1⟩)]) (cur ++ [c]) rest =
    insertWalk st (cur ++ [c]) rest
  rw [if_pos hc]

theorem insertWalk_cons_new {st : TStore} {cur : NodeId} {d : TrieData}
    (hg : getT st cur = some d) {c : Char} (hc : c ∉ d.childrenKeys)
    (rest : List Char) :
    insertWalk st cur (c :: rest) =
      insertWalk
        (setT st cur { d with childrenKeys := d.childrenKeys ++ [c] } ++
          [(cur ++ [c], ⟨[], false, d.level + 1⟩)]) (cur ++ [c]) rest := by
  rw [insertWalk_cons, hg]
  show insertWalk
      (if c ∈ d.childrenKeys then st
       else setT st cur { d with childrenKeys := d.childrenKeys ++ [c] } ++
         [(cur ++ [c], ⟨[], false, d.level + 1⟩)]) (cur ++ [c]) rest = _
  rw [if_neg hc]

theorem step_extends {st : TStore} (hwf : TrieWF st) {cur : NodeId}
    {d : TrieData} (hcur : getT st cur = some d) {c : Char}
    (hc : c ∉ d.childrenKeys) :
    StoreExtends st
      (setT st cur { d with childrenKeys := d.childrenKeys ++ [c] } ++
        [(cur ++ [c], ⟨[], false, d.level + 1⟩)]) := by
  obtain ⟨hgcur, hgnew, hgother, hkeys⟩ := step_facts hwf hcur hc
  have hnone : getT st (cur ++ [c]) = none := not_mem_child_of_not_key hwf hcur hc
  constructor
  · intro id d0 h0
    by_cases h1 : id = cur
    · subst h1
      rw [hcur] at h0
      cases h0
      exact ⟨_, hgcur, rfl⟩
    · by_cases h2 : id = cur ++ [c]
      · subst h2
        rw [hnone] at h0
        cases h0
      · exact ⟨d0, by rw [hgother id h1 h2]; exact h0, rfl⟩
  · intro id d' h' hn
    by_cases h1 : id = cur
    · subst h1
      rw [hcur] at hn
      cases hn
    · by_cases h2 : id = cur ++ [c]
      · subst h2
        rw [hgnew] at h'
        cases h'
        rfl
      · rw [hgother id h1 h2] at h'
        rw [h'] at hn
        cases hn

/-- Master induction for `insertWalk`: well-formedness is preserved, the
target node exists afterwards, and terminal flags are preserved. -/
theorem insertWalk_master :
    ∀ (cs : List Char) (st : TStore) (cur : NodeId) (d : TrieData),
      TrieWF st → getT st cur = some d →
      TrieWF (insertWalk st cur cs) ∧
      (∃ dfin, getT (insertWalk st cur cs) (cur ++ cs) = some dfin) ∧
      StoreExtends st (insertWalk st cur cs) := by
  intro cs
  induction cs with
  | nil =>
      intro st cur d hwf hcur
      exact ⟨hwf, ⟨d, by simpa using hcur⟩, storeExtends_refl st⟩
  | cons c rest ih =>
      intro st cur d hwf hcur
      by_cases hc : c ∈ d.childrenKeys
      · rw [insertWalk_cons_mem hcur hc]
        obtain ⟨d1, hd1⟩ := child_spec hwf hcur hc
        obtain ⟨hwf', hfin, hext⟩ := ih st (cur ++ [c]) d1 hwf hd1
        refine ⟨hwf', ?_, hext⟩
        obtain ⟨dfin, hdfin⟩ := hfin
        have hmv : cur ++ c :: rest = (cur ++ [c]) ++ rest := by simp
        exact ⟨dfin, by rw [hmv]; exact hdfin⟩
      · rw [insertWalk_cons_new hcur hc]
        have hwf1 := step_wf hwf hcur hc
        obtain ⟨hgcur, hgnew, hgother, hkeys⟩ := step_facts hwf hcur hc
        obtain ⟨hwf', hfin, hext⟩ := ih _ (cur ++ [c]) _ hwf1 hgnew
        refine ⟨hwf', ?_, storeExtends_trans (step_extends hwf hcur hc) hext⟩
        obtain ⟨dfin, hdfin⟩ := hfin
        have hmv : cur ++ c :: rest = (cur ++ [c]) ++ rest := by simp
        exact ⟨dfin, by rw [hmv]; exact hdfin⟩

/-- When the full path already exists, the walk is a no-op. -/
theorem insertWalk_resolved :
    ∀ (cs : List Char) (st : TStore) (cur : NodeId),
      (resolveT st cur cs).isSome = true → insertWalk st cur cs = st := by
  intro cs
  induction cs with
  | nil => intro st cur _; rfl
  | cons c rest ih =>
      intro st cur hres
      unfold resolveT at hres
      cases hg : getT st cur with
      | none => rw [hg] at hres; simp at hres
      | some d =>
          rw [hg] at hres
          have hres2 : (if c ∈ d.childrenKeys then resolveT st (cur ++ [c]) rest
              else none).isSome = true := hres
          by_cases hc : c ∈ d.childrenKeys
          · rw [if_pos hc] at hres2
            rw [insertWalk_cons_mem hg hc]
            exact ih st (cur ++ [c]) hres2
          · rw [if_neg hc] at hres2
            simp at hres2

theorem trieContains_some {st : TStore} {w : NodeId} {d : TrieData}
    (h : getT st w = some d) : TrieContains st w = d.isEnd := by
  unfold TrieContains
  rw [h]

theorem trieContains_setEnd {st : TStore} {w : NodeId} {d : TrieData}
    (h : getT st w = some d) :
    TrieContains (setT st w { d with isEnd := true }) w = true := by
  rw [trieContains_some (getT_setT_self h _)]

/-- C5: `Trie.insert` returns `false` and leaves the trie completely
unchanged whenever the (normalized) sequence is empty, contains a character
outside the DNA alphabet, or was already inserted; otherwise it returns
`true`, marks the final node of the walked path terminal, and increments
the stored pattern count by exactly one. -/
theorem C5_trie_insert_contract (t : Trie) (w : List Char)
    (hwf : TrieWF t.nodes) :
    ((normalizeSeq w = [] ∨ (∃ c ∈ normalizeSeq w, isATGC c = false) ∨
        TrieContains t.nodes (normalizeSeq w) = true) →
      t.insert w = (t, false)) ∧
    (normalizeSeq w ≠ [] → (∀ c ∈ normalizeSeq w, isATGC c = true) →
      TrieContains t.nodes (normalizeSeq w) = false →
      (t.insert w).2 = true ∧
      (t.insert w).1.wordCount = t.wordCount + 1 ∧
      TrieContains (t.insert w).1.nodes (normalizeSeq w) = true) := by
  constructor
  · intro hrej
    by_cases hv : validSeq (normalizeSeq w) = true
    · have hdup : TrieContains t.nodes (normalizeSeq w) = true := by
        rcases hrej with he | hbad | hd
        · exfalso
          rw [validSeq, he] at hv
          simp at hv
        · exfalso
          obtain ⟨c, hcmem, hcbad⟩ := hbad
          rw [validSeq] at hv
          simp at hv
          have := hv.2 c hcmem
          rw [hcbad] at this
          cases this
        · exact hd
      unfold TrieContains at hdup
      cases hg : getT t.nodes (normalizeSeq w) with
      | none => rw [hg] at hdup; cases hdup
      | some d =>
          rw [hg] at hdup
          have hres : (resolveT t.nodes [] (normalizeSeq w)).isSome = true := by
            rw [resolveT_of_mem hwf (mem_keysT_of_getT hg) (normalizeSeq w) []
              (by simp)]
            rfl
          have hker := insertWalk_resolved (normalizeSeq w) t.nodes [] hres
          simp only [Trie.insert]
          rw [if_neg (by simp [hv])]
          rw [hker, hg]
          show (if d.isEnd then ((⟨t.nodes, t.wordCount⟩ : Trie), false)
            else (⟨setT t.nodes (normalizeSeq w) { d with isEnd := true },
              t.wordCount + 1⟩, true)) = (t, false)
          rw [if_pos hdup]
    · simp only [Trie.insert]
      rw [if_pos (by simpa using hv)]
  · intro hne hall hdup
    have hv : validSeq (normalizeSeq w) = true := by
      rw [validSeq]
      simp
      refine ⟨by simpa using hne, ?_⟩
      intro c hc
      exact hall c hc
    obtain ⟨droot, hroot⟩ := Option.isSome_iff_exists.mp hwf.2.1
    obtain ⟨hwf', ⟨dfin, hdfin⟩, hext⟩ :=
      insertWalk_master (normalizeSeq w) t.nodes [] droot hwf hroot
    rw [List.nil_append] at hdfin
    have hend : dfin.isEnd = false := by
      rcases storeExtends_end hext hdfin with ⟨d0, hd0, he⟩ | ⟨_, he⟩
      · rw [trieContains_some hd0] at hdup
        rw [he, hdup]
      · exact he
    simp only [Trie.insert]
    rw [if_neg (by simp [hv])]
    split
    next d heq =>
      rw [hdfin] at heq
      injection heq with heq2
      subst heq2
      rw [if_neg (by simp [hend])]
      exact ⟨rfl, rfl, trieContains_setEnd hdfin⟩
    next heq =>
      rw [hdfin] at heq
      cases heq

theorem C5_trie_insert_contract_witness :
    (Trie.empty.insert ['A']).2 = true ∧
    (Trie.empty.insert ['A']).1.wordCount = 1 ∧
    TrieContains (Trie.empty.insert ['A']).1.nodes ['A'] = true := by
  have hn : normalizeSeq ['A'] = ['A'] := by decide
  have h := (C5_trie_insert_contract Trie.empty ['A'] (by decide)).2
    (by decide) (by decide) (by decide)
  rw [hn] at h
  have hwc : Trie.empty.wordCount = 0 := rfl
  exact ⟨h.1, by rw [h.2.1, hwc], h.2.2⟩

/-! ### Search-walk lemmas -/

theorem resolveT_nil (st : TStore) (cur : NodeId) :
    resolveT st cur [] = some cur := rfl

theorem resolveT_cons_mem {st : TStore} {cur : NodeId} {d : TrieData}
    (hg : getT st cur = some d) {c : Char} (hc : c ∈ d.childrenKeys)
    (rest : List Char) :
    resolveT st cur (c :: rest) = resolveT st (cur ++ [c]) rest := by
  show (match getT st cur with
    | some d => if c ∈ d.childrenKeys then resolveT st (cur ++ [c]) rest else none
    | none => none) = resolveT st (cur ++ [c]) rest
  rw [hg]
  show (if c ∈ d.childrenKeys then resolveT st (cur ++ [c]) rest else none) =
    resolveT st (cur ++ [c]) rest
  exact if_pos hc

theorem resolveT_cons_notmem {st : TStore} {cur : NodeId} {d : TrieData}
    (hg : getT st cur = some d) {c : Char} (hc : c ∉ d.childrenKeys)
    (rest : List Char) :
    resolveT st cur (c :: rest) = none := by
  show (match getT st cur with
    | some d => if c ∈ d.childrenKeys then resolveT st (cur ++ [c]) rest else none
    | none => none) = none
  rw [hg]
  show (if c ∈ d.childrenKeys then resolveT st (cur ++ [c]) rest else none) = none
  exact if_neg hc

theorem searchWalk_nil_some {st : TStore} {cur : NodeId} {d : TrieData}
    (hg : getT st cur = some d) (path : List NodeId) :
    searchWalk st cur [] path = ⟨d.isEnd, !d.isEnd && !d.childrenKeys.isEmpty, path⟩ := by
  show (match getT st cur with
    | some d => (⟨d.isEnd, !d.isEnd && !d.childrenKeys.isEmpty, path⟩ : TrieSearchResult)
    | none => ⟨false, false, path⟩) = _
  rw [hg]

theorem searchWalk_cons_mem {st : TStore} {cur : NodeId} {d : TrieData}
    (hg : getT st cur = some d) {c : Char} (hc : c ∈ d.childrenKeys)
    (rest : List Char) (path : List NodeId) :
    searchWalk st cur (c :: rest) path =
      searchWalk st (cur ++ [c]) rest (path ++ [cur ++ [c]]) := by
  show (match getT st cur with
    | some d =>
        if c ∈ d.childrenKeys then
          searchWalk st (cur ++ [c]) rest (path ++ [cur ++ [c]])
        else ⟨false, false, path⟩
    | none => ⟨false, false, path⟩) =
    searchWalk st (cur ++ [c]) rest (path ++ [cur ++ [c]])
  rw [hg]
  show (if c ∈ d.childrenKeys then
      searchWalk st (cur ++ [c]) rest (path ++ [cur ++ [c]])
    else ⟨false, false, path⟩) =
    searchWalk st (cur ++ [c]) rest (path ++ [cur ++ [c]])
  exact if_pos hc

theorem searchWalk_cons_notmem {st : TStore} {cur : NodeId} {d : TrieData}
    (hg : getT st cur = some d) {c : Char} (hc : c ∉ d.childrenKeys)
    (rest : List Char) (path : List NodeId) :
    searchWalk st cur (c :: rest) path = ⟨false, false, path⟩ := by
  show (match getT st cur with
    | some d =>
        if c ∈ d.childrenKeys then
          searchWalk st (cur ++ [c]) rest (path ++ [cur ++ [c]])
        else ⟨false, false, path⟩
    | none => ⟨false, false, path⟩) = (⟨false, false, path⟩ : TrieSearchResult)
  rw [hg]
  show (if c ∈ d.childrenKeys then
      searchWalk st (cur ++ [c]) rest (path ++ [cur ++ [c]])
    else ⟨false, false, path⟩) = (⟨false, false, path⟩ : TrieSearchResult)
  exact if_neg hc

theorem searchWalk_some :
    ∀ (cs : List Char) (st : TStore) (cur : NodeId) (path : List NodeId)
      (dcur : TrieData) (e : NodeId), TrieWF st → getT st cur = some dcur →
      resolveT st cur cs = some e →
      ∃ d, getT st e = some d ∧
        (searchWalk st cur cs path).found = d.isEnd ∧
        (searchWalk st cur cs path).isPrefixOnly =
          (!d.isEnd && !d.childrenKeys.isEmpty) := by
  intro cs
  induction cs with
  | nil =>
      intro st cur path dcur e hwf hcur hres
      rw [resolveT_nil] at hres
      injection hres with hres
      subst hres
      rw [searchWalk_nil_some hcur]
      exact ⟨dcur, hcur, rfl, rfl⟩
  | cons c rest ih =>
      intro st cur path dcur e hwf hcur hres
      by_cases hc : c ∈ dcur.childrenKeys
      · rw [resolveT_cons_mem hcur hc] at hres
        obtain ⟨d1, hd1⟩ := child_spec hwf hcur hc
        rw [searchWalk_cons_mem hcur hc]
        exact ih st (cur ++ [c]) (path ++ [cur ++ [c]]) d1 e hwf hd1 hres
      · rw [resolveT_cons_notmem hcur hc] at hres
        cases hres

theorem searchWalk_none :
    ∀ (cs : List Char) (st : TStore) (cur : NodeId) (path : List NodeId)
      (dcur : TrieData), TrieWF st → getT st cur = some dcur →
      resolveT st cur cs = none →
      (searchWalk st cur cs path).found = false ∧
      (searchWalk st cur cs path).isPrefixOnly = false ∧
      (searchWalk st cur cs path).path.length < path.length + cs.length := by
  intro cs
  induction cs with
  | nil =>
      intro st cur path dcur hwf hcur hres
      rw [resolveT_nil] at hres
      cases hres
  | cons c rest ih =>
      intro st cur path dcur hwf hcur hres
      by_cases hc : c ∈ dcur.childrenKeys
      · rw [resolveT_cons_mem hcur hc] at hres
        obtain ⟨d1, hd1⟩ := child_spec hwf hcur hc
        rw [searchWalk_cons_mem hcur hc]
        obtain ⟨h1, h2, h3⟩ :=
          ih st (cur ++ [c]) (path ++ [cur ++ [c]]) d1 hwf hd1 hres
        refine ⟨h1, h2, ?_⟩
        simp only [List.length_append, List.length_singleton] at h3
        simp only [List.length_cons]
        omega
      · rw [searchWalk_cons_notmem hcur hc]
        refine ⟨rfl, rfl, ?_⟩
        simp only [List.length_cons]
        omega

/-- C6: `Trie.search` returns `found = true` exactly when the full
(normalized) sequence resolves to a terminal node, `isPrefixOnly = true`
exactly when it resolves to a non-terminal node with at least one child,
and a missing transition yields `found = false`, `isPrefixOnly = false`
and a truncated path.  In particular, after inserting `ATCG` and `ATCGAT`
but not `ATCGA`, searching `ATCGA` yields `found = false`,
`isPrefixOnly = true`. -/
theorem C6_trie_search_contract (t : Trie) (w : List Char)
    (hwf : TrieWF t.nodes) :
    ((t.search w).found = true ↔
      ∃ e d, resolveT t.nodes [] (normalizeSeq w) = some e ∧
        getT t.nodes e = some d ∧ d.isEnd = true) ∧
    ((t.search w).isPrefixOnly = true ↔
      ∃ e d, resolveT t.nodes [] (normalizeSeq w) = some e ∧
        getT t.nodes e = some d ∧ d.isEnd = false ∧ d.childrenKeys ≠ []) ∧
    (resolveT t.nodes [] (normalizeSeq w) = none →
      (t.search w).found = false ∧ (t.search w).isPrefixOnly = false ∧
      (t.search w).path.length < (normalizeSeq w).length + 1) ∧
    ((((Trie.empty.insert ['A', 'T', 'C', 'G']).1.insert
        ['A', 'T', 'C', 'G', 'A', 'T']).1.search ['A', 'T', 'C', 'G', 'A']).found =
        false ∧
      (((Trie.empty.insert ['A', 'T', 'C', 'G']).1.insert
        ['A', 'T', 'C', 'G', 'A', 'T']).1.search ['A', 'T', 'C', 'G', 'A']).isPrefixOnly =
        true) := by
  obtain ⟨droot, hroot⟩ := Option.isSome_iff_exists.mp hwf.2.1
  refine ⟨?_, ?_, ?_, by decide⟩
  · cases hres : resolveT t.nodes [] (normalizeSeq w) with
    | some e =>
        obtain ⟨d, hd, hf, _⟩ :=
          searchWalk_some (normalizeSeq w) t.nodes [] [[]] droot e hwf hroot hres
        show (searchWalk t.nodes [] (normalizeSeq w) [[]]).found = true ↔ _
        rw [hf]
        constructor
        · intro hend
          exact ⟨e, d, rfl, hd, hend⟩
        · rintro ⟨e', d', he', hd', hend'⟩
          injection he' with he'
          subst he'
          rw [hd] at hd'
          injection hd' with hd'
          subst hd'
          exact hend'
    | none =>
        obtain ⟨hf, _, _⟩ :=
          searchWalk_none (normalizeSeq w) t.nodes [] [[]] droot hwf hroot hres
        show (searchWalk t.nodes [] (normalizeSeq w) [[]]).found = true ↔ _
        rw [hf]
        constructor
        · intro h; cases h
        · rintro ⟨e', d', he', _, _⟩
          cases he'
  · cases hres : resolveT t.nodes [] (normalizeSeq w) with
    | some e =>
        obtain ⟨d, hd, _, hp⟩ :=
          searchWalk_some (normalizeSeq w) t.nodes [] [[]] droot e hwf hroot hres
        show (searchWalk t.nodes [] (normalizeSeq w) [[]]).isPrefixOnly = true ↔ _
        rw [hp]
        constructor
        · intro hb
          have hb2 : d.isEnd = false ∧ d.childrenKeys.isEmpty = false := by
            constructor
            · cases he : d.isEnd
              · rfl
              · rw [he] at hb; simp at hb
            · cases hk : d.childrenKeys.isEmpty
              · rfl
              · rw [hk] at hb; simp at hb
          refine ⟨e, d, rfl, hd, hb2.1, ?_⟩
          intro hnil
          rw [hnil] at hb2
          simp at hb2
        · rintro ⟨e', d', he', hd', hend', hne'⟩
          injection he' with he'
          subst he'
          rw [hd] at hd'
          injection hd' with hd'
          subst hd'
          rw [hend']
          simp
          exact hne'
    | none =>
        obtain ⟨_, hp, _⟩ :=
          searchWalk_none (normalizeSeq w) t.nodes [] [[]] droot hwf hroot hres
        show (searchWalk t.nodes [] (normalizeSeq w) [[]]).isPrefixOnly = true ↔ _
        rw [hp]
        constructor
        · intro h; cases h
        · rintro ⟨e', d', he', _, _⟩
          cases he'
  · intro hres
    obtain ⟨hf, hp, hl⟩ :=
      searchWalk_none (normalizeSeq w) t.nodes [] [[]] droot hwf hroot hres
    refine ⟨hf, hp, ?_⟩
    show (searchWalk t.nodes [] (normalizeSeq w) [[]]).path.length <
      (normalizeSeq w).length + 1
    have h2 := hl
    simp only [List.length_singleton] at h2
    omega

theorem C6_trie_search_contract_witness :
    (((Trie.empty.insert ['A', 'T', 'C', 'G']).1.insert
        ['A', 'T', 'C', 'G', 'A', 'T']).1.search ['A', 'T', 'C', 'G', 'A']).found =
      false ∧
    (((Trie.empty.insert ['A', 'T', 'C', 'G']).1.insert
        ['A', 'T', 'C', 'G', 'A', 'T']).1.search ['A', 'T', 'C', 'G', 'A']).isPrefixOnly =
      true :=
  (C6_trie_search_contract Trie.empty [] (by decide)).2.2.2

/-! ### Scenario A (trie): insert ATCG, ATCGA, ATCGAT -/

/-- Store of scenario A: the three sequences `ATCG`, `ATCGA`, `ATCGAT`
inserted into an empty trie, mirroring the demo's default sequences. -/
def trieScenarioA : Trie :=
  (((Trie.empty.insert ['A', 'T', 'C', 'G']).1.insert
      ['A', 'T', 'C', 'G', 'A']).1.insert ['A', 'T', 'C', 'G', 'A', 'T']).1

/-- C9 counterexample: after inserting ATCG, ATCGA and ATCGAT, the trie
has three terminal nodes (ATCGA was marked terminal at depth 5 as well),
not exactly two. -/
theorem C9_trie_scenario_counterexample :
    ((trieScenarioA.nodes.filter (fun e => e.2.isEnd)).length = 3) ∧
    ¬ ((trieScenarioA.nodes.filter (fun e => e.2.isEnd)).length = 2) := by
  decide

/-- C9 (amended): after inserting ATCG, ATCGA and ATCGAT,
`search "ATCGAT"` finds the word, the trie has exactly 7 nodes (root plus
one per character of the longest sequence), and exactly three nodes are
terminal, at depths 4, 5 and 6. -/
theorem C9_trie_scenario_amended :
    (trieScenarioA.search ['A', 'T', 'C', 'G', 'A', 'T']).found = true ∧
    trieScenarioA.getAllNodes.length = 7 ∧
    (trieScenarioA.nodes.filter (fun e => e.2.isEnd)).map (fun e => e.2.level) =
      [4, 5, 6] := by
  decide

/-! ## Aho-Corasick automaton (AhoCorasickDemo source) -/

/-- Generic path-keyed store operations shared with the automaton model. -/
def getS {α : Type} (st : List (NodeId × α)) (id : NodeId) : Option α :=
  match st with
  | [] => none
  | e :: rest => if e.1 = id then some e.2 else getS rest id

def setS {α : Type} (st : List (NodeId × α)) (id : NodeId) (d : α) :
    List (NodeId × α) :=
  st.map fun e => if e.1 = id then (id, d) else e

def keysS {α : Type} (st : List (NodeId × α)) : List NodeId := st.map (·.1)

theorem getS_nil {α : Type} (id : NodeId) : getS ([] : List (NodeId × α)) id = none := rfl

theorem getS_cons {α : Type} (e : NodeId × α) (st : List (NodeId × α)) (id : NodeId) :
    getS (e :: st) id = if e.1 = id then some e.2 else getS st id := rfl

theorem setS_cons {α : Type} (e : NodeId × α) (st : List (NodeId × α)) (id : NodeId)
    (d : α) :
    setS (e :: st) id d = (if e.1 = id then (id, d) else e) :: setS st id d := by
  simp [setS]

theorem keysS_cons {α : Type} (e : NodeId × α) (st : List (NodeId × α)) :
    keysS (e :: st) = e.1 :: keysS st := rfl

theorem getS_mem {α : Type} {st : List (NodeId × α)} {id : NodeId} {d : α}
    (h : getS st id = some d) : (id, d) ∈ st := by
  induction st with
  | nil => simp [getS_nil] at h
  | cons e rest ih =>
      rw [getS_cons] at h
      by_cases he : e.1 = id
      · rw [if_pos he] at h
        have he2 : e = (id, d) := by
          cases e
          simp at he h
          simp [he, h]
      
        simp [he2]
      · rw [if_neg he] at h
        exact List.mem_cons_of_mem _ (ih h)

theorem getS_isSome_iff_mem {α : Type} {st : List (NodeId × α)} {id : NodeId} :
    (getS st id).isSome = true ↔ id ∈ keysS st := by
  induction st with
  | nil => simp [getS_nil, keysS]
  | cons e rest ih =>
      rw [getS_cons, keysS_cons]
      by_cases he : e.1 = id
      · simp [he]
      · rw [if_neg he, List.mem_cons]
        simp only [ih]
        constructor
        · exact fun h => Or.inr h
        · rintro (h | h)
          · exact absurd h.symm he
          · exact h

theorem mem_keysS_of_getS {α : Type} {st : List (NodeId × α)} {id : NodeId} {d : α}
    (h : getS st id = some d) : id ∈ keysS st :=
  getS_isSome_iff_mem.mp (by simp [h])

theorem getS_eq_none_of_not_mem {α : Type} {st : List (NodeId × α)} {id : NodeId}
    (h : id ∉ keysS st) : getS st id = none := by
  cases hg : getS st id with
  | none => rfl
  | some d => exact absurd (getS_isSome_iff_mem.mp (by simp [hg])) h

theorem keysS_setS {α : Type} (st : List (NodeId × α)) (id : NodeId) (d : α) :
    keysS (setS st id d) = keysS st := by
  induction st with
  | nil => rfl
  | cons e rest ih =>
      rw [setS_cons, keysS_cons, keysS_cons, ih]
      by_cases he : e.1 = id
      · simp [he]
      · simp [he]

theorem getS_setS_self {α : Type} {st : List (NodeId × α)} {id : NodeId} {d0 : α}
    (h : getS st id = some d0) (d : α) : getS (setS st id d) id = some d := by
  induction st with
  | nil => simp [getS_nil] at h
  | cons e rest ih =>
      rw [getS_cons] at h
      rw [setS_cons]
      by_cases he : e.1 = id
      · rw [if_pos he, getS_cons]
        simp
      · rw [if_neg he] at h
        rw [if_neg he, getS_cons, if_neg he]
        exact ih h

theorem getS_setS_other {α : Type} {st : List (NodeId × α)} {id id' : NodeId}
    (hne : id' ≠ id) (d : α) : getS (setS st id d) id' = getS st id' := by
  induction st with
  | nil => rfl
  | cons e rest ih =>
      rw [setS_cons, getS_cons, getS_cons]
      by_cases he : e.1 = id
      · rw [if_pos he]
        simp only []
        rw [if_neg (Ne.symm hne), if_neg (by rw [he]; exact Ne.symm hne)]
        exact ih
      · rw [if_neg he]
        by_cases he' : e.1 = id'
        · rw [if_pos he', if_pos he']
        · rw [if_neg he', if_neg he']
          exact ih

theorem getS_setS_none {α : Type} {st : List (NodeId × α)} {id : NodeId}
    (h : getS st id = none) (d : α) : getS (setS st id d) id = none := by
  induction st with
  | nil => rfl
  | cons e rest ih =>
      rw [getS_cons] at h
      rw [setS_cons]
      by_cases he : e.1 = id
      · rw [if_pos he] at h
        simp at h
      · rw [if_neg he] at h
        rw [if_neg he, getS_cons, if_neg he]
        exact ih h

theorem setS_length {α : Type} (st : List (NodeId × α)) (id : NodeId) (d : α) :
    (setS st id d).length = st.length := by
  simp [setS]

theorem getS_append_some {α : Type} {st st2 : List (NodeId × α)} {id : NodeId}
    {d : α} (h : getS st id = some d) : getS (st ++ st2) id = some d := by
  induction st with
  | nil => simp [getS_nil] at h
  | cons e rest ih =>
      rw [getS_cons] at h
      rw [List.cons_append, getS_cons]
      by_cases he : e.1 = id
      · rwa [if_pos he] at h ⊢
      · rw [if_neg he] at h ⊢
        exact ih h

theorem getS_append_none {α : Type} {st st2 : List (NodeId × α)} {id : NodeId}
    (h : getS st id = none) : getS (st ++ st2) id = getS st2 id := by
  induction st with
  | nil => rfl
  | cons e rest ih =>
      rw [getS_cons] at h
      rw [List.cons_append, getS_cons]
      by_cases he : e.1 = id
      · rw [if_pos he] at h
        simp at h
      · rw [if_neg he] at h ⊢
        exact ih h

/-- Per-node data of the source's `ACNode` (display coordinates and
highlight flags omitted).  `fail` is the failure link as a node id
(`none` models the JavaScript `null`), `out` is the ordered list of
output-link targets, `pat` is the `pattern` field set on terminal
nodes. -/
structure ACData where
  childrenKeys : List Char
  isEnd : Bool
  pat : Option (List Char)
  fail : Option NodeId
  out : List NodeId
  depth : Nat
deriving DecidableEq

abbrev AStore := List (NodeId × ACData)

/-- Model of the `AhoCorasick` class' static part: node store plus the
pattern list.  The mutable search cursor is threaded explicitly through
`searchLoop`. -/
structure AhoCorasick where
  nodes : AStore
  patterns : List (List Char)
deriving DecidableEq

/-- Fresh automaton with a single root, as built by the constructor and
`clear()`. -/
def AhoCorasick.empty : AhoCorasick :=
  ⟨[([], ⟨[], false, none, none, [], 0⟩)], []⟩

/-- Trie walk of `addPattern`, creating missing nodes along the
(lowercased) path. -/
def acWalk (st : AStore) (cur : NodeId) (cs : List Char) : AStore :=
  match cs with
  | [] => st
  | c :: rest =>
      let st' :=
        match getS st cur with
        | some d =>
            if c ∈ d.childrenKeys then st
            else
              setS st cur { d with childrenKeys := d.childrenKeys ++ [c] } ++
                [(cur ++ [c], ⟨[], false, none, none, [], d.depth + 1⟩)]
        | none => st
      acWalk st' (cur ++ [c]) rest

/-- Model of `AhoCorasick.addPattern`: validate, reject duplicates, then
walk/create nodes over the lowercased pattern and mark the final node
terminal with its pattern label. -/
def AhoCorasick.addPattern (a : AhoCorasick) (p : List Char) : AhoCorasick × Bool :=
  let np := normalizeSeq p
  if ¬ validSeq np then (a, false)
  else if np ∈ a.patterns then (a, false)
  else
    let low := jsLower np
    let st := acWalk a.nodes [] low
    match getS st low with
    | some d =>
        (⟨setS st low { d with isEnd := true, pat := some np },
          a.patterns ++ [np]⟩, true)
    | none => (⟨st, a.patterns ++ [np]⟩, true)

/-- Fold of `addPattern` over a pattern list, as done by the demo's
preset loader before a single `buildFailureLinks`. -/
def addPatterns (ps : List (List Char)) : AhoCorasick :=
  ps.foldl (fun a p => (a.addPattern p).1) AhoCorasick.empty

def failOf (st : AStore) (id : NodeId) : Option NodeId :=
  match getS st id with
  | some d => d.fail
  | none => none

def hasChildA (st : AStore) (id : NodeId) (c : Char) : Bool :=
  match getS st id with
  | some d => d.childrenKeys.contains c
  | none => false

def isEndA (st : AStore) (id : NodeId) : Bool :=
  match getS st id with
  | some d => d.isEnd
  | none => false

/-- The `while (failureState !== null && !failureState.children.has(char))`
loop of `buildFailureLinks` (also the transition loop of
`processCharacter`), with fuel bounding the chain length; the store size
provably suffices on well-formed stores. -/
def findFailure (st : AStore) : Nat → Option NodeId → Char → Option NodeId
  | 0, _, _ => none
  | _ + 1, none, _ => none
  | fuel + 1, some f, c =>
      if hasChildA st f c then some f
      else findFailure st fuel (failOf st f) c

/-- The `while (outputState !== null)` loop collecting terminal nodes
along the failure chain. -/
def collectOut (st : AStore) : Nat → Option NodeId → List NodeId
  | 0, _ => []
  | _ + 1, none => []
  | fuel + 1, some f =>
      (if isEndA st f then [f] else []) ++ collectOut st fuel (failOf st f)

/-- Processing of one child inside the BFS loop: find the failure link,
store it, then compute the output links by walking the freshly written
failure chain. -/
def linkChild (st : AStore) (parent : NodeId) (c : Char) : AStore :=
  match getS st (parent ++ [c]) with
  | none => st
  | some cd =>
      let fres := findFailure st st.length (failOf st parent) c
      let flink : NodeId := match fres with | none => [] | some f => f ++ [c]
      let st1 := setS st (parent ++ [c]) { cd with fail := some flink }
      let outs := collectOut st1 st1.length (some flink)
      setS st1 (parent ++ [c]) { cd with fail := some flink, out := outs }

/-- Processing of one dequeued node: link every child (in key order) and
return the child ids to enqueue. -/
def processNode (st : AStore) (cur : NodeId) : AStore × List NodeId :=
  let kids := match getS st cur with
    | some d => d.childrenKeys
    | none => []
  (kids.foldl (fun s c => linkChild s cur c) st, kids.map (fun c => cur ++ [c]))

/-- The `while (queue.length > 0)` loop of `buildFailureLinks`, with fuel
(which provably suffices at `3 * store size + 1`). -/
def bfsLoop : Nat → AStore → List NodeId → AStore
  | 0, st, _ => st
  | _ + 1, st, [] => st
  | fuel + 1, st, cur :: rest =>
      bfsLoop fuel (processNode st cur).1 (rest ++ (processNode st cur).2)

/-- Model of `AhoCorasick.buildFailureLinks`: link all depth-1 nodes to
the root and enqueue them, then process the queue in breadth-first
order. -/
def AhoCorasick.buildFailureLinks (a : AhoCorasick) : AhoCorasick :=
  let rootKids := (match getS a.nodes [] with
    | some d => d.childrenKeys
    | none => []).map (fun c => ([c] : NodeId))
  let st0 := rootKids.foldl (fun st k =>
    match getS st k with
    | some d => setS st k { d with fail := some [] }
    | none => st) a.nodes
  ⟨bfsLoop (3 * a.nodes.length + 1) st0 rootKids, a.patterns⟩

/-- Model of the source's `Match` record.  Positions are integers since
`position - pattern.length + 1` is computed over JavaScript numbers. -/
structure ACMatch where
  pattern : List Char
  position : Int
  endPosition : Int
deriving DecidableEq

/-- Transition step of `processCharacter`: walk the failure chain until a
node with a child on `c` is found; on `null` reset to the root, else move
to that child. -/
def nextState (st : AStore) (s : NodeId) (c : Char) : NodeId :=
  match findFailure st st.length (some s) c with
  | none => []
  | some f => f ++ [c]

/-- Match emission of `processCharacter` at the new state: the state's own
pattern when terminal, then one match per output link.  The source's
non-null assertion `pattern!` is modelled by `Option.getD []`. -/
def matchesAt (st : AStore) (id : NodeId) (pos : Int) : List ACMatch :=
  match getS st id with
  | none => []
  | some d =>
      (if d.isEnd then
        [⟨d.pat.getD [], pos - (d.pat.getD []).length + 1, pos⟩]
      else []) ++
      d.out.map (fun oid =>
        let p := (match getS st oid with
          | some od => od.pat
          | none => none).getD []
        ⟨p, pos - p.length + 1, pos⟩)

/-- Model of `AhoCorasick.processCharacter` (the highlight bookkeeping of
the source is display-only and omitted): lowercase the character, move the
cursor, emit matches at the new state. -/
def processCharacter (st : AStore) (s : NodeId) (c : Char) (pos : Int) :
    NodeId × List ACMatch :=
  let c2 := Char.toLower c
  let s2 := nextState st s c2
  (s2, matchesAt st s2 pos)

/-- The per-character loop of `AhoCorasick.search`. -/
def searchLoop (st : AStore) : NodeId → List Char → Int → List ACMatch → List ACMatch
  | _, [], _, acc => acc
  | s, c :: rest, pos, acc =>
      let r := processCharacter st s c pos
      searchLoop st r.1 rest (pos + 1) (acc ++ r.2)

/-- Model of `AhoCorasick.search`: reset cursor and matches, then process
each (lowercased) character in order. -/
def AhoCorasick.search (a : AhoCorasick) (text : List Char) : List ACMatch :=
  searchLoop a.nodes [] (jsLower text) 0 []

/-- Scenario B automaton: patterns TCG and ATCG added, failure links
built, as loaded by the demo preset. -/
def acScenarioB : AhoCorasick :=
  (((AhoCorasick.empty.addPattern ['T', 'C', 'G']).1.addPattern
      ['A', 'T', 'C', 'G']).1).buildFailureLinks

/-- C4: with patterns TCG and ATCG, searching ATCGA returns exactly the
two matches (ATCG, 0, 3) and (TCG, 1, 3): the overlapping occurrence of
the shorter pattern is reported via the failure/output links. -/
theorem C4_overlap_scenario :
    acScenarioB.search ['A', 'T', 'C', 'G', 'A'] =
      [⟨['A', 'T', 'C', 'G'], 0, 3⟩, ⟨['T', 'C', 'G'], 1, 3⟩] := by
  decide

/-! ### Static well-formedness of automaton stores -/

/-- The parent of a non-root node is present and lists it as a child. -/
def parentOKA (st : AStore) (id : NodeId) : Bool :=
  match id.getLast? with
  | none => true
  | some c =>
      match getS st id.dropLast with
      | some d => d.childrenKeys.contains c
      | none => false

/-- Static well-formedness of an automaton store (decidable). -/
def ACWF (st : AStore) : Prop :=
  (keysS st).Nodup ∧
  (getS st []).isSome = true ∧
  (∀ e ∈ st, e.1 = [] → e.2.isEnd = false) ∧
  (∀ e ∈ st, e.2.depth = e.1.length) ∧
  (∀ e ∈ st, e.2.childrenKeys.Nodup) ∧
  (∀ e ∈ st, ∀ c ∈ e.2.childrenKeys, (getS st (e.1 ++ [c])).isSome = true) ∧
  (∀ e ∈ st, parentOKA st e.1 = true)

instance (st : AStore) : Decidable (ACWF st) := by
  unfold ACWF
  infer_instance

/-- All failure links are unset and all output lists empty (the state of
a store built by `addPattern` alone, before `buildFailureLinks`). -/
def Pristine (st : AStore) : Prop :=
  ∀ e ∈ st, e.2.fail = none ∧ e.2.out = []

theorem acParent_spec {st : AStore} (hpok : ∀ e ∈ st, parentOKA st e.1 = true)
    {id : NodeId} {c : Char} {d' : ACData} (h : getS st (id ++ [c]) = some d') :
    ∃ d, getS st id = some d ∧ c ∈ d.childrenKeys := by
  have hmem := getS_mem h
  have hpo := hpok _ hmem
  unfold parentOKA at hpo
  simp only [List.getLast?_concat, List.dropLast_concat] at hpo
  cases hg : getS st id with
  | none => rw [hg] at hpo; simp at hpo
  | some d =>
      rw [hg] at hpo
      exact ⟨d, rfl, contains_iff_memChar.mp hpo⟩

theorem acChild_spec {st : AStore}
    (hacc : ∀ e ∈ st, ∀ c ∈ e.2.childrenKeys, (getS st (e.1 ++ [c])).isSome = true)
    {id : NodeId} {d : ACData} (h : getS st id = some d) {c : Char}
    (hc : c ∈ d.childrenKeys) : ∃ d', getS st (id ++ [c]) = some d' :=
  Option.isSome_iff_exists.mp (hacc _ (getS_mem h) c hc)

theorem acMem_of_pre {st : AStore} (hpok : ∀ e ∈ st, parentOKA st e.1 = true)
    {id q : NodeId} (hid : id ∈ keysS st) (hq : isPre q id) : q ∈ keysS st := by
  induction id using List.reverseRecOn with
  | nil =>
      obtain ⟨t, ht⟩ := hq
      have hq0 : q = [] := by
        have := congrArg List.length ht
        simp at this
        exact List.eq_nil_of_length_eq_zero (by omega)
      simpa [hq0] using hid
  | append_singleton id' x ih =>
      by_cases hqe : q = id' ++ [x]
      · simpa [hqe] using hid
      · have hq' : isPre q id' := isPre_snoc_elim hq hqe
        obtain ⟨d', hd'⟩ := Option.isSome_iff_exists.mp (getS_isSome_iff_mem.mpr hid)
        obtain ⟨d, hd, _⟩ := acParent_spec hpok hd'
        exact ih (mem_keysS_of_getS hd) hq'

/-- On a duplicate-free, prefix-closed store every node's depth is
strictly below the store size (it has depth-many distinct proper
prefixes, plus itself, all in the store). -/
theorem mem_length_lt {st : AStore}
    (hpok : ∀ e ∈ st, parentOKA st e.1 = true) {id : NodeId}
    (hid : id ∈ keysS st) : id.length < st.length := by
  have hsub : ∀ j ∈ List.range (id.length + 1), id.take j ∈ keysS st := by
    intro j hj
    refine acMem_of_pre hpok hid ⟨id.drop j, ?_⟩
    rw [List.take_append_drop]
  have hinj : ((List.range (id.length + 1)).map (fun j => id.take j)).Nodup := by
    refine List.Nodup.map_on ?_ (List.nodup_range _)
    intro a ha b hb hab
    have la : (id.take a).length = a := by
      rw [List.length_take]
      exact Nat.min_eq_left (Nat.lt_succ_iff.mp (List.mem_range.mp ha))
    have lb : (id.take b).length = b := by
      rw [List.length_take]
      exact Nat.min_eq_left (Nat.lt_succ_iff.mp (List.mem_range.mp hb))
    rw [← la, ← lb, hab]
  have hsubset : ((List.range (id.length + 1)).map (fun j => id.take j)) ⊆
      keysS st := by
    intro x hx
    obtain ⟨j, hj, rfl⟩ := List.mem_map.mp hx
    exact hsub j hj
  have hle := (List.subperm_of_subset hinj hsubset).length_le
  have hlen : ((List.range (id.length + 1)).map (fun j => id.take j)).length =
      id.length + 1 := by simp
  have hkey : (keysS st).length = st.length := by simp [keysS]
  omega

/-! ### Failure-chain walk lemmas -/

/-- Entry-wise failure-link sanity: every set link points into the store
at strictly smaller depth. -/
def FailDec (st : AStore) : Prop :=
  ∀ e ∈ st, ∀ f, e.2.fail = some f → f ∈ keysS st ∧ f.length < e.1.length

instance (st : AStore) : Decidable (FailDec st) := by
  unfold FailDec
  infer_instance

theorem failDec_getS {st : AStore} (h : FailDec st) {id : NodeId} {d : ACData}
    (hg : getS st id = some d) {f : NodeId} (hf : d.fail = some f) :
    f ∈ keysS st ∧ f.length < id.length :=
  h _ (getS_mem hg) f hf

theorem failOf_isSome {st : AStore} {id : NodeId} {f : NodeId}
    (h : failOf st id = some f) : ∃ d, getS st id = some d ∧ d.fail = some f := by
  unfold failOf at h
  cases hg : getS st id with
  | none => rw [hg] at h; cases h
  | some d => rw [hg] at h; exact ⟨d, rfl, h⟩

theorem findFailure_sound {st : AStore} (hdec : FailDec st) :
    ∀ (fuel : Nat) (os : Option NodeId) (c : Char) (f : NodeId),
      findFailure st fuel os c = some f →
      f ∈ keysS st ∧ hasChildA st f c = true ∧
      ∀ s0, os = some s0 → f.length ≤ s0.length := by
  intro fuel
  induction fuel with
  | zero => intro os c f h; cases h
  | succ fuel ih =>
      intro os c f h
      cases os with
      | none => cases h
      | some s0 =>
          unfold findFailure at h
          by_cases hc : hasChildA st s0 c = true
          · rw [if_pos hc] at h
            injection h with h
            subst h
            have hmem : s0 ∈ keysS st := by
              unfold hasChildA at hc
              cases hg : getS st s0 with
              | none => rw [hg] at hc; cases hc
              | some d => exact mem_keysS_of_getS hg
            refine ⟨hmem, hc, ?_⟩
            intro s1 hs1
            injection hs1 with hs1
            subst hs1
            exact le_rfl
          · rw [if_neg hc] at h
            obtain ⟨hmem, hch, hlen⟩ := ih (failOf st s0) c f h
            refine ⟨hmem, hch, ?_⟩
            intro s1 hs1
            injection hs1 with hs1
            subst hs1
            cases hff : failOf st s0 with
            | none => rw [hff] at h; cases fuel <;> cases h
            | some f1 =>
                obtain ⟨d, hd, hdf⟩ := failOf_isSome hff
                have hb1 := (failDec_getS hdec hd hdf).2
                have hb2 := hlen f1 hff
                omega

theorem findFailure_fuel {st : AStore} (hdec : FailDec st) (c : Char) :
    ∀ (fuel : Nat) (s0 : NodeId), s0.length < fuel →
      ∀ k, findFailure st (fuel + k) (some s0) c = findFailure st fuel (some s0) c := by
  intro fuel
  induction fuel with
  | zero => intro s0 h; omega
  | succ fuel ih =>
      intro s0 hlen k
      have hstep : fuel + 1 + k = (fuel + k) + 1 := by omega
      rw [hstep]
      unfold findFailure
      by_cases hc : hasChildA st s0 c = true
      · rw [if_pos hc, if_pos hc]
      · rw [if_neg hc, if_neg hc]
        cases hff : failOf st s0 with
        | none => cases fuel <;> cases k <;> rfl
        | some f1 =>
            obtain ⟨d, hd, hdf⟩ := failOf_isSome hff
            have hl1 := (failDec_getS hdec hd hdf).2
            exact ih f1 (by omega) k

/-- C10: `processCharacter` is total and never dereferences a null node:
on any store whose set failure links point into the store with strictly
decreasing depth (this includes stores with unset links), the transition
walk terminates within store-size many steps, and each call either moves
to an existing child on the scanned character or lands on the root. -/
theorem C10_process_character_safety (st : AStore)
    (hpok : ∀ e ∈ st, parentOKA st e.1 = true)
    (hacc : ∀ e ∈ st, ∀ c2 ∈ e.2.childrenKeys,
      (getS st (e.1 ++ [c2])).isSome = true)
    (hdec : FailDec st)
    (s : NodeId) (hs : s ∈ keysS st) (c : Char) :
    (nextState st s c = [] ∨
      ∃ f, f ∈ keysS st ∧ hasChildA st f c = true ∧
        nextState st s c = f ++ [c] ∧ (f ++ [c]) ∈ keysS st) ∧
    (∀ k, findFailure st (st.length + k) (some s) c =
      findFailure st st.length (some s) c) := by
  have hlen : s.length < st.length := mem_length_lt hpok hs
  constructor
  · cases hres : findFailure st st.length (some s) c with
    | none =>
        left
        unfold nextState
        rw [hres]
    | some f =>
        right
        obtain ⟨hmem, hch, _⟩ := findFailure_sound hdec st.length (some s) c f hres
        refine ⟨f, hmem, hch, ?_, ?_⟩
        · unfold nextState
          rw [hres]
        · obtain ⟨d, hd⟩ := Option.isSome_iff_exists.mp (getS_isSome_iff_mem.mpr hmem)
          have hcin : c ∈ d.childrenKeys := by
            unfold hasChildA at hch
            rw [hd] at hch
            exact contains_iff_memChar.mp hch
          obtain ⟨d', hd'⟩ := acChild_spec hacc hd hcin
          exact mem_keysS_of_getS hd'
  · exact findFailure_fuel hdec c st.length s hlen

theorem C10_process_character_safety_witness :
    nextState acScenarioB.nodes ['a', 't', 'c', 'g'] 'a' = [] ∨
    ∃ f, f ∈ keysS acScenarioB.nodes ∧
      hasChildA acScenarioB.nodes f 'a' = true ∧
      nextState acScenarioB.nodes ['a', 't', 'c', 'g'] 'a' = f ++ ['a'] ∧
      (f ++ ['a']) ∈ keysS acScenarioB.nodes :=
  (C10_process_character_safety acScenarioB.nodes (by decide) (by decide)
    (by decide) ['a', 't', 'c', 'g'] (by decide) 'a').1

/-! ### Skeleton-preserving store transformations -/

theorem getS_of_mem_nodup {α : Type} {st : List (NodeId × α)}
    (hnd : (keysS st).Nodup) {id : NodeId} {d : α} (hmem : (id, d) ∈ st) :
    getS st id = some d := by
  induction st with
  | nil => cases hmem
  | cons e rest ih =>
      rw [keysS_cons] at hnd
      rw [getS_cons]
      rcases List.mem_cons.mp hmem with heq | hmem2
      · subst heq
        simp
      · have hne : e.1 ≠ id := by
          intro h
          exact (List.nodup_cons.mp hnd).1 (h ▸ List.mem_map.mpr ⟨(id, d), hmem2, rfl⟩)
        rw [if_neg hne]
        exact ih (List.nodup_cons.mp hnd).2 hmem2

theorem mem_setS {α : Type} {st : List (NodeId × α)} {id : NodeId} {d : α}
    {e : NodeId × α} (h : e ∈ setS st id d) :
    ∃ e0 ∈ st, e = if e0.1 = id then (id, d) else e0 := by
  obtain ⟨e0, he0, heq⟩ := List.mem_map.mp h
  exact ⟨e0, he0, heq.symm⟩

/-- The node skeleton (keys, children, terminal flags, depths) of two
stores agree; the breadth-first pass only rewrites `fail`/`out` fields
and therefore preserves it. -/
def SkelEq (st st' : AStore) : Prop :=
  keysS st' = keysS st ∧
  ∀ id, Option.map (fun d => (d.childrenKeys, d.isEnd, d.depth)) (getS st' id) =
    Option.map (fun d => (d.childrenKeys, d.isEnd, d.depth)) (getS st id)

theorem skelEq_refl (st : AStore) : SkelEq st st := ⟨rfl, fun _ => rfl⟩

theorem skelEq_trans {st1 st2 st3 : AStore} (h12 : SkelEq st1 st2)
    (h23 : SkelEq st2 st3) : SkelEq st1 st3 :=
  ⟨h23.1.trans h12.1, fun id => (h23.2 id).trans (h12.2 id)⟩

theorem skelEq_setS {st : AStore} {id : NodeId} {d0 d : ACData}
    (hg : getS st id = some d0) (h1 : d.childrenKeys = d0.childrenKeys)
    (h2 : d.isEnd = d0.isEnd) (h3 : d.depth = d0.depth) :
    SkelEq st (setS st id d) := by
  refine ⟨keysS_setS st id d, ?_⟩
  intro id'
  by_cases he : id' = id
  · subst he
    rw [getS_setS_self hg, hg]
    simp [h1, h2, h3]
  · rw [getS_setS_other he]

theorem skelEq_getS {st st' : AStore} (h : SkelEq st st') {id : NodeId}
    {d' : ACData} (hg : getS st' id = some d') :
    ∃ d, getS st id = some d ∧ d.childrenKeys = d'.childrenKeys ∧
      d.isEnd = d'.isEnd ∧ d.depth = d'.depth := by
  have := h.2 id
  rw [hg] at this
  cases hgo : getS st id with
  | none => rw [hgo] at this; cases this
  | some d =>
      rw [hgo] at this
      simp at this
      exact ⟨d, rfl, this.1.symm, this.2.1.symm, this.2.2.symm⟩

theorem skelEq_getS_rev {st st' : AStore} (h : SkelEq st st') {id : NodeId}
    {d : ACData} (hg : getS st id = some d) :
    ∃ d', getS st' id = some d' ∧ d'.childrenKeys = d.childrenKeys ∧
      d'.isEnd = d.isEnd ∧ d'.depth = d.depth := by
  have := h.2 id
  rw [hg] at this
  cases hgo : getS st' id with
  | none => rw [hgo] at this; cases this
  | some d' =>
      rw [hgo] at this
      simp at this
      exact ⟨d', rfl, this.1, this.2.1, this.2.2⟩

theorem skelEq_isSome {st st' : AStore} (h : SkelEq st st') (id : NodeId) :
    (getS st' id).isSome = (getS st id).isSome := by
  have := h.2 id
  cases h1 : getS st' id <;> cases h2 : getS st id <;>
    rw [h1, h2] at this <;> simp at this ⊢

theorem acwf_of_skelEq {st st' : AStore} (hwf : ACWF st) (hsk : SkelEq st st') :
    ACWF st' := by
  obtain ⟨hnd, hroot, hrend, hdep, hcknd, hacc, hpok⟩ := hwf
  have hnd' : (keysS st').Nodup := hsk.1 ▸ hnd
  have hmem' : ∀ e ∈ st', ∃ d, getS st e.1 = some d ∧
      d.childrenKeys = e.2.childrenKeys ∧ d.isEnd = e.2.isEnd ∧
      d.depth = e.2.depth := by
    intro e he
    exact skelEq_getS hsk (getS_of_mem_nodup hnd' (by
      cases e
      exact he))
  refine ⟨hnd', ?_, ?_, ?_, ?_, ?_, ?_⟩
  · rw [skelEq_isSome hsk]
    exact hroot
  · intro e he h0
    obtain ⟨d, hd, _, hend, _⟩ := hmem' e he
    rw [← hend]
    exact hrend (e.1, d) (getS_mem hd) h0
  · intro e he
    obtain ⟨d, hd, _, _, hdp⟩ := hmem' e he
    rw [← hdp]
    exact hdep (e.1, d) (getS_mem hd)
  · intro e he
    obtain ⟨d, hd, hck, _, _⟩ := hmem' e he
    rw [← hck]
    exact hcknd (e.1, d) (getS_mem hd)
  · intro e he c hc
    obtain ⟨d, hd, hck, _, _⟩ := hmem' e he
    rw [skelEq_isSome hsk]
    exact hacc (e.1, d) (getS_mem hd) c (hck ▸ hc)
  · intro e he
    have hold : parentOKA st e.1 = true := by
      obtain ⟨d, hd, _, _, _⟩ := hmem' e he
      exact hpok (e.1, d) (getS_mem hd)
    unfold parentOKA at hold ⊢
    cases hlast : e.1.getLast? with
    | none => rfl
    | some c =>
        rw [hlast] at hold
        have hold2 : (match getS st e.1.dropLast with
          | some d => d.childrenKeys.contains c
          | none => false) = true := hold
        cases hgp : getS st e.1.dropLast with
        | none => rw [hgp] at hold2; exact absurd hold2 (by simp)
        | some dp =>
            rw [hgp] at hold2
            have hold3 : dp.childrenKeys.contains c = true := hold2
            obtain ⟨dp', hdp', hck', _, _⟩ := skelEq_getS_rev hsk hgp
            show (match getS st' e.1.dropLast with
              | some d => d.childrenKeys.contains c
              | none => false) = true
            rw [hdp']
            show dp'.childrenKeys.contains c = true
            rw [hck']
            exact hold3

/-! ### Pattern-insertion walk of the automaton -/

theorem acNot_mem_child {st : AStore} (hwf : ACWF st) {id : NodeId}
    {d : ACData} (h : getS st id = some d) {c : Char}
    (hc : c ∉ d.childrenKeys) : getS st (id ++ [c]) = none := by
  cases hg : getS st (id ++ [c]) with
  | none => rfl
  | some d2 =>
      obtain ⟨d1, hd1, hcd1⟩ := acParent_spec hwf.2.2.2.2.2.2 hg
      rw [h] at hd1
      cases hd1
      exact absurd hcd1 hc

theorem acStep_facts {st : AStore} (hwf : ACWF st) {cur : NodeId} {d : ACData}
    (hcur : getS st cur = some d) {c : Char} (hc : c ∉ d.childrenKeys) :
    getS (setS st cur { d with childrenKeys := d.childrenKeys ++ [c] } ++
        [(cur ++ [c], ⟨[], false, none, none, [], d.depth + 1⟩)]) cur =
      some { d with childrenKeys := d.childrenKeys ++ [c] } ∧
    getS (setS st cur { d with childrenKeys := d.childrenKeys ++ [c] } ++
        [(cur ++ [c], ⟨[], false, none, none, [], d.depth + 1⟩)]) (cur ++ [c]) =
      some ⟨[], false, none, none, [], d.depth + 1⟩ ∧
    (∀ id, id ≠ cur → id ≠ cur ++ [c] →
      getS (setS st cur { d with childrenKeys := d.childrenKeys ++ [c] } ++
        [(cur ++ [c], ⟨[], false, none, none, [], d.depth + 1⟩)]) id = getS st id) ∧
    keysS (setS st cur { d with childrenKeys := d.childrenKeys ++ [c] } ++
        [(cur ++ [c], ⟨[], false, none, none, [], d.depth + 1⟩)]) =
      keysS st ++ [cur ++ [c]] := by
  set dnew : ACData := { d with childrenKeys := d.childrenKeys ++ [c] } with hdnew
  have hnone : getS st (cur ++ [c]) = none := acNot_mem_child hwf hcur hc
  have hne : cur ++ [c] ≠ cur := by
    intro h
    have := congrArg List.length h
    simp at this
  have hnone1 : getS (setS st cur dnew) (cur ++ [c]) = none := by
    rw [getS_setS_other hne]
    exact hnone
  refine ⟨?_, ?_, ?_, ?_⟩
  · exact getS_append_some (getS_setS_self hcur dnew)
  · rw [getS_append_none hnone1, getS_cons]
    simp
  · intro id hid1 hid2
    by_cases hm : (getS st id).isSome
    · obtain ⟨d0, hd0⟩ := Option.isSome_iff_exists.mp hm
      rw [hd0]
      exact getS_append_some (by rw [getS_setS_other hid1]; exact hd0)
    · have h0 : getS st id = none := by
        cases h : getS st id
        · rfl
        · rw [h] at hm; simp at hm
      rw [h0]
      rw [getS_append_none (by rw [getS_setS_other hid1]; exact h0), getS_cons]
      rw [if_neg (fun h => hid2 h.symm), getS_nil]
  · have h1 : keysS (setS st cur dnew ++
        [(cur ++ [c], (⟨[], false, none, none, [], d.depth + 1⟩ : ACData))]) =
        keysS (setS st cur dnew) ++ [cur ++ [c]] := by
      simp [keysS]
    rw [h1, keysS_setS]

theorem acStep_wf {st : AStore} (hwf : ACWF st) {cur : NodeId} {d : ACData}
    (hcur : getS st cur = some d) {c : Char} (hc : c ∉ d.childrenKeys) :
    ACWF (setS st cur { d with childrenKeys := d.childrenKeys ++ [c] } ++
      [(cur ++ [c], ⟨[], false, none, none, [], d.depth + 1⟩)]) := by
  obtain ⟨hgcur, hgnew, hgother, hkeys⟩ := acStep_facts hwf hcur hc
  set dnew : ACData := { d with childrenKeys := d.childrenKeys ++ [c] } with hdnew
  set newE : NodeId × ACData := (cur ++ [c], ⟨[], false, none, none, [], d.depth + 1⟩) with hnewE
  set st2 : AStore := setS st cur dnew ++ [newE] with hst2
  have hnotmem : (cur ++ [c]) ∉ keysS st := by
    intro hm
    obtain ⟨d2, hd2⟩ := Option.isSome_iff_exists.mp (getS_isSome_iff_mem.mpr hm)
    obtain ⟨d1, hd1, hcd1⟩ := acParent_spec hwf.2.2.2.2.2.2 hd2
    rw [hcur] at hd1
    cases hd1
    exact hc hcd1
  obtain ⟨hnd, hroot, hrend, hdep, hcknd, hacc, hpok⟩ := hwf
  have hcurmem : (cur, d) ∈ st := getS_mem hcur
  have hne : cur ++ [c] ≠ cur := by
    intro h
    have := congrArg List.length h
    simp at this
  have hmono : ∀ id, (getS st id).isSome = true → (getS st2 id).isSome = true := by
    intro id hm
    by_cases h1 : id = cur
    · subst h1; simp [hgcur]
    · by_cases h2 : id = cur ++ [c]
      · subst h2; simp [hgnew]
      · rw [hgother id h1 h2]; exact hm
  have hmem2 : ∀ e, e ∈ st2 → (∃ e0 ∈ st, e = if e0.1 = cur then (cur, dnew) else e0) ∨
      e = newE := by
    intro e he
    rw [hst2, List.mem_append] at he
    rcases he with he | he
    · left
      obtain ⟨e0, he0, heq⟩ := List.mem_map.mp he
      exact ⟨e0, he0, heq.symm⟩
    · right
      simpa using he
  have hpok2 : ∀ id, parentOKA st id = true → parentOKA st2 id = true := by
    intro id hp
    unfold parentOKA at hp ⊢
    cases hlast : id.getLast? with
    | none => rfl
    | some c' =>
        rw [hlast] at hp
        cases hgp : getS st id.dropLast with
        | none => rw [hgp] at hp; exact absurd hp (by simp)
        | some dp =>
            rw [hgp] at hp
            by_cases hdc : id.dropLast = cur
            · rw [hdc] at hgp ⊢
              rw [hgcur]
              rw [hcur] at hgp
              cases hgp
              have : c' ∈ dnew.childrenKeys := by
                rw [hdnew]
                exact List.mem_append_left _ (contains_iff_memChar.mp hp)
              exact contains_iff_memChar.mpr this
            · by_cases hdc2 : id.dropLast = cur ++ [c]
              · exact absurd (hdc2 ▸ mem_keysS_of_getS hgp) hnotmem
              · rw [hgother _ hdc hdc2, hgp]
                exact hp
  refine ⟨?_, ?_, ?_, ?_, ?_, ?_, ?_⟩
  · show (keysS st2).Nodup
    rw [hkeys]
    rw [List.nodup_append]
    exact ⟨hnd, List.nodup_singleton _, by
      intro a ha hb
      simp at hb
      exact hnotmem (hb ▸ ha)⟩
  · by_cases h1 : ([] : NodeId) = cur
    · rw [← h1] at hgcur
      rw [hgcur]
      rfl
    · exact hmono [] hroot
  · intro e he h1
    rcases hmem2 e he with ⟨e0, he0, heq⟩ | heq
    · by_cases h0 : e0.1 = cur
      · rw [if_pos h0] at heq
        subst heq
        have hcur0 : cur = [] := h1
        show d.isEnd = false
        exact hrend _ hcurmem hcur0
      · rw [if_neg h0] at heq
        subst heq
        exact hrend _ he0 h1
    · subst heq
      simp only at h1
      exact absurd h1 (by simp)
  · intro e he
    rcases hmem2 e he with ⟨e0, he0, heq⟩ | heq
    · by_cases h0 : e0.1 = cur
      · rw [if_pos h0] at heq
        subst heq
        show dnew.depth = cur.length
        have := hdep _ hcurmem
        simpa [hdnew] using this
      · rw [if_neg h0] at heq
        subst heq
        exact hdep _ he0
    · subst heq
      show (⟨[], false, none, none, [], d.depth + 1⟩ : ACData).depth = (cur ++ [c]).length
      have := hdep _ hcurmem
      simp at this ⊢
      omega
  · intro e he
    rcases hmem2 e he with ⟨e0, he0, heq⟩ | heq
    · by_cases h0 : e0.1 = cur
      · rw [if_pos h0] at heq
        subst heq
        show dnew.childrenKeys.Nodup
        rw [hdnew]
        show (d.childrenKeys ++ [c]).Nodup
        rw [List.nodup_append]
        exact ⟨hcknd _ hcurmem, List.nodup_singleton _, by
          intro a ha hb
          simp at hb
          exact hc (hb ▸ ha)⟩
      · rw [if_neg h0] at heq
        subst heq
        exact hcknd _ he0
    · subst heq
      show (⟨[], false, none, none, [], d.depth + 1⟩ : ACData).childrenKeys.Nodup
      simp
  · intro e he c' hc'
    rcases hmem2 e he with ⟨e0, he0, heq⟩ | heq
    · by_cases h0 : e0.1 = cur
      · rw [if_pos h0] at heq
        subst heq
        have hc2 : c' ∈ d.childrenKeys ++ [c] := hc'
        rcases List.mem_append.mp hc2 with hold | hnew
        · exact hmono _ (hacc _ hcurmem c' hold)
        · have hcc : c' = c := by simpa using hnew
          subst hcc
          show (getS st2 (cur ++ [c'])).isSome = true
          rw [hgnew]
          rfl
      · rw [if_neg h0] at heq
        subst heq
        exact hmono _ (hacc _ he0 c' hc')
    · subst heq
      exact absurd hc' (by simp)
  · intro e he
    rcases hmem2 e he with ⟨e0, he0, heq⟩ | heq
    · by_cases h0 : e0.1 = cur
      · rw [if_pos h0] at heq
        subst heq
        exact hpok2 cur (by rw [← h0]; exact hpok _ he0)
      · rw [if_neg h0] at heq
        subst heq
        exact hpok2 _ (hpok _ he0)
    · subst heq
      show parentOKA st2 (cur ++ [c]) = true
      unfold parentOKA
      simp only [List.getLast?_concat, List.dropLast_concat]
      rw [hgcur]
      refine contains_iff_memChar.mpr ?_
      rw [hdnew]
      exact List.mem_append_right _ (by simp)

theorem acStep_pristine {st : AStore} (hp : Pristine st) {cur : NodeId}
    {d : ACData} (hcur : getS st cur = some d) (c : Char) :
    Pristine (setS st cur { d with childrenKeys := d.childrenKeys ++ [c] } ++
      [(cur ++ [c], ⟨[], false, none, none, [], d.depth + 1⟩)]) := by
  intro e he
  rw [List.mem_append] at he
  rcases he with he | he
  · obtain ⟨e0, he0, heq⟩ := mem_setS he
    by_cases h0 : e0.1 = cur
    · rw [if_pos h0] at heq
      subst heq
      exact ⟨(hp _ (getS_mem hcur)).1, (hp _ (getS_mem hcur)).2⟩
    · rw [if_neg h0] at heq
      subst heq
      exact hp _ he0
  · simp at he
    subst he
    exact ⟨rfl, rfl⟩

theorem acWalk_cons (st : AStore) (cur : NodeId) (c : Char) (rest : List Char) :
    acWalk st cur (c :: rest) =
      acWalk (match getS st cur with
        | some d =>
            if c ∈ d.childrenKeys then st
            else setS st cur { d with childrenKeys := d.childrenKeys ++ [c] } ++
              [(cur ++ [c], ⟨[], false, none, none, [], d.depth + 1⟩)]
        | none => st) (cur ++ [c]) rest := rfl

theorem acWalk_cons_mem {st : AStore} {cur : NodeId} {d : ACData}
    (hg : getS st cur = some d) {c : Char} (hc : c ∈ d.childrenKeys)
    (rest : List Char) :
    acWalk st cur (c :: rest) = acWalk st (cur ++ [c]) rest := by
  rw [acWalk_cons, hg]
  show acWalk
      (if c ∈ d.childrenKeys then st
       else setS st cur { d with childrenKeys := d.childrenKeys ++ [c] } ++
         [(cur ++ [c], ⟨[], false, none, none, [], d.depth + 1⟩)]) (cur ++ [c]) rest =
    acWalk st (cur ++ [c]) rest
  rw [if_pos hc]

theorem acWalk_cons_new {st : AStore} {cur : NodeId} {d : ACData}
    (hg : getS st cur = some d) {c : Char} (hc : c ∉ d.childrenKeys)
    (rest : List Char) :
    acWalk st cur (c :: rest) =
      acWalk
        (setS st cur { d with childrenKeys := d.childrenKeys ++ [c] } ++
          [(cur ++ [c], ⟨[], false, none, none, [], d.depth + 1⟩)]) (cur ++ [c]) rest := by
  rw [acWalk_cons, hg]
  show acWalk
      (if c ∈ d.childrenKeys then st
       else setS st cur { d with childrenKeys := d.childrenKeys ++ [c] } ++
         [(cur ++ [c], ⟨[], false, none, none, [], d.depth + 1⟩)]) (cur ++ [c]) rest = _
  rw [if_neg hc]

theorem acWalk_master :
    ∀ (cs : List Char) (st : AStore) (cur : NodeId) (d : ACData),
      ACWF st → Pristine st → getS st cur = some d →
      ACWF (acWalk st cur cs) ∧ Pristine (acWalk st cur cs) ∧
      ∃ dfin, getS (acWalk st cur cs) (cur ++ cs) = some dfin := by
  intro cs
  induction cs with
  | nil =>
      intro st cur d hwf hp hcur
      exact ⟨hwf, hp, ⟨d, by simpa using hcur⟩⟩
  | cons c rest ih =>
      intro st cur d hwf hp hcur
      by_cases hc : c ∈ d.childrenKeys
      · rw [acWalk_cons_mem hcur hc]
        obtain ⟨d1, hd1⟩ := acChild_spec hwf.2.2.2.2.2.1 hcur hc
        obtain ⟨hwf', hp', hfin⟩ := ih st (cur ++ [c]) d1 hwf hp hd1
        refine ⟨hwf', hp', ?_⟩
        obtain ⟨dfin, hdfin⟩ := hfin
        have hmv : cur ++ c :: rest = (cur ++ [c]) ++ rest := by simp
        exact ⟨dfin, by rw [hmv]; exact hdfin⟩
      · rw [acWalk_cons_new hcur hc]
        have hwf1 := acStep_wf hwf hcur hc
        have hp1 := acStep_pristine hp hcur c
        obtain ⟨hgcur, hgnew, hgother, hkeys⟩ := acStep_facts hwf hcur hc
        obtain ⟨hwf', hp', hfin⟩ := ih _ (cur ++ [c]) _ hwf1 hp1 hgnew
        refine ⟨hwf', hp', ?_⟩
        obtain ⟨dfin, hdfin⟩ := hfin
        have hmv : cur ++ c :: rest = (cur ++ [c]) ++ rest := by simp
        exact ⟨dfin, by rw [hmv]; exact hdfin⟩

theorem setS_isSome_mono {st : AStore} {id : NodeId} {d0 : ACData}
    (hg : getS st id = some d0) (d : ACData) (x : NodeId)
    (hx : (getS st x).isSome = true) : (getS (setS st id d) x).isSome = true := by
  by_cases he : x = id
  · subst he
    rw [getS_setS_self hg]
    rfl
  · rw [getS_setS_other he]
    exact hx

theorem setS_wf_preserve {st : AStore} (hwf : ACWF st) {id : NodeId}
    {d0 : ACData} (hg : getS st id = some d0) {d : ACData}
    (hck : d.childrenKeys = d0.childrenKeys) (hdp : d.depth = d0.depth)
    (hend : id = [] → d.isEnd = false) : ACWF (setS st id d) := by
  obtain ⟨hnd, hroot, hrend, hdep, hcknd, hacc, hpok⟩ := hwf
  have hidmem : (id, d0) ∈ st := getS_mem hg
  refine ⟨?_, ?_, ?_, ?_, ?_, ?_, ?_⟩
  · show (keysS (setS st id d)).Nodup
    rw [keysS_setS]
    exact hnd
  · exact setS_isSome_mono hg d [] hroot
  · intro e he h0
    obtain ⟨e0, he0, heq⟩ := mem_setS he
    by_cases hc0 : e0.1 = id
    · rw [if_pos hc0] at heq
      subst heq
      exact hend h0
    · rw [if_neg hc0] at heq
      subst heq
      exact hrend _ he0 h0
  · intro e he
    obtain ⟨e0, he0, heq⟩ := mem_setS he
    by_cases hc0 : e0.1 = id
    · rw [if_pos hc0] at heq
      subst heq
      show d.depth = id.length
      rw [hdp]
      exact hdep _ hidmem
    · rw [if_neg hc0] at heq
      subst heq
      exact hdep _ he0
  · intro e he
    obtain ⟨e0, he0, heq⟩ := mem_setS he
    by_cases hc0 : e0.1 = id
    · rw [if_pos hc0] at heq
      subst heq
      show d.childrenKeys.Nodup
      rw [hck]
      exact hcknd _ hidmem
    · rw [if_neg hc0] at heq
      subst heq
      exact hcknd _ he0
  · intro e he c hc
    obtain ⟨e0, he0, heq⟩ := mem_setS he
    by_cases hc0 : e0.1 = id
    · rw [if_pos hc0] at heq
      subst heq
      have hc2 : c ∈ d0.childrenKeys := hck ▸ hc
      exact setS_isSome_mono hg d _ (hacc _ hidmem c hc2)
    · rw [if_neg hc0] at heq
      subst heq
      exact setS_isSome_mono hg d _ (hacc _ he0 c hc)
  · intro e he
    have hold : parentOKA st e.1 = true := by
      obtain ⟨e0, he0, heq⟩ := mem_setS he
      by_cases hc0 : e0.1 = id
      · rw [if_pos hc0] at heq
        subst heq
        show parentOKA st id = true
        rw [← hc0]
        exact hpok e0 he0
      · rw [if_neg hc0] at heq
        subst heq
        exact hpok _ he0
    unfold parentOKA at hold ⊢
    cases hlast : e.1.getLast? with
    | none => rfl
    | some c =>
        rw [hlast] at hold
        have hold2 : (match getS st e.1.dropLast with
          | some dx => dx.childrenKeys.contains c
          | none => false) = true := hold
        cases hgp : getS st e.1.dropLast with
        | none => rw [hgp] at hold2; exact absurd hold2 (by simp)
        | some dp =>
            rw [hgp] at hold2
            have hold3 : dp.childrenKeys.contains c = true := hold2
            show (match getS (setS st id d) e.1.dropLast with
              | some dx => dx.childrenKeys.contains c
              | none => false) = true
            by_cases hdl : e.1.dropLast = id
            · subst hdl
              rw [getS_setS_self hg]
              show d.childrenKeys.contains c = true
              rw [hck]
              rw [hgp] at hg
              injection hg with hg
              rw [← hg]
              exact hold3
            · rw [getS_setS_other hdl, hgp]
              exact hold3

theorem setS_pristine {st : AStore} (hp : Pristine st) {d : ACData}
    (hf : d.fail = none) (ho : d.out = []) (id : NodeId) :
    Pristine (setS st id d) := by
  intro e he
  obtain ⟨e0, he0, heq⟩ := mem_setS he
  by_cases hc0 : e0.1 = id
  · rw [if_pos hc0] at heq
    subst heq
    exact ⟨hf, ho⟩
  · rw [if_neg hc0] at heq
    subst heq
    exact hp _ he0

theorem addPattern_wfp (a : AhoCorasick) (p : List Char)
    (hwf : ACWF a.nodes) (hp : Pristine a.nodes) :
    ACWF (a.addPattern p).1.nodes ∧ Pristine (a.addPattern p).1.nodes := by
  simp only [AhoCorasick.addPattern]
  by_cases hv : validSeq (normalizeSeq p) = true
  · rw [if_neg (by simp [hv])]
    by_cases hdup : normalizeSeq p ∈ a.patterns
    · rw [if_pos hdup]
      exact ⟨hwf, hp⟩
    · rw [if_neg hdup]
      obtain ⟨droot, hroot⟩ := Option.isSome_iff_exists.mp hwf.2.1
      obtain ⟨hwf', hp', dfin, hdfin⟩ :=
        acWalk_master (jsLower (normalizeSeq p)) a.nodes [] droot hwf hp hroot
      rw [List.nil_append] at hdfin
      have hlow : jsLower (normalizeSeq p) ≠ [] := by
        intro h0
        rw [validSeq] at hv
        simp at hv
        have := hv.1
        unfold jsLower at h0
        rw [List.map_eq_nil_iff] at h0
        exact this h0
      split
      next d heq =>
        rw [hdfin] at heq
        injection heq with heq
        subst heq
        constructor
        · exact setS_wf_preserve hwf' hdfin rfl rfl (fun h => absurd h hlow)
        · have hface : ACData.fail { dfin with isEnd := true, pat := some (normalizeSeq p) } = none :=
            (hp' _ (getS_mem hdfin)).1
          have hoace : ACData.out { dfin with isEnd := true, pat := some (normalizeSeq p) } = [] :=
            (hp' _ (getS_mem hdfin)).2
          exact setS_pristine hp' hface hoace _
      next heq =>
        rw [hdfin] at heq
        cases heq
  · rw [if_pos (by simpa using hv)]
    exact ⟨hwf, hp⟩

theorem addPatterns_wfp (ps : List (List Char)) :
    ACWF (addPatterns ps).nodes ∧ Pristine (addPatterns ps).nodes := by
  have hbase : ACWF AhoCorasick.empty.nodes ∧ Pristine AhoCorasick.empty.nodes := by
    constructor
    · decide
    · intro e he
      simp [AhoCorasick.empty] at he
      subst he
      exact ⟨rfl, rfl⟩
  have hgen : ∀ (qs : List (List Char)) (a : AhoCorasick),
      ACWF a.nodes ∧ Pristine a.nodes →
      ACWF (qs.foldl (fun a p => (a.addPattern p).1) a).nodes ∧
      Pristine (qs.foldl (fun a p => (a.addPattern p).1) a).nodes := by
    intro qs
    induction qs with
    | nil => intro a h; exact h
    | cons q rest ih =>
        intro a h
        exact ih _ (addPattern_wfp a q h.1 h.2)
  exact hgen ps AhoCorasick.empty hbase

/-! ### Output-link and counting lemmas for the breadth-first pass -/

/-- Every node's stored output list is exactly the terminal nodes collected
along the failure chain starting at its failure link. -/
def OutInv (st : AStore) : Prop :=
  ∀ id d, getS st id = some d → d.out = collectOut st st.length d.fail

theorem collectOut_congr_ext {s1 s2 : AStore}
    (h : ∀ x : NodeId, isEndA s1 x = isEndA s2 x ∧ failOf s1 x = failOf s2 x) :
    ∀ (fuel : Nat) (os : Option NodeId),
      collectOut s1 fuel os = collectOut s2 fuel os := by
  intro fuel
  induction fuel with
  | zero => intro os; rfl
  | succ fuel ih =>
      intro os
      cases os with
      | none => rfl
      | some f =>
          unfold collectOut
          rw [(h f).1, (h f).2]
          rw [ih (failOf s2 f)]

theorem collectOut_agree {s s2 : AStore} (L : Nat)
    (hag : ∀ x : NodeId, x.length ≤ L → getS s2 x = getS s x)
    (hdec : FailDec s) :
    ∀ (fuel : Nat) (os : Option NodeId),
      (∀ f0, os = some f0 → f0.length ≤ L) →
      collectOut s2 fuel os = collectOut s fuel os := by
  intro fuel
  induction fuel with
  | zero => intro os _; rfl
  | succ fuel ih =>
      intro os hb
      cases os with
      | none => rfl
      | some f0 =>
          have hf0 : f0.length ≤ L := hb f0 rfl
          have he : isEndA s2 f0 = isEndA s f0 := by
            unfold isEndA
            rw [hag f0 hf0]
          have hff : failOf s2 f0 = failOf s f0 := by
            unfold failOf
            rw [hag f0 hf0]
          unfold collectOut
          rw [he, hff]
          rw [ih (failOf s f0) ?_]
          intro f1 hf1
          obtain ⟨d, hd, hdf⟩ := failOf_isSome hf1
          have := (failDec_getS hdec hd hdf).2
          omega

theorem collectOut_mem_length {st : AStore} (hdec : FailDec st) :
    ∀ (fuel : Nat) (os : Option NodeId) (x : NodeId),
      x ∈ collectOut st fuel os → ∀ f0, os = some f0 → x.length ≤ f0.length := by
  intro fuel
  induction fuel with
  | zero => intro os x hx; cases hx
  | succ fuel ih =>
      intro os x hx f0 heq
      subst heq
      unfold collectOut at hx
      rcases List.mem_append.mp hx with hx | hx
      · by_cases he : isEndA st f0 = true
        · rw [if_pos he] at hx
          simp at hx
          subst hx
          exact le_rfl
        · rw [if_neg he] at hx
          cases hx
      · cases hff : failOf st f0 with
        | none => rw [hff] at hx; cases fuel <;> cases hx
        | some f1 =>
            have := ih (failOf st f0) x hx f1 hff
            obtain ⟨d, hd, hdf⟩ := failOf_isSome hff
            have h2 := (failDec_getS hdec hd hdf).2
            omega

theorem setS_not_mem {α : Type} {st : List (NodeId × α)} {id : NodeId}
    (h : id ∉ keysS st) (d : α) : setS st id d = st := by
  induction st with
  | nil => rfl
  | cons e rest ih =>
      rw [keysS_cons] at h
      rw [setS_cons]
      have hne : e.1 ≠ id := fun he => h (he ▸ List.mem_cons_self _ _)
      rw [if_neg hne]
      rw [ih (fun hm => h (List.mem_cons_of_mem _ hm))]

/-- Number of nodes whose failure link is still unset. -/
def cntNone (st : AStore) : Nat :=
  st.countP (fun e => e.2.fail == none)

theorem cntNone_setS_dec {st : AStore} (hnd : (keysS st).Nodup) {id : NodeId}
    {d0 : ACData} (hg : getS st id = some d0) (h0 : d0.fail = none)
    {d : ACData} (h1 : (d.fail).isSome = true) :
    cntNone (setS st id d) + 1 = cntNone st := by
  induction st with
  | nil => simp [getS_nil] at hg
  | cons e rest ih =>
      rw [keysS_cons] at hnd
      rw [getS_cons] at hg
      rw [setS_cons]
      by_cases he : e.1 = id
      · rw [if_pos he] at hg ⊢
        injection hg with hg
        have hnm : id ∉ keysS rest := he ▸ (List.nodup_cons.mp hnd).1
        rw [setS_not_mem hnm]
        unfold cntNone
        rw [List.countP_cons, List.countP_cons]
        have hfix : ((id, d).2.fail == none) = false := by
          show (d.fail == none) = false
          cases hdf : d.fail
          · rw [hdf] at h1; cases h1
          · rfl
        have hfix0 : (e.2.fail == none) = true := by
          rw [hg, h0]
          rfl
        rw [hfix, hfix0]
        simp
      · rw [if_neg he] at hg
        rw [if_neg he]
        unfold cntNone at ih ⊢
        rw [List.countP_cons, List.countP_cons]
        have := ih (List.nodup_cons.mp hnd).2 hg
        omega

theorem cntNone_setS_keep {st : AStore} (hnd : (keysS st).Nodup) {id : NodeId}
    {d0 : ACData} (hg : getS st id = some d0) {d : ACData}
    (h1 : (d.fail == none) = (d0.fail == none)) :
    cntNone (setS st id d) = cntNone st := by
  induction st with
  | nil => rfl
  | cons e rest ih =>
      rw [keysS_cons] at hnd
      rw [getS_cons] at hg
      rw [setS_cons]
      by_cases he : e.1 = id
      · rw [if_pos he] at hg ⊢
        injection hg with hg
        have hnm : id ∉ keysS rest := he ▸ (List.nodup_cons.mp hnd).1
        rw [setS_not_mem hnm]
        unfold cntNone
        rw [List.countP_cons, List.countP_cons]
        have hfix : ((id, d).2.fail == none) = (e.2.fail == none) := by
          show (d.fail == none) = (e.2.fail == none)
          rw [hg]
          exact h1
        rw [hfix]
      · rw [if_neg he] at hg
        rw [if_neg he]
        unfold cntNone at ih ⊢
        rw [List.countP_cons, List.countP_cons]
        rw [ih (List.nodup_cons.mp hnd).2 hg]

theorem cntNone_le_length (st : AStore) : cntNone st ≤ st.length :=
  List.countP_le_length _

theorem linkChild_eq {st : AStore} {parent : NodeId} {c : Char} {cd : ACData}
    (hcd : getS st (parent ++ [c]) = some cd) :
    linkChild st parent c =
      setS (setS st (parent ++ [c])
          { cd with fail := some (match findFailure st st.length (failOf st parent) c with
              | none => ([] : NodeId)
              | some f => f ++ [c]) })
        (parent ++ [c])
        { cd with
          fail := some (match findFailure st st.length (failOf st parent) c with
            | none => ([] : NodeId)
            | some f => f ++ [c]),
          out := collectOut
            (setS st (parent ++ [c])
              { cd with fail := some (match findFailure st st.length (failOf st parent) c with
                  | none => ([] : NodeId)
                  | some f => f ++ [c]) })
            (setS st (parent ++ [c])
              { cd with fail := some (match findFailure st st.length (failOf st parent) c with
                  | none => ([] : NodeId)
                  | some f => f ++ [c]) }).length
            (some (match findFailure st st.length (failOf st parent) c with
              | none => ([] : NodeId)
              | some f => f ++ [c])) } := by
  unfold linkChild
  rw [hcd]

theorem linkChild_none {st : AStore} {parent : NodeId} {c : Char}
    (hcd : getS st (parent ++ [c]) = none) : linkChild st parent c = st := by
  unfold linkChild
  rw [hcd]

theorem failOf_congr {s1 s2 : AStore} {x : NodeId}
    (h : getS s1 x = getS s2 x) : failOf s1 x = failOf s2 x := by
  unfold failOf
  rw [h]

theorem failOf_some_getS {st : AStore} {id : NodeId} {d : ACData}
    (h : getS st id = some d) : failOf st id = d.fail := by
  unfold failOf
  rw [h]

/-- Invariant threaded through the child-processing fold of one dequeued
node `cur`: `st` is the store at dequeue time, `s` the store after the
children listed in `done` have been linked. -/
structure MidInv (st : AStore) (cur : NodeId) (s : AStore) (done : List Char) :
    Prop where
  skel : SkelEq st s
  len : s.length = st.length
  other : ∀ x : NodeId, (∀ c ∈ done, x ≠ cur ++ [c]) → getS s x = getS st x
  doneSet : ∀ c ∈ done, ∃ f, failOf s (cur ++ [c]) = some f ∧
    f ∈ keysS st ∧ f.length ≤ cur.length
  finv : FailDec s
  outinv : OutInv s
  rootF : failOf s [] = none
  maxS : ∀ id ∈ keysS st, (failOf s id).isSome = true → id.length ≤ cur.length + 1
  cnt : cntNone s + done.length = cntNone st

theorem linkChild_step (st : AStore) (cur : NodeId) (hwf : ACWF st)
    (hchildNone : ∀ id ∈ keysS st, isPre cur id → cur ≠ id → failOf st id = none)
    (hcurSet : (failOf st cur).isSome = true)
    {s : AStore} {done : List Char} (hmid : MidInv st cur s done)
    {c : Char} {dcur : ACData} (hdcur : getS st cur = some dcur)
    (hcmem : c ∈ dcur.childrenKeys) (hcnotdone : c ∉ done) :
    MidInv st cur (linkChild s cur c) (done ++ [c]) := by
  have hwfs : ACWF s := acwf_of_skelEq hwf hmid.skel
  have hkeyss : keysS s = keysS st := hmid.skel.1
  have hchildlen : (cur ++ [c]).length = cur.length + 1 := by simp
  have hchildne : ∀ c', cur ++ [c] = cur ++ [c'] → c = c' := by
    intro c' h
    have := List.append_inj_right h rfl
    injection this
  obtain ⟨cdst, hcdst⟩ := Option.isSome_iff_exists.mp
    (hwf.2.2.2.2.2.1 (cur, dcur) (getS_mem hdcur) c hcmem)
  have hchildmem : (cur ++ [c]) ∈ keysS st := mem_keysS_of_getS hcdst
  have hsnotdone : ∀ c' ∈ done, cur ++ [c] ≠ cur ++ [c'] := by
    intro c' hc' heq
    exact hcnotdone ((hchildne c' heq) ▸ hc')
  have hschild : getS s (cur ++ [c]) = some cdst := by
    rw [hmid.other _ hsnotdone]
    exact hcdst
  have hcurnotchild : ∀ c' ∈ done, cur ≠ cur ++ [c'] := by
    intro c' _ heq
    have := congrArg List.length heq
    simp at this
  have hscur : getS s cur = some dcur := by
    rw [hmid.other _ hcurnotchild]
    exact hdcur
  have hcdfail : cdst.fail = none := by
    have h1 : failOf st (cur ++ [c]) = none :=
      hchildNone _ hchildmem (isPre_append_one cur c) (by
        intro h
        have := congrArg List.length h
        simp at this)
    rw [failOf_some_getS hcdst] at h1
    exact h1
  have hfos : (failOf s cur).isSome = true := by
    rw [failOf_congr (show getS s cur = getS st cur from hscur.trans hdcur.symm)]
    exact hcurSet
  obtain ⟨pf, hpf⟩ := Option.isSome_iff_exists.mp hfos
  have hpflen : pf ∈ keysS s ∧ pf.length < cur.length := by
    have h2 : dcur.fail = some pf := by
      rw [failOf_some_getS hscur] at hpf
      exact hpf
    exact hmid.finv (cur, dcur) (getS_mem hscur) pf h2
  have hflink : ∀ flink, flink = (match findFailure s s.length (failOf s cur) c with
      | none => ([] : NodeId)
      | some f => f ++ [c]) →
      flink ∈ keysS st ∧ flink.length ≤ cur.length := by
    intro flink hfl
    cases hres : findFailure s s.length (failOf s cur) c with
    | none =>
        rw [hres] at hfl
        subst hfl
        refine ⟨?_, by simp⟩
        exact getS_isSome_iff_mem.mp hwf.2.1
    | some f =>
        rw [hres] at hfl
        subst hfl
        obtain ⟨hfmem, hfch, hflen⟩ := findFailure_sound hmid.finv s.length
          (failOf s cur) c f hres
        have hflen2 : f.length ≤ pf.length := hflen pf hpf
        constructor
        · have hdfs : (getS s f).isSome = true := by
            unfold hasChildA at hfch
            cases hg : getS s f with
            | none => rw [hg] at hfch; cases hfch
            | some df => rfl
          obtain ⟨df, hdf⟩ := Option.isSome_iff_exists.mp hdfs
          have hcdf : c ∈ df.childrenKeys := by
            unfold hasChildA at hfch
            rw [hdf] at hfch
            exact contains_iff_memChar.mp hfch
          obtain ⟨df0, hdf0, hck0, _, _⟩ := skelEq_getS hmid.skel hdf
          have := hwf.2.2.2.2.2.1 (f, df0) (getS_mem hdf0) c (hck0 ▸ hcdf)
          exact getS_isSome_iff_mem.mp this
        · have hpf2 := hpflen.2
          simp only [List.length_append, List.length_singleton]
          omega
  obtain ⟨hflmem, hfllen⟩ := hflink _ rfl
  have heq2 := linkChild_eq hschild
  set flinkE : NodeId := (match findFailure s s.length (failOf s cur) c with
    | none => ([] : NodeId)
    | some f => f ++ [c]) with hflinkE
  set A : ACData := { cdst with fail := some flinkE } with hA
  set s1 : AStore := setS s (cur ++ [c]) A with hs1
  set outsE : List NodeId := collectOut s1 s1.length (some flinkE) with houtsE
  set B : ACData := { cdst with fail := some flinkE, out := outsE } with hB
  have heq3 : linkChild s cur c = setS s1 (cur ++ [c]) B := heq2
  have hs1child : getS s1 (cur ++ [c]) = some A := getS_setS_self hschild A
  have hs2child : getS (linkChild s cur c) (cur ++ [c]) = some B := by
    rw [heq3]
    exact getS_setS_self hs1child B
  have hs2other : ∀ x : NodeId, x ≠ cur ++ [c] →
      getS (linkChild s cur c) x = getS s x := by
    intro x hx
    rw [heq3, getS_setS_other hx, getS_setS_other hx]
  have hs2len : (linkChild s cur c).length = s.length := by
    rw [heq3, setS_length, setS_length]
  have hs2keys : keysS (linkChild s cur c) = keysS s := by
    rw [heq3, keysS_setS, keysS_setS]
  have hs2nodup : (keysS (linkChild s cur c)).Nodup := by
    rw [hs2keys, hkeyss]
    exact hwf.1
  refine ⟨?_, ?_, ?_, ?_, ?_, ?_, ?_, ?_, ?_⟩
  · refine skelEq_trans hmid.skel ?_
    have hsk1 : SkelEq s s1 := skelEq_setS hschild rfl rfl rfl
    have hsk2 : SkelEq s1 (setS s1 (cur ++ [c]) B) := skelEq_setS hs1child rfl rfl rfl
    rw [heq3]
    exact skelEq_trans hsk1 hsk2
  · rw [hs2len, hmid.len]
  · intro x hx
    have hx1 : x ≠ cur ++ [c] := hx c (by simp)
    rw [hs2other x hx1]
    exact hmid.other x (fun c' hc' => hx c' (List.mem_append_left _ hc'))
  · intro c' hc'
    rcases List.mem_append.mp hc' with hc' | hc'
    · obtain ⟨f, hf1, hf2, hf3⟩ := hmid.doneSet c' hc'
      refine ⟨f, ?_, hf2, hf3⟩
      rw [failOf_congr (hs2other _ (fun heq => hsnotdone c' hc' heq.symm))]
      exact hf1
    · simp at hc'
      subst hc'
      exact ⟨flinkE, by rw [failOf_some_getS hs2child], hflmem, hfllen⟩
  · intro e he f' hf'
    have hge : getS (linkChild s cur c) e.1 = some e.2 :=
      getS_of_mem_nodup hs2nodup (by cases e; exact he)
    by_cases hex : e.1 = cur ++ [c]
    · rw [hex] at hge
      rw [hs2child] at hge
      injection hge with hge
      have hBf : e.2.fail = some flinkE := by rw [← hge]
      rw [hBf] at hf'
      injection hf' with hf'
      subst hf'
      rw [hs2keys, hkeyss, hex]
      exact ⟨hflmem, by rw [hchildlen]; omega⟩
    · rw [hs2other _ hex] at hge
      have := hmid.finv (e.1, e.2) (getS_mem hge) f' hf'
      rw [hs2keys]
      exact this
  · intro id d hid
    by_cases hex : id = cur ++ [c]
    · subst hex
      rw [hs2child] at hid
      injection hid with hid
      subst hid
      show B.out = collectOut (linkChild s cur c) (linkChild s cur c).length B.fail
      have hBout : B.out = outsE := rfl
      have hBfail : B.fail = some flinkE := rfl
      rw [hBout, hBfail, houtsE]
      have hcong := @collectOut_congr_ext s1 (linkChild s cur c) ?_
      · rw [hcong s1.length (some flinkE)]
        have : s1.length = (linkChild s cur c).length := by
          rw [hs1, setS_length, hs2len]
        rw [this]
      · intro x
        by_cases hx : x = cur ++ [c]
        · subst hx
          constructor
          · unfold isEndA
            rw [hs1child, hs2child]
          · unfold failOf
            rw [hs1child, hs2child]
        · constructor
          · unfold isEndA
            rw [hs2other _ hx, hs1, getS_setS_other hx]
          · unfold failOf
            rw [hs2other _ hx, hs1, getS_setS_other hx]
    · rw [hs2other _ hex] at hid
      have hold := hmid.outinv id d hid
      rw [hold]
      cases hdf : d.fail with
      | none =>
          cases hn1 : (linkChild s cur c).length <;> cases hn2 : s.length <;> rfl
      | some f0 =>
          have hidmem : id ∈ keysS st := by
            rw [← hkeyss]
            exact mem_keysS_of_getS hid
          have hidlen : id.length ≤ cur.length + 1 := by
            refine hmid.maxS id hidmem ?_
            rw [failOf_some_getS hid, hdf]
            rfl
          have hf0len : f0.length ≤ cur.length := by
            have h3 : f0.length < id.length := by
              simpa using (hmid.finv (id, d) (getS_mem hid) f0 hdf).2
            omega
          have hag2 : ∀ x : NodeId, x.length ≤ cur.length →
              getS (linkChild s cur c) x = getS s x := by
            intro x hxlen
            refine hs2other x ?_
            intro hx
            rw [hx, hchildlen] at hxlen
            omega
          have hagree := collectOut_agree cur.length hag2 hmid.finv
          rw [hs2len]
          exact (hagree s.length (some f0) (by
            intro f1 hf1
            injection hf1 with hf1
            subst hf1
            exact hf0len)).symm
  · rw [failOf_congr (hs2other [] (by
      intro h
      have := congrArg List.length h
      simp at this))]
    exact hmid.rootF
  · intro id hidmem hset
    by_cases hex : id = cur ++ [c]
    · rw [hex, hchildlen]
    · rw [failOf_congr (hs2other id hex)] at hset
      exact hmid.maxS id hidmem hset
  · have hc1 : cntNone s1 + 1 = cntNone s := by
      refine cntNone_setS_dec (by rw [hkeyss]; exact hwf.1) hschild hcdfail ?_
      rfl
    have hc2 : cntNone (linkChild s cur c) = cntNone s1 := by
      rw [heq3]
      refine cntNone_setS_keep (by rw [hs1, keysS_setS, hkeyss]; exact hwf.1)
        hs1child ?_
      rfl
    have := hmid.cnt
    simp only [List.length_append, List.length_singleton]
    omega

theorem processNode_eq {st : AStore} {cur : NodeId} {dcur : ACData}
    (hdcur : getS st cur = some dcur) :
    processNode st cur =
      (dcur.childrenKeys.foldl (fun s c => linkChild s cur c) st,
        dcur.childrenKeys.map (fun c => cur ++ [c])) := by
  unfold processNode
  rw [hdcur]

theorem linkChild_fold (st : AStore) (cur : NodeId) (hwf : ACWF st)
    (hchildNone : ∀ id ∈ keysS st, isPre cur id → cur ≠ id → failOf st id = none)
    (hcurSet : (failOf st cur).isSome = true)
    {dcur : ACData} (hdcur : getS st cur = some dcur) :
    ∀ (todo done : List Char) (s : AStore),
      dcur.childrenKeys = done ++ todo → MidInv st cur s done →
      MidInv st cur (todo.foldl (fun s c => linkChild s cur c) s) (done ++ todo) := by
  intro todo
  induction todo with
  | nil =>
      intro done s hsplit hmid
      simpa using hmid
  | cons c rest ih =>
      intro done s hsplit hmid
      have hnodup : dcur.childrenKeys.Nodup := hwf.2.2.2.2.1 (cur, dcur) (getS_mem hdcur)
      have hcmem : c ∈ dcur.childrenKeys := by
        rw [hsplit]
        exact List.mem_append_right _ (List.mem_cons_self _ _)
      have hcnotdone : c ∉ done := by
        intro hin
        rw [hsplit] at hnodup
        rw [List.nodup_append] at hnodup
        exact hnodup.2.2 hin (List.mem_cons_self _ _)
      have hstep := linkChild_step st cur hwf hchildNone hcurSet hmid hdcur
        hcmem hcnotdone
      have := ih (done ++ [c]) (linkChild s cur c)
        (by rw [hsplit]; simp) hstep
      simpa using this

/-- Invariant of the breadth-first queue loop. -/
structure BfsInv (st : AStore) (q : List NodeId) : Prop where
  wf : ACWF st
  rootF : failOf st [] = none
  finv : FailDec st
  outinv : OutInv st
  qmem : ∀ x ∈ q, x ∈ keysS st ∧ x ≠ [] ∧ (failOf st x).isSome = true
  qsub : ∀ x ∈ q, ∀ id ∈ keysS st, isPre x id → x ≠ id → failOf st id = none
  qnodup : q.Nodup
  cover : ∀ id ∈ keysS st, id ≠ [] →
    (failOf st id).isSome = true ∨ ∃ x ∈ q, isPre x id
  lvl : ∃ dl qa qb, q = qa ++ qb ∧ (∀ x ∈ qa, x.length = dl) ∧
    (∀ x ∈ qb, x.length = dl + 1) ∧
    (∀ id ∈ keysS st, id ≠ [] → id.length ≤ dl → (failOf st id).isSome = true) ∧
    (∀ id ∈ keysS st, (failOf st id).isSome = true → id.length ≤ dl + 1)

/-- Normalized level structure at a dequeue: the remaining queue is
two-level relative to the dequeued node's depth, everything strictly
shallower is linked, and everything linked is at most one level deeper. -/
theorem bfs_level_normalize {st : AStore} {cur : NodeId} {rest : List NodeId}
    (hinv : BfsInv st (cur :: rest)) :
    (∃ ra rb, rest = ra ++ rb ∧ (∀ x ∈ ra, x.length = cur.length) ∧
      (∀ x ∈ rb, x.length = cur.length + 1)) ∧
    (∀ id ∈ keysS st, id ≠ [] → id.length ≤ cur.length →
      (failOf st id).isSome = true) ∧
    (∀ id ∈ keysS st, (failOf st id).isSome = true →
      id.length ≤ cur.length + 1) := by
  obtain ⟨dl, qa, qb, hq, hqa, hqb, hbelow, hmax⟩ := hinv.lvl
  cases qa with
  | cons ca qa' =>
      rw [List.cons_append] at hq
      obtain ⟨hca, hrest⟩ := List.cons_eq_cons.mp hq
      subst hca
      have hD : cur.length = dl := hqa cur (List.mem_cons_self _ _)
      rw [hD]
      refine ⟨⟨qa', qb, hrest, ?_, ?_⟩, hbelow, hmax⟩
      · intro x hx
        exact hqa x (List.mem_cons_of_mem _ hx)
      · intro x hx
        exact hqb x hx
  | nil =>
      rw [List.nil_append] at hq
      cases qb with
      | nil => cases hq
      | cons cb qb' =>
          obtain ⟨hcb, hrest⟩ := List.cons_eq_cons.mp hq
          subst hcb
          have hD : cur.length = dl + 1 := hqb cur (List.mem_cons_self _ _)
          rw [hD]
          have hbelow2 : ∀ id ∈ keysS st, id ≠ [] → id.length ≤ dl + 1 →
              (failOf st id).isSome = true := by
            intro id hidm hidne hidlen
            by_cases hle : id.length ≤ dl
            · exact hbelow id hidm hidne hle
            · have hlen2 : id.length = dl + 1 := by omega
              rcases hinv.cover id hidm hidne with hset | ⟨x, hx, hpre⟩
              · exact hset
              · have hxlen : x.length = dl + 1 := by
                  rcases List.mem_cons.mp hx with hx1 | hx2
                  · rw [hx1, hD]
                  · exact hqb x (List.mem_cons_of_mem _ (hrest ▸ hx2))
                have hxeq : x = id := isPre_antisymm hpre (by omega)
                subst hxeq
                exact (hinv.qmem x hx).2.2
          refine ⟨⟨qb', [], by rw [hrest, List.append_nil], ?_, ?_⟩, hbelow2, ?_⟩
          · intro x hx
            exact hqb x (List.mem_cons_of_mem _ hx)
          · intro x hx
            cases hx
          · intro id hidm hset
            have := hmax id hidm hset
            omega

theorem bfs_step {st : AStore} {cur : NodeId} {rest : List NodeId}
    (hinv : BfsInv st (cur :: rest)) :
    BfsInv (processNode st cur).1 (rest ++ (processNode st cur).2) ∧
    (processNode st cur).1.length = st.length ∧
    cntNone (processNode st cur).1 + (processNode st cur).2.length = cntNone st := by
  obtain ⟨hcurmem, hcurne, hcurset⟩ := hinv.qmem cur (List.mem_cons_self _ _)
  obtain ⟨dcur, hdcur⟩ :=
    Option.isSome_iff_exists.mp (getS_isSome_iff_mem.mpr hcurmem)
  obtain ⟨⟨ra, rb, hrsplit, hra, hrb⟩, hbelow, hmax⟩ := bfs_level_normalize hinv
  have hchildNone := hinv.qsub cur (List.mem_cons_self _ _)
  have hkidnodup : dcur.childrenKeys.Nodup :=
    hinv.wf.2.2.2.2.1 (cur, dcur) (getS_mem hdcur)
  set s2 : AStore := dcur.childrenKeys.foldl (fun s c => linkChild s cur c) st
    with hs2def
  set kidIds : List NodeId := dcur.childrenKeys.map (fun c => cur ++ [c])
    with hkidIds
  have hp1 : (processNode st cur).1 = s2 := by rw [processNode_eq hdcur]
  have hp2 : (processNode st cur).2 = kidIds := by rw [processNode_eq hdcur]
  rw [hp1, hp2]
  have hmid0 : MidInv st cur st [] := by
    refine ⟨skelEq_refl st, rfl, fun x _ => rfl, ?_, hinv.finv, hinv.outinv,
      hinv.rootF, ?_, ?_⟩
    · intro c hc
      cases hc
    · intro id hm hs
      exact hmax id hm hs
    · simp
  have hfold0 := linkChild_fold st cur hinv.wf hchildNone hcurset hdcur
    dcur.childrenKeys [] st rfl hmid0
  rw [List.nil_append] at hfold0
  have hfold : MidInv st cur s2 dcur.childrenKeys := hfold0
  have hresttail : ∀ x ∈ rest, x ∈ keysS st ∧ x ≠ [] ∧
      (failOf st x).isSome = true :=
    fun x hx => hinv.qmem x (List.mem_cons_of_mem _ hx)
  have hnotkid : ∀ x ∈ rest, ∀ c ∈ dcur.childrenKeys, x ≠ cur ++ [c] := by
    intro x hx c _ heq
    have hset := (hresttail x hx).2.2
    have hxmem := (hresttail x hx).1
    have hnone : failOf st x = none := by
      refine hinv.qsub cur (List.mem_cons_self _ _) x hxmem ?_ ?_
      · rw [heq]
        exact isPre_append_one cur c
      · intro h0
        rw [← h0] at heq
        have := congrArg List.length heq
        simp at this
    rw [hnone] at hset
    cases hset
  have hother : ∀ x ∈ rest, getS s2 x = getS st x := by
    intro x hx
    exact hfold.other x (fun c hc => hnotkid x hx c hc)
  have hkeys2 : keysS s2 = keysS st := hfold.skel.1
  have hmono : ∀ id : NodeId, (failOf st id).isSome = true →
      (failOf s2 id).isSome = true := by
    intro id hset
    by_cases hk : ∃ c ∈ dcur.childrenKeys, id = cur ++ [c]
    · obtain ⟨c, hc, rfl⟩ := hk
      obtain ⟨f, hf, _, _⟩ := hfold.doneSet c hc
      rw [hf]
      rfl
    · rw [failOf_congr (hfold.other id (fun c hc heq => hk ⟨c, hc, heq⟩))]
      exact hset
  have hdesc : ∀ id ∈ keysS st, isPre cur id → cur ≠ id →
      ∃ c0 ∈ dcur.childrenKeys, isPre (cur ++ [c0]) id := by
    intro id hidm hpre hne
    obtain ⟨t, rfl⟩ := hpre
    cases t with
    | nil => exact absurd (by simp) hne
    | cons c0 t' =>
        have hpre2 : isPre (cur ++ [c0]) (cur ++ c0 :: t') := ⟨t', by simp⟩
        have hmem2 : (cur ++ [c0]) ∈ keysS st :=
          acMem_of_pre hinv.wf.2.2.2.2.2.2 hidm hpre2
        obtain ⟨d2, hd2⟩ :=
          Option.isSome_iff_exists.mp (getS_isSome_iff_mem.mpr hmem2)
        obtain ⟨d3, hd3, hc3⟩ := acParent_spec hinv.wf.2.2.2.2.2.2 hd2
        rw [hdcur] at hd3
        cases hd3
        exact ⟨c0, hc3, hpre2⟩
  have hkidmem : ∀ x ∈ kidIds, x ∈ keysS st ∧ x ≠ [] ∧
      (failOf s2 x).isSome = true := by
    intro x hx
    obtain ⟨c, hc, rfl⟩ := List.mem_map.mp hx
    obtain ⟨f, hf, _, _⟩ := hfold.doneSet c hc
    refine ⟨?_, by simp, by rw [hf]; rfl⟩
    have := hinv.wf.2.2.2.2.2.1 (cur, dcur) (getS_mem hdcur) c hc
    exact getS_isSome_iff_mem.mp this
  refine ⟨⟨acwf_of_skelEq hinv.wf hfold.skel, hfold.rootF, hfold.finv,
    hfold.outinv, ?_, ?_, ?_, ?_, ?_⟩, hfold.len, ?_⟩
  · intro x hx
    rcases List.mem_append.mp hx with hx | hx
    · obtain ⟨hm, hne, hset⟩ := hresttail x hx
      refine ⟨by rwa [hkeys2], hne, by rw [failOf_congr (hother x hx)]; exact hset⟩
    · obtain ⟨hm, hne, hset⟩ := hkidmem x hx
      exact ⟨by rwa [hkeys2], hne, hset⟩
  · intro x hx id hidm0 hpre hne
    have hidm : id ∈ keysS st := by rwa [hkeys2] at hidm0
    rcases List.mem_append.mp hx with hx | hx
    · have hxq : x ∈ cur :: rest := List.mem_cons_of_mem _ hx
      have hnone : failOf st id = none := hinv.qsub x hxq id hidm hpre hne
      have hidnk : ∀ c ∈ dcur.childrenKeys, id ≠ cur ++ [c] := by
        intro c hc heq
        subst heq
        by_cases hxc : x = cur
        · exact (List.nodup_cons.mp hinv.qnodup).1 (hxc ▸ hx)
        · have hprex : isPre x cur := isPre_snoc_elim hpre hne
          have hnone2 : failOf st cur = none :=
            hinv.qsub x hxq cur hcurmem hprex hxc
          rw [hnone2] at hcurset
          cases hcurset
      rw [failOf_congr (hfold.other id hidnk)]
      exact hnone
    · obtain ⟨c, hc, rfl⟩ := List.mem_map.mp hx
      have hprecur : isPre cur id := isPre_trans (isPre_append_one cur c) hpre
      have hnecur : cur ≠ id := by
        intro h0
        have h1 := isPre_length hpre
        rw [← h0] at h1
        simp at h1
      have hnone : failOf st id = none :=
        hinv.qsub cur (List.mem_cons_self _ _) id hidm hprecur hnecur
      have hidnk : ∀ c' ∈ dcur.childrenKeys, id ≠ cur ++ [c'] := by
        intro c' _ heq
        subst heq
        have h3 : cur ++ [c] = cur ++ [c'] := isPre_antisymm hpre (by simp)
        exact hne h3
      rw [failOf_congr (hfold.other id hidnk)]
      exact hnone
  · rw [List.nodup_append]
    refine ⟨(List.nodup_cons.mp hinv.qnodup).2, ?_, ?_⟩
    · rw [hkidIds]
      refine List.Nodup.map ?_ hkidnodup
      intro a b hab
      have h4 := List.append_inj_right hab rfl
      injection h4
    · intro x hx hx2
      obtain ⟨c, hc, rfl⟩ := List.mem_map.mp hx2
      exact hnotkid _ hx c hc rfl
  · intro id hidm0 hidne
    have hidm : id ∈ keysS st := by rwa [hkeys2] at hidm0
    rcases hinv.cover id hidm hidne with hset | ⟨x, hx, hpre⟩
    · exact Or.inl (hmono id hset)
    · rcases List.mem_cons.mp hx with hx1 | hx2
      · by_cases hne : x = id
        · refine Or.inl (hmono id ?_)
          rw [← hne, hx1]
          exact hcurset
        · have hprec : isPre cur id := hx1 ▸ hpre
          have hnec : cur ≠ id := by
            rw [← hx1]
            exact hne
          obtain ⟨c0, hc0, hpre0⟩ := hdesc id hidm hprec hnec
          exact Or.inr ⟨cur ++ [c0], List.mem_append_right _
            (List.mem_map.mpr ⟨c0, hc0, rfl⟩), hpre0⟩
      · exact Or.inr ⟨x, List.mem_append_left _ hx2, hpre⟩
  · refine ⟨cur.length, ra, rb ++ kidIds, ?_, hra, ?_, ?_, ?_⟩
    · rw [hrsplit, List.append_assoc]
    · intro x hx
      rcases List.mem_append.mp hx with hx | hx
      · exact hrb x hx
      · obtain ⟨c, hc, rfl⟩ := List.mem_map.mp hx
        simp
    · intro id hidm0 hidne hidlen
      have hidm : id ∈ keysS st := by rwa [hkeys2] at hidm0
      exact hmono id (hbelow id hidm hidne hidlen)
    · intro id hidm0 hset
      have hidm : id ∈ keysS st := by rwa [hkeys2] at hidm0
      by_cases hk : ∃ c ∈ dcur.childrenKeys, id = cur ++ [c]
      · obtain ⟨c, _, rfl⟩ := hk
        simp
      · rw [failOf_congr (hfold.other id (fun c hc heq => hk ⟨c, hc, heq⟩))] at hset
        have := hmax id hidm hset
        omega
  · have hc0 := hfold.cnt
    have hlen : kidIds.length = dcur.childrenKeys.length := by
      rw [hkidIds, List.length_map]
    omega

theorem bfsLoop_run :
    ∀ (fuel : Nat) (st : AStore) (q : List NodeId),
      BfsInv st q → 2 * cntNone st + q.length ≤ fuel →
      BfsInv (bfsLoop fuel st q) [] := by
  intro fuel
  induction fuel with
  | zero =>
      intro st q hinv hm
      cases q with
      | nil => exact hinv
      | cons c rest => simp at hm
  | succ fuel ih =>
      intro st q hinv hm
      cases q with
      | nil => exact hinv
      | cons cur rest =>
          obtain ⟨hinv', hlen', hcnt'⟩ := bfs_step hinv
          show BfsInv (bfsLoop fuel (processNode st cur).1
            (rest ++ (processNode st cur).2)) []
          refine ih _ _ hinv' ?_
          rw [List.length_append]
          rw [List.length_cons] at hm
          omega

/-- Effect of the initial fold of `buildFailureLinks` that links every
depth-1 node to the root. -/
theorem initFold_master (A : AStore) :
    ∀ (kids done : List NodeId) (s : AStore),
      (∀ x ∈ kids, x ∈ keysS A) →
      (∀ x : NodeId, x ∉ done → getS s x = getS A x) →
      (∀ x ∈ done, ∃ d0, getS A x = some d0 ∧
        getS s x = some { d0 with fail := some [] }) →
      SkelEq A s →
      (∀ x : NodeId, x ∉ done ++ kids →
        getS (kids.foldl (fun st k =>
          match getS st k with
          | some d => setS st k { d with fail := some [] }
          | none => st) s) x = getS A x) ∧
      (∀ x ∈ done ++ kids, ∃ d0, getS A x = some d0 ∧
        getS (kids.foldl (fun st k =>
          match getS st k with
          | some d => setS st k { d with fail := some [] }
          | none => st) s) x = some { d0 with fail := some [] }) ∧
      SkelEq A (kids.foldl (fun st k =>
        match getS st k with
        | some d => setS st k { d with fail := some [] }
        | none => st) s) := by
  intro kids
  induction kids with
  | nil =>
      intro done s hsub h1 h2 h3
      refine ⟨?_, ?_, h3⟩
      · intro x hx
        exact h1 x (by simpa using hx)
      · intro x hx
        exact h2 x (by simpa using hx)
  | cons k rest ih =>
      intro done s hsub h1 h2 h3
      have hkmem : k ∈ keysS A := hsub k (List.mem_cons_self _ _)
      have hs2 : ∃ d, getS s k = some d := by
        by_cases hk : k ∈ done
        · obtain ⟨d0, _, hg⟩ := h2 k hk
          exact ⟨_, hg⟩
        · obtain ⟨d0, hg⟩ :=
            Option.isSome_iff_exists.mp (getS_isSome_iff_mem.mpr hkmem)
          exact ⟨d0, by rw [h1 k hk]; exact hg⟩
      obtain ⟨d, hd⟩ := hs2
      have hstep : (match getS s k with
          | some d => setS s k { d with fail := some [] }
          | none => s) = setS s k { d with fail := some [] } := by
        rw [hd]
      have hfold :
          List.foldl (fun st k =>
            match getS st k with
            | some d => setS st k { d with fail := some [] }
            | none => st) s (k :: rest)
          = List.foldl (fun st k =>
            match getS st k with
            | some d => setS st k { d with fail := some [] }
            | none => st) (setS s k { d with fail := some [] }) rest := by
        show List.foldl (fun st k =>
            match getS st k with
            | some d => setS st k { d with fail := some [] }
            | none => st) (match getS s k with
            | some d => setS s k { d with fail := some [] }
            | none => s) rest = _
        rw [hstep]
      rw [hfold]
      have hres := ih (done ++ [k]) (setS s k { d with fail := some [] })
        (fun x hx => hsub x (List.mem_cons_of_mem _ hx)) ?_ ?_ ?_
      · refine ⟨?_, ?_, hres.2.2⟩
        · intro x hx
          refine hres.1 x ?_
          intro hx2
          refine hx ?_
          rcases List.mem_append.mp hx2 with hx3 | hx3
          · rcases List.mem_append.mp hx3 with hx4 | hx4
            · exact List.mem_append_left _ hx4
            · simp at hx4
              subst hx4
              exact List.mem_append_right _ (List.mem_cons_self _ _)
          · exact List.mem_append_right _ (List.mem_cons_of_mem _ hx3)
        · intro x hx
          refine hres.2.1 x ?_
          rcases List.mem_append.mp hx with hx3 | hx3
          · exact List.mem_append_left _ (List.mem_append_left _ hx3)
          · rcases List.mem_cons.mp hx3 with hx4 | hx4
            · subst hx4
              exact List.mem_append_left _ (List.mem_append_right _ (by simp))
            · exact List.mem_append_right _ hx4
      · intro x hx
        have hxd : x ∉ done := fun h => hx (List.mem_append_left _ h)
        have hxk : x ≠ k := fun h => hx (List.mem_append_right _ (by simp [h]))
        rw [getS_setS_other hxk]
        exact h1 x hxd
      · intro x hx
        rcases List.mem_append.mp hx with hx1 | hx1
        · by_cases hxk : x = k
          · subst hxk
            obtain ⟨d0, hA0, hg0⟩ := h2 x hx1
            refine ⟨d0, hA0, ?_⟩
            rw [hg0] at hd
            injection hd with hd
            subst hd
            rw [getS_setS_self hg0]
          · obtain ⟨d0, hA0, hg0⟩ := h2 x hx1
            refine ⟨d0, hA0, ?_⟩
            rw [getS_setS_other hxk]
            exact hg0
        · simp at hx1
          subst hx1
          by_cases hkd : x ∈ done
          · obtain ⟨d0, hA0, hg0⟩ := h2 x hkd
            refine ⟨d0, hA0, ?_⟩
            rw [hg0] at hd
            injection hd with hd
            subst hd
            rw [getS_setS_self hg0]
          · obtain ⟨d0, hA0⟩ :=
              Option.isSome_iff_exists.mp (getS_isSome_iff_mem.mpr
                (hsub x (List.mem_cons_self _ _)))
            refine ⟨d0, hA0, ?_⟩
            have hg1 : getS s x = some d0 := by
              rw [h1 x hkd]
              exact hA0
            rw [hg1] at hd
            injection hd with hd
            subst hd
            exact getS_setS_self hg1 _
      · exact skelEq_trans h3 (skelEq_setS hd rfl rfl rfl)

theorem collectOut_none (st : AStore) (fuel : Nat) :
    collectOut st fuel none = [] := by
  cases fuel <;> rfl

theorem initFold_length :
    ∀ (kids : List NodeId) (s : AStore),
      (kids.foldl (fun st k =>
        match getS st k with
        | some d => setS st k { d with fail := some [] }
        | none => st) s).length = s.length := by
  intro kids
  induction kids with
  | nil => intro s; rfl
  | cons k rest ih =>
      intro s
      show (rest.foldl _ (match getS s k with
        | some d => setS s k { d with fail := some [] }
        | none => s)).length = s.length
      cases hg : getS s k with
      | none => rw [ih]
      | some d => rw [ih, setS_length]

/-- After the initial fold of `buildFailureLinks`, the store together with
the queue of depth-1 nodes satisfies the breadth-first invariant. -/
theorem build_init_inv (A : AStore) (hwf : ACWF A) (hpr : Pristine A)
    {droot : ACData} (hroot : getS A [] = some droot) :
    BfsInv
      ((droot.childrenKeys.map (fun c => ([c] : NodeId))).foldl (fun st k =>
        match getS st k with
        | some d => setS st k { d with fail := some [] }
        | none => st) A)
      (droot.childrenKeys.map (fun c => ([c] : NodeId))) ∧
    (droot.childrenKeys.map (fun c => ([c] : NodeId))).length ≤ A.length := by
  obtain ⟨hnd, hr, hrend, hdep, hcknd, hacc, hpok⟩ := hwf
  have hwf' : ACWF A := ⟨hnd, hr, hrend, hdep, hcknd, hacc, hpok⟩
  set rootKids := droot.childrenKeys.map (fun c => ([c] : NodeId)) with hrk
  have hsubK : ∀ x ∈ rootKids, x ∈ keysS A := by
    intro x hx
    obtain ⟨c, hc, rfl⟩ := List.mem_map.mp hx
    have := hacc ([], droot) (getS_mem hroot) c hc
    simp only [List.nil_append] at this
    exact getS_isSome_iff_mem.mp this
  have hkidlen : ∀ x ∈ rootKids, x.length = 1 := by
    intro x hx
    obtain ⟨c, _, rfl⟩ := List.mem_map.mp hx
    rfl
  have hknd : rootKids.Nodup := by
    refine (hcknd ([], droot) (getS_mem hroot)).map ?_
    intro a b h
    injection h
  obtain ⟨hout, hin, hsk⟩ := initFold_master A rootKids [] A hsubK
    (fun x _ => rfl) (by intro x hx; cases hx) (skelEq_refl A)
  set st0 := rootKids.foldl (fun st k =>
    match getS st k with
    | some d => setS st k { d with fail := some [] }
    | none => st) A with hst0
  have hout' : ∀ x : NodeId, x ∉ rootKids → getS st0 x = getS A x := by
    intro x hx
    exact hout x (by simpa using hx)
  have hin' : ∀ x ∈ rootKids, ∃ d0, getS A x = some d0 ∧
      getS st0 x = some { d0 with fail := some [] } := by
    intro x hx
    exact hin x (by simpa using hx)
  have hprF : ∀ x : NodeId, failOf A x = none := by
    intro x
    unfold failOf
    cases hg : getS A x with
    | none => rfl
    | some d => exact (hpr _ (getS_mem hg)).1
  have hf0 : ∀ x : NodeId, x ∉ rootKids → failOf st0 x = failOf A x := by
    intro x hx
    unfold failOf
    rw [hout' x hx]
  have hfK : ∀ x ∈ rootKids, failOf st0 x = some [] := by
    intro x hx
    obtain ⟨d0, _, hg⟩ := hin' x hx
    unfold failOf
    rw [hg]
  have hrootNK : ([] : NodeId) ∉ rootKids := by
    intro h
    have := hkidlen [] h
    simp at this
  have hkeys0 : keysS st0 = keysS A := hsk.1
  have hsubperm := (List.subperm_of_subset hknd hsubK).length_le
  have hkeylen : (keysS A).length = A.length := by simp [keysS]
  refine ⟨⟨acwf_of_skelEq hwf' hsk, ?_, ?_, ?_, ?_, ?_, hknd, ?_, ?_⟩, by omega⟩
  · rw [hf0 [] hrootNK]
    exact hprF []
  · intro e he f hef
    have hge : getS st0 e.1 = some e.2 := by
      refine getS_of_mem_nodup ?_ ?_
      · rw [hkeys0]; exact hnd
      · cases e; exact he
    by_cases hK : e.1 ∈ rootKids
    · obtain ⟨d0, _, hg0⟩ := hin' _ hK
      rw [hge] at hg0
      injection hg0 with hg0
      rw [hg0] at hef
      have hef2 : some ([] : NodeId) = some f := hef
      injection hef2 with hef2
      subst hef2
      constructor
      · rw [hkeys0]
        exact getS_isSome_iff_mem.mp hr
      · have := hkidlen _ hK
        simp [this]
    · rw [hout' _ hK] at hge
      have := (hpr _ (getS_mem hge)).1
      rw [this] at hef
      cases hef
  · intro id d hgd
    have hlen0 : st0.length = A.length := initFold_length _ _
    by_cases hK : id ∈ rootKids
    · obtain ⟨d0, hgA, hg0⟩ := hin' _ hK
      rw [hgd] at hg0
      injection hg0 with hg0
      have hd0out : d0.out = [] := (hpr _ (getS_mem hgA)).2
      have hdout : d.out = [] := by rw [hg0]; exact hd0out
      have hdfail : d.fail = some [] := by rw [hg0]
      rw [hdout, hdfail]
      have hApos : 0 < A.length := by
        have := mem_keysS_of_getS hroot
        cases A with
        | nil => cases this
        | cons e rest => simp
      obtain ⟨m, hm⟩ : ∃ m, st0.length = m + 1 := by
        rw [hlen0]
        cases hA : A.length with
        | zero => omega
        | succ m => exact ⟨m, rfl⟩
      rw [hm]
      show ([] : List NodeId) =
        (if isEndA st0 [] then [([] : NodeId)] else []) ++
          collectOut st0 m (failOf st0 [])
      have hend0 : isEndA st0 [] = false := by
        unfold isEndA
        rw [hout' [] hrootNK, hroot]
        exact hrend ([], droot) (getS_mem hroot) rfl
      rw [hend0]
      rw [hf0 [] hrootNK, hprF [], collectOut_none]
      rfl
    · rw [hout' _ hK] at hgd
      have hp := hpr _ (getS_mem hgd)
      rw [hp.2, hp.1, collectOut_none]
  · intro x hx
    refine ⟨hkeys0 ▸ hsubK x hx, ?_, ?_⟩
    · intro h
      exact hrootNK (h ▸ hx)
    · rw [hfK x hx]
      rfl
  · intro x hx id hid hpre hne
    have hxl := hkidlen x hx
    have hidl : 2 ≤ id.length := by
      obtain ⟨t, ht⟩ := hpre
      have : t ≠ [] := by
        intro h
        subst h
        simp at ht
        exact hne ht.symm
      have ht2 : 1 ≤ t.length := by
        cases t with
        | nil => exact absurd rfl this
        | cons a b => simp
      have := congrArg List.length ht
      simp at this
      omega
    have hidNK : id ∉ rootKids := by
      intro h
      have := hkidlen id h
      omega
    rw [hf0 id hidNK]
    exact hprF id
  · intro id hid hne
    refine Or.inr ?_
    cases id with
    | nil => exact absurd rfl hne
    | cons c0 t =>
        have hpre : isPre [c0] (c0 :: t) := ⟨t, rfl⟩
        have hmem : [c0] ∈ keysS A := by
          refine acMem_of_pre hpok ?_ hpre
          rw [← hkeys0]
          exact hid
        obtain ⟨d', hd'⟩ := Option.isSome_iff_exists.mp
          (getS_isSome_iff_mem.mpr hmem)
        have hd'2 : getS A ([] ++ [c0]) = some d' := hd'
        obtain ⟨dr, hdr, hc0⟩ := acParent_spec hpok hd'2
        rw [hroot] at hdr
        injection hdr with hdr
        subst hdr
        exact ⟨[c0], List.mem_map.mpr ⟨c0, hc0, rfl⟩, hpre⟩
  · refine ⟨0, [], rootKids, by simp, ?_, ?_, ?_, ?_⟩
    · intro x hx
      cases hx
    · intro x hx
      exact hkidlen x hx
    · intro id _ hne hle
      have : id = [] := List.eq_nil_of_length_eq_zero (by omega)
      exact absurd this hne
    · intro id _ hsome
      by_cases hK : id ∈ rootKids
      · rw [hkidlen id hK]
      · rw [hf0 id hK, hprF id] at hsome
        cases hsome

/-- The breadth-first invariant holds, with an empty queue, for the store
of any automaton built by `addPattern`s followed by `buildFailureLinks`:
the allotted fuel `3*n+1` provably covers the whole traversal. -/
theorem bfs_built (ps : List (List Char)) :
    BfsInv (addPatterns ps).buildFailureLinks.nodes [] := by
  obtain ⟨hwf, hpr⟩ := addPatterns_wfp ps
  obtain ⟨droot, hroot⟩ := Option.isSome_iff_exists.mp hwf.2.1
  obtain ⟨hinv0, hklen⟩ := build_init_inv (addPatterns ps).nodes hwf hpr hroot
  have hnodes : (addPatterns ps).buildFailureLinks.nodes =
      bfsLoop (3 * (addPatterns ps).nodes.length + 1)
        ((droot.childrenKeys.map (fun c => ([c] : NodeId))).foldl (fun st k =>
          match getS st k with
          | some d => setS st k { d with fail := some [] }
          | none => st) (addPatterns ps).nodes)
        (droot.childrenKeys.map (fun c => ([c] : NodeId))) := by
    unfold AhoCorasick.buildFailureLinks
    rw [hroot]
  rw [hnodes]
  refine bfsLoop_run _ _ _ hinv0 ?_
  have h1 : cntNone ((droot.childrenKeys.map (fun c => ([c] : NodeId))).foldl
      (fun st k =>
        match getS st k with
        | some d => setS st k { d with fail := some [] }
        | none => st) (addPatterns ps).nodes) ≤ (addPatterns ps).nodes.length := by
    have := cntNone_le_length ((droot.childrenKeys.map
      (fun c => ([c] : NodeId))).foldl (fun st k =>
        match getS st k with
        | some d => setS st k { d with fail := some [] }
        | none => st) (addPatterns ps).nodes)
    rw [initFold_length] at this
    exact this
  omega

/-- C2: after `buildFailureLinks` completes on any pattern set, every
non-root node of the automaton has a non-null failure link, and the
failure target's depth is strictly smaller than the node's depth. -/
theorem C2_failure_link_invariants (ps : List (List Char)) (id : NodeId)
    (hid : id ∈ keysS (addPatterns ps).buildFailureLinks.nodes)
    (hne : id ≠ []) :
    ∃ d f fd, getS (addPatterns ps).buildFailureLinks.nodes id = some d ∧
      d.fail = some f ∧
      getS (addPatterns ps).buildFailureLinks.nodes f = some fd ∧
      fd.depth < d.depth := by
  have hinv := bfs_built ps
  have hsome : (failOf (addPatterns ps).buildFailureLinks.nodes id).isSome
      = true := by
    rcases hinv.cover id hid hne with h | ⟨x, hx, _⟩
    · exact h
    · cases hx
  obtain ⟨f, hf⟩ := Option.isSome_iff_exists.mp hsome
  obtain ⟨d, hd, hdf⟩ := failOf_isSome hf
  obtain ⟨hfk, hflt⟩ := failDec_getS hinv.finv hd hdf
  obtain ⟨fd, hfd⟩ := Option.isSome_iff_exists.mp (getS_isSome_iff_mem.mpr hfk)
  refine ⟨d, f, fd, hd, hdf, hfd, ?_⟩
  have hdep := hinv.wf.2.2.2.1
  have h1 : d.depth = id.length := hdep _ (getS_mem hd)
  have h2 : fd.depth = f.length := hdep _ (getS_mem hfd)
  omega

theorem C2_failure_link_invariants_witness :
    (['t'] : NodeId) ∈
        keysS (addPatterns [['T','C','G']]).buildFailureLinks.nodes ∧
    (['t'] : NodeId) ≠ [] ∧
    ∃ d f fd,
      getS (addPatterns [['T','C','G']]).buildFailureLinks.nodes ['t']
        = some d ∧
      d.fail = some f ∧
      getS (addPatterns [['T','C','G']]).buildFailureLinks.nodes f
        = some fd ∧
      fd.depth < d.depth :=
  ⟨by decide, by decide,
    C2_failure_link_invariants [['T','C','G']] ['t'] (by decide) (by decide)⟩

/-- C3 (counterexample): with patterns "A" and "AA", the node "aa" is
terminal yet its stored output list is exactly `[ "a" ]` — the node itself
is NOT included as the first entry (it is not included at all).  The
matcher instead reports the node's own pattern through its `isEndOfWord`
flag at match time, separately from `outputLinks`. -/
theorem C3_output_links_counterexample :
    Option.map (fun d => (d.isEnd, d.out))
      (getS (addPatterns [['A'], ['A', 'A']]).buildFailureLinks.nodes
        (['a', 'a'] : NodeId)) = some (true, [(['a'] : NodeId)]) ∧
    Option.map (fun d => d.out.head?)
      (getS (addPatterns [['A'], ['A', 'A']]).buildFailureLinks.nodes
        (['a', 'a'] : NodeId)) ≠ some (some (['a', 'a'] : NodeId)) := by
  decide

/-- C3 (amended): after `buildFailureLinks`, every node's stored output
list equals the terminal nodes collected along the failure chain starting
at the node's own failure link — the node itself is never an element (every
element is strictly shallower than the node). -/
theorem C3_output_links_amended (ps : List (List Char)) (id : NodeId)
    (d : ACData)
    (hg : getS (addPatterns ps).buildFailureLinks.nodes id = some d) :
    d.out = collectOut (addPatterns ps).buildFailureLinks.nodes
      (addPatterns ps).buildFailureLinks.nodes.length d.fail ∧
    ∀ x ∈ d.out, x.length < id.length := by
  have hinv := bfs_built ps
  have hout := hinv.outinv id d hg
  refine ⟨hout, ?_⟩
  intro x hx
  rw [hout] at hx
  cases hdf : d.fail with
  | none =>
      rw [hdf, collectOut_none] at hx
      cases hx
  | some f =>
      rw [hdf] at hx
      have hle := collectOut_mem_length hinv.finv _ _ x hx f rfl
      have hlt := (failDec_getS hinv.finv hg hdf).2
      omega

theorem C3_output_links_amended_witness :
    ∃ d, getS (addPatterns [['A'], ['A', 'A']]).buildFailureLinks.nodes
        (['a', 'a'] : NodeId) = some d ∧
      (d.out = collectOut (addPatterns [['A'], ['A', 'A']]).buildFailureLinks.nodes
        (addPatterns [['A'], ['A', 'A']]).buildFailureLinks.nodes.length d.fail ∧
      ∀ x ∈ d.out, x.length < (['a', 'a'] : NodeId).length) := by
  cases hg : getS (addPatterns [['A'], ['A', 'A']]).buildFailureLinks.nodes
      (['a', 'a'] : NodeId) with
  | none => exact absurd hg (by decide)
  | some d =>
      exact ⟨d, rfl, C3_output_links_amended [['A'], ['A', 'A']] ['a', 'a'] d hg⟩

/-! ## Sliding-window matcher (`calculateSteps`) -/

/-- `str.toUpperCase().replace(/[^ATGC]/g, '')` — the cleaning common to
the sliding-window matcher and the FFT pipeline. -/
def cleanDNA (s : List Char) : List Char := (jsUpper s).filter isATGC

/-- 0/1 indicator signal of one base over a sequence. -/
def indicatorN (s : List Char) (c : Char) : List Nat :=
  s.map (fun x => if x = c then 1 else 0)

/-- The base characters iterated by both engines. -/
def basesL : List Char := ['A', 'T', 'G', 'C']

/-- Per-window dot-product score summed over the four bases: `products`
pairs `textVals` with `patternVals` positionally (the two windows have
equal length at every reached call). -/
def windowScore (slice pat : List Char) : Nat :=
  (basesL.map (fun c =>
    ((indicatorN slice c).zipWith (· * ·) (indicatorN pat c)).sum)).sum

/-- One entry of the sliding-window result.  The display-only signal
fields (`textSignals`, `patternSignals`, per-base `dotProducts`) are
omitted: they are recomputable presentations of the same indicators. -/
structure CalcStep where
  position : Nat
  textSlice : List Char
  pat : List Char
  totalScore : Nat
  isMatch : Bool
deriving DecidableEq

/-- `calculateSteps` of the slide-multiply demo: clean both strings,
return no steps when either cleans to empty, else one step per window
position `0 ≤ i ≤ |text| - |pattern|` (none when the pattern is longer:
the JavaScript loop bound is negative, `range` is empty here). -/
def calculateSteps (textStr patternStr : List Char) : List CalcStep :=
  let textUpper := cleanDNA textStr
  let patternUpper := cleanDNA patternStr
  if textUpper = [] ∨ patternUpper = [] then []
  else
    (List.range (textUpper.length + 1 - patternUpper.length)).map (fun i =>
      let textSlice := (textUpper.drop i).take patternUpper.length
      let score := windowScore textSlice patternUpper
      { position := i, textSlice := textSlice, pat := patternUpper,
        totalScore := score, isMatch := score == patternUpper.length })

/-! ## FFT pipeline (`FFTDemo`) — floating point modelled over exact ℝ/ℂ -/

/-- `multiplyComplex` of the source, componentwise. -/
def multiplyComplex (a b : ℂ) : ℂ :=
  ⟨a.re * b.re - a.im * b.im, a.re * b.im + a.im * b.re⟩

/-- `addComplex` of the source. -/
def addComplex (a b : ℂ) : ℂ := ⟨a.re + b.re, a.im + b.im⟩

/-- `subtractComplex` of the source. -/
def subtractComplex (a b : ℂ) : ℂ := ⟨a.re - b.re, a.im - b.im⟩

/-- `{ real: c.real, imag: -c.imag }` — conjugation as written inline in
`ifft` and in the frequency-domain multiply. -/
def conjC (a : ℂ) : ℂ := ⟨a.re, -a.im⟩

/-- Even-index elements (`for i += 2 { even.push(signal[i]) }`). -/
def evens {α : Type} : List α → List α
  | [] => []
  | [a] => [a]
  | a :: _ :: rest => a :: evens rest

/-- Odd-index elements (`if (i+1 < n) odd.push(signal[i+1])`). -/
def odds {α : Type} : List α → List α
  | [] => []
  | [_] => []
  | _ :: b :: rest => b :: odds rest

theorem evens_length {α : Type} : ∀ l : List α, (evens l).length = (l.length + 1) / 2
  | [] => by simp [evens]
  | [_] => by simp [evens]
  | _ :: _ :: rest => by
      simp only [evens, List.length_cons]
      rw [evens_length rest]
      omega

theorem odds_length {α : Type} : ∀ l : List α, (odds l).length = l.length / 2
  | [] => by simp [odds]
  | [_] => by simp [odds]
  | _ :: _ :: rest => by
      simp only [odds, List.length_cons]
      rw [odds_length rest]
      omega

/-- The twiddle factor `{ real: cos(-2πk/n), imag: sin(-2πk/n) }`. -/
noncomputable def wC (n k : ℕ) : ℂ :=
  ⟨Real.cos (-2 * Real.pi * k / n), Real.sin (-2 * Real.pi * k / n)⟩

/-- Recursive radix-2 `fft` of the source.  The even half always has the
index in range; `getD _ 0` mirrors `oddFFT[k] || {real: 0, imag: 0}`.
On the even lengths reached by the pipeline (powers of two) the two
`range (n/2)` blocks are exactly the `result[k]`/`result[k + n/2]`
writes into the length-`n` output array. -/
noncomputable def fft (l : List ℂ) : List ℂ :=
  if l.length ≤ 1 then l
  else
    let ev := fft (evens l)
    let od := fft (odds l)
    (List.range (l.length / 2)).map (fun k =>
      addComplex (ev.getD k 0) (multiplyComplex (wC l.length k) (od.getD k 0))) ++
    (List.range (l.length / 2)).map (fun k =>
      subtractComplex (ev.getD k 0) (multiplyComplex (wC l.length k) (od.getD k 0)))
termination_by l.length
decreasing_by
  · rw [evens_length]
    omega
  · rw [odds_length]
    omega

/-- `ifft`: conjugate, forward `fft`, conjugate, divide both components
by the input length. -/
noncomputable def ifft (l : List ℂ) : List ℂ :=
  (fft (l.map conjC)).map (fun c =>
    ⟨c.re / (l.length : ℝ), -c.im / (l.length : ℝ)⟩)

/-- `createPaddedSignal`: 0/1 indicator then zero-pad up to `paddedLength`
(no-op when already long enough). -/
def createPaddedSignal (s : List Char) (c : Char) (pl : Nat) : List ℝ :=
  let signal := s.map (fun x => if x = c then (1 : ℝ) else 0)
  signal ++ List.replicate (pl - signal.length) 0

/-- `paddedLength` of `processInputs`: `2^ceil(log2(max(tl+pl-1, 8)))`. -/
def paddedLen (tl pl : Nat) : Nat := 2 ^ Nat.clog 2 (max (tl + pl - 1) 8)

/-- `arr.slice(0, e)` for a possibly negative `e` (JavaScript clamps a
negative end to `length + e`). -/
def jsSlice0 {α : Type} (l : List α) (e : Int) : List α :=
  l.take (Int.toNat (if e < 0 then (l.length : Int) + e else e))

/-- Result record of `calculateAllSteps`.  The JavaScript per-base maps
(keyed by exactly the four bases) are modelled as functions on `Char`. -/
structure StepData where
  textSignals : Char → List ℝ
  patternSignals : Char → List ℝ
  textFFT : Char → List ℂ
  patternFFT : Char → List ℂ
  multipliedFFT : Char → List ℂ
  correlations : Char → List Int
  finalScores : List Int

/-- `calculateAllSteps` of the FFT demo: clean and cap the inputs, pad
the per-base indicators, transform, multiply the text spectrum with the
conjugated pattern spectrum, inverse-transform, round the real parts,
keep the `validPositions` head (JavaScript `slice` with a possibly
negative bound), and sum the four per-base correlations per position
(`correlations[base][i] || 0` is an out-of-range-safe read). -/
noncomputable def calculateAllSteps (text pat : List Char) : StepData :=
  let cleanText := (cleanDNA text).take 12
  let cleanPattern := (cleanDNA pat).take 6
  let paddedLength := paddedLen cleanText.length cleanPattern.length
  let textSignals := fun b => createPaddedSignal cleanText b paddedLength
  let patternSignals := fun b => createPaddedSignal cleanPattern b paddedLength
  let textFFT := fun b => fft ((textSignals b).map (fun x => (⟨x, 0⟩ : ℂ)))
  let patternFFT := fun b => fft ((patternSignals b).map (fun x => (⟨x, 0⟩ : ℂ)))
  let multipliedFFT := fun b =>
    (List.range (textFFT b).length).map (fun i =>
      multiplyComplex ((textFFT b).getD i 0) (conjC ((patternFFT b).getD i 0)))
  let validPositions : Int :=
    (cleanText.length : Int) - (cleanPattern.length : Int) + 1
  let correlations := fun b =>
    jsSlice0 ((ifft (multipliedFFT b)).map (fun c => round c.re)) validPositions
  let finalScores :=
    (List.range validPositions.toNat).map (fun i =>
      (basesL.map (fun b => (correlations b).getD i 0)).sum)
  ⟨textSignals, patternSignals, textFFT, patternFFT, multipliedFFT,
    correlations, finalScores⟩

/-! ### Basic algebra of the complex helpers -/

theorem multiplyComplex_eq (a b : ℂ) : multiplyComplex a b = a * b := by
  apply Complex.ext <;> simp [multiplyComplex, Complex.mul_re, Complex.mul_im]

theorem addComplex_eq (a b : ℂ) : addComplex a b = a + b := by
  apply Complex.ext <;> simp [addComplex]

theorem subtractComplex_eq (a b : ℂ) : subtractComplex a b = a - b := by
  apply Complex.ext <;> simp [subtractComplex]

theorem conjC_eq (a : ℂ) : conjC a = (starRingEnd ℂ) a := by
  apply Complex.ext <;> simp [conjC]

theorem multiplyComplex_zero_right (a : ℂ) : multiplyComplex a 0 = 0 := by
  rw [multiplyComplex_eq, mul_zero]

theorem getD_replicate_zero {α : Type} [Zero α] (n i : Nat) :
    (List.replicate n (0 : α)).getD i 0 = 0 := by
  by_cases h : i < n
  · rw [List.getD_eq_getElem _ _ (by simpa using h)]
    simp
  · rw [List.getD_eq_default _ _ (by simpa using Nat.le_of_not_lt h)]

theorem map_const_range {α : Type} (n : Nat) (c : α) :
    (List.range n).map (fun _ => c) = List.replicate n c := by
  induction n with
  | zero => rfl
  | succ n ih =>
      rw [List.range_succ, List.map_append, ih, List.map_singleton]
      rw [List.replicate_succ']

theorem evens_replicate {α : Type} (a : α) :
    ∀ n, evens (List.replicate n a) = List.replicate ((n + 1) / 2) a
  | 0 => by simp [evens]
  | 1 => by simp [evens]
  | (n + 2) => by
      show evens (a :: a :: List.replicate n a) = _
      simp only [evens]
      rw [evens_replicate a n]
      have h2 : (n + 2 + 1) / 2 = (n + 1) / 2 + 1 := by omega
      rw [h2, List.replicate_succ]

theorem odds_replicate {α : Type} (a : α) :
    ∀ n, odds (List.replicate n a) = List.replicate (n / 2) a
  | 0 => by simp [odds]
  | 1 => by simp [odds]
  | (n + 2) => by
      show odds (a :: a :: List.replicate n a) = _
      simp only [odds]
      rw [odds_replicate a n]
      have h2 : (n + 2) / 2 = n / 2 + 1 := by omega
      rw [h2, List.replicate_succ]

theorem fft_base {l : List ℂ} (h : l.length ≤ 1) : fft l = l := by
  unfold fft
  rw [if_pos h]

theorem fft_rec {l : List ℂ} (h : ¬ l.length ≤ 1) :
    fft l =
      (List.range (l.length / 2)).map (fun k =>
        addComplex ((fft (evens l)).getD k 0)
          (multiplyComplex (wC l.length k) ((fft (odds l)).getD k 0))) ++
      (List.range (l.length / 2)).map (fun k =>
        subtractComplex ((fft (evens l)).getD k 0)
          (multiplyComplex (wC l.length k) ((fft (odds l)).getD k 0))) := by
  rw [fft]
  rw [if_neg h]

/-- Output length of the modelled transform.  On even input lengths —
the only lengths the pipeline reaches — it preserves the length. -/
theorem fft_length (l : List ℂ) :
    (fft l).length = if l.length ≤ 1 then l.length else 2 * (l.length / 2) := by
  by_cases h : l.length ≤ 1
  · rw [fft_base h, if_pos h]
  · rw [fft_rec h, if_neg h]
    simp
    omega

theorem fft_length_even {l : List ℂ} (h : 2 ∣ l.length) :
    (fft l).length = l.length := by
  rw [fft_length]
  by_cases h1 : l.length ≤ 1
  · rw [if_pos h1]
  · rw [if_neg h1]
    omega

/-- The transform of an all-zero power-of-two signal is all zero. -/
theorem fft_replicate_zero : ∀ m : Nat,
    fft (List.replicate (2 ^ m) (0 : ℂ)) = List.replicate (2 ^ m) 0 := by
  intro m
  induction m with
  | zero => exact fft_base (by simp)
  | succ m ih =>
      have hlen : (List.replicate (2 ^ (m + 1)) (0 : ℂ)).length = 2 ^ (m + 1) := by
        simp
      have hgt : ¬ (List.replicate (2 ^ (m + 1)) (0 : ℂ)).length ≤ 1 := by
        rw [hlen]
        have : 2 ≤ 2 ^ (m + 1) := by
          calc 2 = 2 ^ 1 := rfl
          _ ≤ 2 ^ (m + 1) := Nat.pow_le_pow_right (by omega) (by omega)
        omega
      rw [fft_rec hgt]
      have hev : evens (List.replicate (2 ^ (m + 1)) (0 : ℂ))
          = List.replicate (2 ^ m) 0 := by
        rw [evens_replicate]
        congr 1
        have : 2 ^ (m + 1) = 2 * 2 ^ m := by ring
        omega
      have hod : odds (List.replicate (2 ^ (m + 1)) (0 : ℂ))
          = List.replicate (2 ^ m) 0 := by
        rw [odds_replicate]
        congr 1
        have : 2 ^ (m + 1) = 2 * 2 ^ m := by ring
        omega
      rw [hev, hod, ih, hlen]
      have hhalf : 2 ^ (m + 1) / 2 = 2 ^ m := by
        have : 2 ^ (m + 1) = 2 * 2 ^ m := by ring
        omega
      rw [hhalf]
      have hone : ∀ k : Nat,
          addComplex ((List.replicate (2 ^ m) (0 : ℂ)).getD k 0)
            (multiplyComplex (wC (2 ^ (m + 1)) k)
              ((List.replicate (2 ^ m) (0 : ℂ)).getD k 0)) = 0 := by
        intro k
        rw [getD_replicate_zero, multiplyComplex_zero_right, addComplex_eq,
          add_zero]
      have htwo : ∀ k : Nat,
          subtractComplex ((List.replicate (2 ^ m) (0 : ℂ)).getD k 0)
            (multiplyComplex (wC (2 ^ (m + 1)) k)
              ((List.replicate (2 ^ m) (0 : ℂ)).getD k 0)) = 0 := by
        intro k
        rw [getD_replicate_zero, multiplyComplex_zero_right, subtractComplex_eq,
          sub_zero]
      calc (List.range (2 ^ m)).map (fun k =>
            addComplex ((List.replicate (2 ^ m) (0 : ℂ)).getD k 0)
              (multiplyComplex (wC (2 ^ (m + 1)) k)
                ((List.replicate (2 ^ m) (0 : ℂ)).getD k 0))) ++
          (List.range (2 ^ m)).map (fun k =>
            subtractComplex ((List.replicate (2 ^ m) (0 : ℂ)).getD k 0)
              (multiplyComplex (wC (2 ^ (m + 1)) k)
                ((List.replicate (2 ^ m) (0 : ℂ)).getD k 0)))
          = (List.range (2 ^ m)).map (fun _ => (0 : ℂ)) ++
            (List.range (2 ^ m)).map (fun _ => (0 : ℂ)) := by
            rw [List.map_congr_left (fun k _ => hone k),
              List.map_congr_left (fun k _ => htwo k)]
      _ = List.replicate (2 ^ (m + 1)) 0 := by
            rw [map_const_range, ← List.replicate_add]
            congr 1
            ring

/-! ### Unfolding lemmas for the pipeline record -/

theorem calcAll_patternFFT (text pat : List Char) (b : Char) :
    (calculateAllSteps text pat).patternFFT b =
      fft ((createPaddedSignal ((cleanDNA pat).take 6) b
        (paddedLen ((cleanDNA text).take 12).length
          ((cleanDNA pat).take 6).length)).map (fun x => (⟨x, 0⟩ : ℂ))) := rfl

theorem calcAll_textFFT (text pat : List Char) (b : Char) :
    (calculateAllSteps text pat).textFFT b =
      fft ((createPaddedSignal ((cleanDNA text).take 12) b
        (paddedLen ((cleanDNA text).take 12).length
          ((cleanDNA pat).take 6).length)).map (fun x => (⟨x, 0⟩ : ℂ))) := rfl

theorem calcAll_multipliedFFT (text pat : List Char) (b : Char) :
    (calculateAllSteps text pat).multipliedFFT b =
      (List.range ((calculateAllSteps text pat).textFFT b).length).map (fun i =>
        multiplyComplex (((calculateAllSteps text pat).textFFT b).getD i 0)
          (conjC (((calculateAllSteps text pat).patternFFT b).getD i 0))) := rfl

theorem calcAll_correlations (text pat : List Char) (b : Char) :
    (calculateAllSteps text pat).correlations b =
      jsSlice0 ((ifft ((calculateAllSteps text pat).multipliedFFT b)).map
          (fun c => round c.re))
        ((((cleanDNA text).take 12).length : Int)
          - (((cleanDNA pat).take 6).length : Int) + 1) := rfl

theorem calcAll_finalScores (text pat : List Char) :
    (calculateAllSteps text pat).finalScores =
      (List.range (Int.toNat ((((cleanDNA text).take 12).length : Int)
          - (((cleanDNA pat).take 6).length : Int) + 1))).map (fun i =>
        (basesL.map (fun b =>
          ((calculateAllSteps text pat).correlations b).getD i 0)).sum) := rfl

/-! ### Degenerate-input behaviour (C8) -/

theorem evens_getD {α : Type} (d : α) : ∀ (l : List α) (j : Nat),
    (evens l).getD j d = l.getD (2 * j) d
  | [], j => by simp [evens]
  | [a], j => by
      cases j with
      | zero => simp [evens]
      | succ j =>
          rw [List.getD_eq_default _ _ (by simp [evens]; try omega),
            List.getD_eq_default _ _ (by simp; try omega)]
  | a :: b :: rest, j => by
      cases j with
      | zero => simp [evens]
      | succ j =>
          show (a :: evens rest).getD (j + 1) d = (a :: b :: rest).getD (2 * (j + 1)) d
          rw [List.getD_cons_succ]
          have h2 : 2 * (j + 1) = 2 * j + 1 + 1 := by omega
          rw [h2, List.getD_cons_succ, List.getD_cons_succ]
          exact evens_getD d rest j

theorem odds_getD {α : Type} (d : α) : ∀ (l : List α) (j : Nat),
    (odds l).getD j d = l.getD (2 * j + 1) d
  | [], j => by simp [odds]
  | [a], j => by
      rw [List.getD_eq_default _ _ (by simp [odds]; try omega),
        List.getD_eq_default _ _ (by simp; try omega)]
  | a :: b :: rest, j => by
      cases j with
      | zero => simp [odds]
      | succ j =>
          show (b :: odds rest).getD (j + 1) d = (a :: b :: rest).getD (2 * (j + 1) + 1) d
          rw [List.getD_cons_succ]
          have h2 : 2 * (j + 1) + 1 = 2 * j + 1 + 1 + 1 := by omega
          rw [h2, List.getD_cons_succ, List.getD_cons_succ]
          exact odds_getD d rest j

/-! ### The discrete Fourier transform and root-of-unity algebra -/

/-- `exp(-2πi·x/n)` — the negative-frequency root of unity used by the
source's forward transform. -/
noncomputable def eN (n : Nat) (x : Int) : ℂ :=
  Complex.exp (((-2 * Real.pi * (x : ℝ) / (n : ℝ) : ℝ) : ℂ) * Complex.I)

theorem wC_eq (n k : Nat) : wC n k = eN n k := by
  unfold wC eN
  apply Complex.ext
  · rw [Complex.exp_ofReal_mul_I_re]
    push_cast
    rfl
  · rw [Complex.exp_ofReal_mul_I_im]
    push_cast
    rfl

theorem eN_zero (n : Nat) : eN n 0 = 1 := by
  unfold eN
  norm_num [Complex.exp_zero]

theorem eN_add (n : Nat) (a b : Int) : eN n (a + b) = eN n a * eN n b := by
  unfold eN
  rw [← Complex.exp_add]
  congr 1
  push_cast
  ring

theorem eN_pow (n : Nat) (x : Int) (k : Nat) : eN n (x * k) = eN n x ^ k := by
  unfold eN
  rw [← Complex.exp_nat_mul]
  congr 1
  push_cast
  ring

theorem eN_int_mul_self (n : Nat) (hn : n ≠ 0) (j : Int) : eN n (j * n) = 1 := by
  unfold eN
  have harg : ((-2 * Real.pi * ((j * (n : Int) : Int) : ℝ) / (n : ℝ) : ℝ) : ℂ)
      * Complex.I = (-j : Int) * (2 * (Real.pi : ℂ) * Complex.I) := by
    have hr : (-2 * Real.pi * ((j * (n : Int) : Int) : ℝ) / (n : ℝ) : ℝ)
        = (-j : Int) * (2 * Real.pi) := by
      have hne : (n : ℝ) ≠ 0 := Nat.cast_ne_zero.mpr hn
      push_cast
      field_simp
      ring
    rw [hr]
    push_cast
    ring
  rw [harg, Complex.exp_int_mul_two_pi_mul_I]

theorem eN_eq_one_iff (n : Nat) (hn : n ≠ 0) (d : Int) :
    eN n d = 1 ↔ (n : Int) ∣ d := by
  constructor
  · intro h
    unfold eN at h
    obtain ⟨m, hm⟩ := Complex.exp_eq_one_iff.mp h
    have him := congrArg Complex.im hm
    simp [Complex.mul_im] at him
    have hne : (n : ℝ) ≠ 0 := Nat.cast_ne_zero.mpr hn
    have hpi : Real.pi ≠ 0 := Real.pi_ne_zero
    have h2pi : (2 * Real.pi : ℝ) ≠ 0 := by positivity
    field_simp at him
    have him2 : (2 * Real.pi) * (-(d : ℝ)) = (2 * Real.pi) * ((m : ℝ) * (n : ℝ)) := by
      linarith [him]
    have hd : -(d : ℝ) = (m : ℝ) * (n : ℝ) := mul_left_cancel₀ h2pi him2
    have hdz : (d : Int) = -(m * n) := by
      have hcast : (d : ℝ) = ((-(m * n) : Int) : ℝ) := by
        push_cast
        linarith [hd]
      exact_mod_cast hcast
    exact ⟨-m, by rw [hdz]; ring⟩
  · intro ⟨q, hq⟩
    subst hq
    rw [mul_comm, eN_int_mul_self n hn q]

theorem eN_conj (n : Nat) (x : Int) :
    (starRingEnd ℂ) (eN n x) = eN n (-x) := by
  unfold eN
  rw [← Complex.exp_conj]
  congr 1
  rw [map_mul, Complex.conj_I, Complex.conj_ofReal]
  push_cast
  ring

theorem eN_double (M : Nat) (x : Int) : eN (2 * M) (2 * x) = eN M x := by
  unfold eN
  have hr : (-2 * Real.pi * ((2 * x : Int) : ℝ) / ((2 * M : Nat) : ℝ) : ℝ)
      = -2 * Real.pi * (x : ℝ) / (M : ℝ) := by
    push_cast
    rw [show (-2 * Real.pi * (2 * (x : ℝ)) : ℝ) = 2 * (-2 * Real.pi * x) by ring,
      show ((2 : ℝ) * (M : ℝ)) = 2 * (M : ℝ) from rfl,
      mul_div_mul_left _ _ (two_ne_zero)]
  rw [hr]

theorem eN_half (M : Nat) (hM : M ≠ 0) : eN (2 * M) M = -1 := by
  unfold eN
  have hMne : (M : ℝ) ≠ 0 := Nat.cast_ne_zero.mpr hM
  have hr : (-2 * Real.pi * ((M : Int) : ℝ) / ((2 * M : Nat) : ℝ) : ℝ)
      = -Real.pi := by
    push_cast
    field_simp
    ring
  rw [hr]
  have : ((-Real.pi : ℝ) : ℂ) * Complex.I = -(Real.pi * Complex.I) := by
    push_cast
    ring
  rw [this, Complex.exp_neg, Complex.exp_pi_mul_I]
  norm_num

theorem eN_orth (n : Nat) (hn : n ≠ 0) (d : Int) :
    ∑ k ∈ Finset.range n, eN n (d * k) =
      if (n : Int) ∣ d then (n : ℂ) else 0 := by
  by_cases hdvd : (n : Int) ∣ d
  · rw [if_pos hdvd]
    have h1 : eN n d = 1 := (eN_eq_one_iff n hn d).mpr hdvd
    have hterm : ∀ k ∈ Finset.range n, eN n (d * k) = 1 := by
      intro k _
      rw [eN_pow, h1, one_pow]
    rw [Finset.sum_congr rfl hterm]
    simp
  · rw [if_neg hdvd]
    have hz : eN n d ≠ 1 := fun h => hdvd ((eN_eq_one_iff n hn d).mp h)
    have hterm : ∀ k ∈ Finset.range n, eN n (d * k) = eN n d ^ k := by
      intro k _
      rw [eN_pow]
    rw [Finset.sum_congr rfl hterm, geom_sum_eq hz]
    have hzn : eN n d ^ n = 1 := by
      rw [← eN_pow]
      exact eN_int_mul_self n hn d
    rw [hzn]
    simp

theorem sum_range_even_odd (M : Nat) (f : Nat → ℂ) :
    ∑ j ∈ Finset.range (2 * M), f j =
      (∑ j ∈ Finset.range M, f (2 * j)) +
      (∑ j ∈ Finset.range M, f (2 * j + 1)) := by
  induction M with
  | zero => simp
  | succ M ih =>
      have h2 : 2 * (M + 1) = 2 * M + 1 + 1 := by ring
      rw [h2, Finset.sum_range_succ, Finset.sum_range_succ, ih,
        Finset.sum_range_succ, Finset.sum_range_succ]
      ring

/-- The direct (quadratic) discrete Fourier transform with the same
negative-frequency convention as the source's `fft`. -/
noncomputable def dft (l : List ℂ) : List ℂ :=
  (List.range l.length).map (fun (k : Nat) =>
    ∑ j ∈ Finset.range l.length, l.getD j 0 * eN l.length ((j : Int) * (k : Int)))

theorem dft_length (l : List ℂ) : (dft l).length = l.length := by
  simp [dft]

theorem dft_getD {l : List ℂ} {k : Nat} (hk : k < l.length) :
    (dft l).getD k 0 =
      ∑ j ∈ Finset.range l.length, l.getD j 0 * eN l.length ((j : Int) * (k : Int)) := by
  unfold dft
  rw [List.getD_eq_getElem _ _ (by simpa using hk)]
  simp

/-- Even/odd decomposition of one DFT coefficient of an even-length
signal. -/
theorem dft_split (l : List ℂ) (M : Nat) (k : Nat) :
    ∑ j ∈ Finset.range (2 * M), l.getD j 0 * eN (2 * M) ((j : Int) * (k : Int))
      = (∑ j ∈ Finset.range M, (evens l).getD j 0 * eN M ((j : Int) * (k : Int)))
        + eN (2 * M) k *
          ∑ j ∈ Finset.range M, (odds l).getD j 0 * eN M ((j : Int) * (k : Int)) := by
  rw [sum_range_even_odd M
    (fun j => l.getD j 0 * eN (2 * M) ((j : Int) * (k : Int)))]
  congr 1
  · apply Finset.sum_congr rfl
    intro j _
    rw [evens_getD]
    congr 1
    rw [show ((2 * j : Nat) : Int) * (k : Int) = 2 * ((j : Int) * (k : Int)) by
      push_cast; ring]
    exact eN_double M _
  · rw [Finset.mul_sum]
    apply Finset.sum_congr rfl
    intro j _
    rw [odds_getD]
    rw [show ((2 * j + 1 : Nat) : Int) * (k : Int)
        = 2 * ((j : Int) * (k : Int)) + (k : Int) by push_cast; ring]
    rw [eN_add, eN_double]
    ring

/-- The source's recursive radix-2 transform computes the discrete
Fourier transform on every power-of-two-length signal. -/
theorem fft_eq_dft : ∀ (m : Nat) (l : List ℂ), l.length = 2 ^ m → fft l = dft l := by
  intro m
  induction m with
  | zero =>
      intro l hl
      simp only [pow_zero] at hl
      cases l with
      | nil => cases hl
      | cons a t =>
          have ht : t = [] := by
            cases t with
            | nil => rfl
            | cons b u => simp at hl
          subst ht
          rw [fft_base (by simp)]
          simp [dft, eN_zero]
  | succ m ih =>
      intro l hl
      have hM0 : (2 : Nat) ^ m ≠ 0 := by positivity
      have h2M : l.length = 2 * 2 ^ m := by rw [hl, pow_succ]; ring
      have hgt : ¬ l.length ≤ 1 := by
        rw [h2M]
        have : 1 ≤ 2 ^ m := Nat.one_le_two_pow
        omega
      have hev_len : (evens l).length = 2 ^ m := by rw [evens_length, h2M]; omega
      have hod_len : (odds l).length = 2 ^ m := by rw [odds_length, h2M]; omega
      have ihe : fft (evens l) = dft (evens l) := ih _ hev_len
      have iho : fft (odds l) = dft (odds l) := ih _ hod_len
      have hhalf : l.length / 2 = 2 ^ m := by rw [h2M]; omega
      have hrange : List.range l.length
          = List.range (2 ^ m) ++ (List.range (2 ^ m)).map (2 ^ m + ·) := by
        rw [h2M, two_mul, List.range_add]
      have hdft : dft l = (List.range (2 ^ m)).map (fun (k : Nat) =>
            ∑ j ∈ Finset.range l.length, l.getD j 0
              * eN l.length ((j : Int) * (k : Int)))
          ++ (List.range (2 ^ m)).map (fun (k : Nat) =>
            ∑ j ∈ Finset.range l.length, l.getD j 0
              * eN l.length ((j : Int) * ((2 ^ m + k : Nat) : Int))) := by
        unfold dft
        rw [hrange, List.map_append, List.map_map]
        rfl
      rw [fft_rec hgt, hhalf, ihe, iho, hdft, h2M]
      congr 1
      · apply List.map_congr_left
        intro k hk
        have hkM : k < 2 ^ m := List.mem_range.mp hk
        rw [addComplex_eq, multiplyComplex_eq, wC_eq]
        rw [dft_getD (by rw [hev_len]; exact hkM),
          dft_getD (by rw [hod_len]; exact hkM)]
        rw [hev_len, hod_len]
        rw [dft_split l (2 ^ m) k]
      · apply List.map_congr_left
        intro k hk
        have hkM : k < 2 ^ m := List.mem_range.mp hk
        rw [subtractComplex_eq, multiplyComplex_eq, wC_eq]
        rw [dft_getD (by rw [hev_len]; exact hkM),
          dft_getD (by rw [hod_len]; exact hkM)]
        rw [hev_len, hod_len]
        rw [dft_split l (2 ^ m) (2 ^ m + k)]
        have hE : ∀ j ∈ Finset.range (2 ^ m),
            (evens l).getD j 0 * eN (2 ^ m) ((j : Int) * ((2 ^ m + k : Nat) : Int))
              = (evens l).getD j 0 * eN (2 ^ m) ((j : Int) * (k : Int)) := by
          intro j _
          congr 1
          rw [show ((j : Int) * ((2 ^ m + k : Nat) : Int))
              = (j : Int) * (k : Int) + (j : Int) * ((2 ^ m : Nat) : Int) by
            push_cast; ring]
          rw [eN_add, eN_int_mul_self _ hM0, mul_one]
        have hO : ∀ j ∈ Finset.range (2 ^ m),
            (odds l).getD j 0 * eN (2 ^ m) ((j : Int) * ((2 ^ m + k : Nat) : Int))
              = (odds l).getD j 0 * eN (2 ^ m) ((j : Int) * (k : Int)) := by
          intro j _
          congr 1
          rw [show ((j : Int) * ((2 ^ m + k : Nat) : Int))
              = (j : Int) * (k : Int) + (j : Int) * ((2 ^ m : Nat) : Int) by
            push_cast; ring]
          rw [eN_add, eN_int_mul_self _ hM0, mul_one]
        rw [Finset.sum_congr rfl hE, Finset.sum_congr rfl hO]
        have hw : eN (2 * 2 ^ m) (((2 ^ m + k : Nat) : Int))
            = - eN (2 * 2 ^ m) (k : Int) := by
          rw [show (((2 ^ m + k : Nat) : Int)) = ((2 ^ m : Nat) : Int) + (k : Int) by
            push_cast; ring]
          rw [eN_add, eN_half _ hM0]
          ring
        rw [hw]
        ring

/-- One coefficient of `dft (conj (dft l))`: the forward transform of the
conjugated spectrum reproduces `n · conj l_k`. -/
theorem dft_entry_inv (l : List ℂ) (hn0 : l.length ≠ 0) (k : Nat)
    (hk : k < l.length) :
    (dft ((dft l).map conjC)).getD k 0
      = (starRingEnd ℂ) (l.getD k 0) * (l.length : ℂ) := by
  have hL : (dft l).length = l.length := dft_length l
  have hcl : ((dft l).map conjC).length = l.length := by
    rw [List.length_map, hL]
  have hS : (dft ((dft l).map conjC)).getD k 0
      = ∑ j ∈ Finset.range l.length,
          (starRingEnd ℂ) ((dft l).getD j 0) * eN l.length ((j : Int) * (k : Int)) := by
    rw [dft_getD (by rw [hcl]; exact hk), hcl]
    apply Finset.sum_congr rfl
    intro j hj
    have hjl : j < l.length := List.mem_range.mp hj
    congr 1
    rw [List.getD_eq_getElem _ _ (by rw [hcl]; exact hjl), List.getElem_map]
    rw [conjC_eq]
    congr 1
    rw [List.getD_eq_getElem _ _ (by rw [hL]; exact hjl)]
  have hT : (starRingEnd ℂ) ((dft ((dft l).map conjC)).getD k 0)
      = ∑ j ∈ Finset.range l.length,
          (dft l).getD j 0 * eN l.length (-((j : Int) * (k : Int))) := by
    rw [hS, map_sum]
    apply Finset.sum_congr rfl
    intro j _
    rw [map_mul, eN_conj]
    congr 1
    rw [starRingEnd_apply, starRingEnd_apply, star_star]
  have hT2 : (starRingEnd ℂ) ((dft ((dft l).map conjC)).getD k 0)
      = ∑ i ∈ Finset.range l.length, l.getD i 0 *
          ∑ j ∈ Finset.range l.length, eN l.length (((i : Int) - (k : Int)) * (j : Int)) := by
    rw [hT]
    have hrow : ∀ j ∈ Finset.range l.length,
        (dft l).getD j 0 * eN l.length (-((j : Int) * (k : Int)))
          = ∑ i ∈ Finset.range l.length,
              l.getD i 0 * eN l.length ((i : Int) * (j : Int))
                * eN l.length (-((j : Int) * (k : Int))) := by
      intro j hj
      rw [dft_getD (List.mem_range.mp hj), Finset.sum_mul]
    rw [Finset.sum_congr rfl hrow, Finset.sum_comm]
    apply Finset.sum_congr rfl
    intro i _
    rw [Finset.mul_sum]
    apply Finset.sum_congr rfl
    intro j _
    rw [mul_assoc]
    congr 1
    rw [← eN_add]
    congr 1
    ring
  have horth : ∀ i ∈ Finset.range l.length,
      l.getD i 0 * ∑ j ∈ Finset.range l.length,
          eN l.length (((i : Int) - (k : Int)) * (j : Int))
        = if i = k then l.getD i 0 * (l.length : ℂ) else 0 := by
    intro i hi
    rw [eN_orth _ hn0 _]
    by_cases hik : i = k
    · subst hik
      rw [if_pos (by simp), if_pos rfl]
    · have hnd : ¬ ((l.length : Int) ∣ ((i : Int) - (k : Int))) := by
        rintro ⟨q, hq⟩
        have habs : |(i : Int) - (k : Int)| < (l.length : Int) := by
          rw [abs_lt]
          have hi2 : (i : Int) < (l.length : Int) := by
            exact_mod_cast List.mem_range.mp hi
          have hk2 : (k : Int) < (l.length : Int) := by exact_mod_cast hk
          constructor <;> omega
        rw [hq, abs_mul,
          abs_of_nonneg (show (0 : Int) ≤ (l.length : Int) by positivity)] at habs
        have hq0 : q ≠ 0 := by
          intro h0
          rw [h0, mul_zero] at hq
          exact hik (by omega)
        have h1 : 1 ≤ |q| := Int.one_le_abs hq0
        have hpos : (0 : Int) < (l.length : Int) := by
          have := Nat.pos_of_ne_zero hn0
          exact_mod_cast this
        nlinarith [habs, h1, hpos]
      rw [if_neg hnd, if_neg hik, mul_zero]
  have hT3 : (starRingEnd ℂ) ((dft ((dft l).map conjC)).getD k 0)
      = l.getD k 0 * (l.length : ℂ) := by
    rw [hT2, Finset.sum_congr rfl horth,
      Finset.sum_ite_eq' (Finset.range l.length) k
        (fun i => l.getD i 0 * (l.length : ℂ))]
    rw [if_pos (Finset.mem_range.mpr hk)]
  have hback := congrArg (starRingEnd ℂ) hT3
  rw [starRingEnd_apply, starRingEnd_apply, star_star] at hback
  rw [hback, starRingEnd_apply, starRingEnd_apply, star_mul']
  congr 1
  · rw [← starRingEnd_apply, map_natCast]

theorem fft_length_pow {l : List ℂ} {m : Nat} (h : l.length = 2 ^ m) :
    (fft l).length = l.length := by
  cases m with
  | zero =>
      rw [fft_base (by rw [h]; norm_num)]
  | succ m =>
      refine fft_length_even ?_
      rw [h, pow_succ]
      exact ⟨2 ^ m, by ring⟩

/-- Exact inversion: on any power-of-two-length complex signal the
conjugate-transform-conjugate-divide `ifft` undoes `fft`. -/
theorem ifft_fft_pow {l : List ℂ} {m : Nat} (hl : l.length = 2 ^ m) :
    ifft (fft l) = l := by
  have hn0 : l.length ≠ 0 := by rw [hl]; positivity
  rw [fft_eq_dft m l hl]
  have hL : (dft l).length = l.length := dft_length l
  have hcl : ((dft l).map conjC).length = l.length := by
    rw [List.length_map, hL]
  unfold ifft
  rw [fft_eq_dft m _ (by rw [hcl, hl])]
  apply List.ext_getElem
  · rw [List.length_map, dft_length, hcl]
  · intro k hk1 hk2
    rw [List.getElem_map]
    have hklen : k < (dft ((dft l).map conjC)).length := by
      rw [dft_length, hcl]
      exact hk2
    rw [← List.getD_eq_getElem _ 0 hklen]
    rw [dft_entry_inv l hn0 k hk2]
    rw [← List.getD_eq_getElem l 0 hk2]
    rw [hL]
    have hnR : ((l.length : ℕ) : ℝ) ≠ 0 := Nat.cast_ne_zero.mpr hn0
    apply Complex.ext
    · show ((starRingEnd ℂ) (l.getD k 0) * ((l.length : ℕ) : ℂ)).re
        / ((l.length : ℕ) : ℝ) = (l.getD k 0).re
      rw [Complex.mul_re]
      simp only [Complex.natCast_re, Complex.natCast_im, mul_zero, sub_zero,
        Complex.conj_re]
      field_simp
    · show -((starRingEnd ℂ) (l.getD k 0) * ((l.length : ℕ) : ℂ)).im
        / ((l.length : ℕ) : ℝ) = (l.getD k 0).im
      rw [Complex.mul_im]
      simp only [Complex.natCast_re, Complex.natCast_im, mul_zero, zero_add,
        Complex.conj_im]
      field_simp

/-- C7: for any real-valued signal whose length is a power of two, the
pipeline's `ifft` (conjugate, forward `fft`, conjugate, divide by N)
recovers the original signal exactly in the exact-arithmetic model. -/
theorem C7_fft_roundtrip (s : List ℝ) (m : Nat) (hs : s.length = 2 ^ m) :
    ifft (fft (s.map (fun x => (⟨x, 0⟩ : ℂ))))
      = s.map (fun x => (⟨x, 0⟩ : ℂ)) :=
  ifft_fft_pow (by rw [List.length_map, hs])

theorem C7_fft_roundtrip_witness :
    ([(1 : ℝ), 0].length = 2 ^ 1) ∧
    ifft (fft ([(1 : ℝ), 0].map (fun x => (⟨x, 0⟩ : ℂ))))
      = [(1 : ℝ), 0].map (fun x => (⟨x, 0⟩ : ℂ)) :=
  ⟨rfl, C7_fft_roundtrip [1, 0] 1 rfl⟩

theorem getD_map_ofReal (T : List ℝ) (a : Nat) :
    (T.map (fun x => (⟨x, 0⟩ : ℂ))).getD a 0 = ((T.getD a 0 : ℝ) : ℂ) := by
  by_cases h : a < T.length
  · rw [List.getD_eq_getElem _ _ (by simpa using h), List.getElem_map,
      List.getD_eq_getElem _ _ h]
    apply Complex.ext <;> simp
  · rw [List.getD_eq_default _ _ (by simpa using Nat.le_of_not_lt h),
      List.getD_eq_default _ _ (Nat.le_of_not_lt h)]
    apply Complex.ext <;> simp

/-- Residue characterization: for indices below `n`, the divisibility
condition produced by orthogonality pins `a` to `(b + k) % n`. -/
theorem corr_dvd_iff {n a b k : Nat} (hn : n ≠ 0) (ha : a < n) (hb : b < n)
    (hk : k < n) :
    ((n : Int) ∣ ((a : Int) - (b : Int) - (k : Int))) ↔ a = (b + k) % n := by
  constructor
  · rintro ⟨q, hq⟩
    have hq01 : q = 0 ∨ q = -1 := by
      rcases lt_trichotomy q 0 with h | h | h
      · right
        by_contra hne
        have hq2 : q ≤ -2 := by omega
        have hmul : (n : Int) * q ≤ (n : Int) * (-2) :=
          mul_le_mul_of_nonneg_left hq2 (by positivity)
        omega
      · left; exact h
      · exfalso
        have hq1 : (1 : Int) ≤ q := h
        have hmul : (n : Int) * 1 ≤ (n : Int) * q :=
          mul_le_mul_of_nonneg_left hq1 (by positivity)
        omega
    rcases hq01 with h | h
    · subst h
      have ha2 : a = b + k := by omega
      subst ha2
      exact (Nat.mod_eq_of_lt (by omega)).symm
    · subst h
      have hbk : b + k = a + n := by omega
      rw [hbk, Nat.add_mod_right, Nat.mod_eq_of_lt ha]
  · intro ha2
    by_cases hbk : b + k < n
    · rw [Nat.mod_eq_of_lt hbk] at ha2
      exact ⟨0, by omega⟩
    · have hbk2 : b + k - n < n := by omega
      have hmod : (b + k) % n = b + k - n := by
        rw [Nat.mod_eq_sub_mod (by omega), Nat.mod_eq_of_lt hbk2]
      rw [hmod] at ha2
      exact ⟨-1, by omega⟩

/-- The value of the pipeline's inverse transform of
`textFFT · conj(patternFFT)` at position `k`: the circular
cross-correlation of the two real signals. -/
theorem ifft_corr_entry (T P : List ℝ) (m : Nat)
    (hT : T.length = 2 ^ m) (hP : P.length = T.length)
    (k : Nat) (hk : k < T.length) :
    (ifft ((List.range T.length).map (fun (j : Nat) =>
        multiplyComplex ((dft (T.map (fun x => (⟨x, 0⟩ : ℂ)))).getD j 0)
          (conjC ((dft (P.map (fun x => (⟨x, 0⟩ : ℂ)))).getD j 0))))).getD k 0
      = ((∑ b ∈ Finset.range T.length,
          T.getD ((b + k) % T.length) 0 * P.getD b 0 : ℝ) : ℂ) := by
  have hn0 : T.length ≠ 0 := by rw [hT]; positivity
  set Tc := T.map (fun x => (⟨x, 0⟩ : ℂ)) with hTcdef
  set Pc := P.map (fun x => (⟨x, 0⟩ : ℂ)) with hPcdef
  have hTc : Tc.length = T.length := by simp [hTcdef]
  have hPc : Pc.length = T.length := by simp [hPcdef, hP]
  set M := (List.range T.length).map (fun (j : Nat) =>
      multiplyComplex ((dft Tc).getD j 0) (conjC ((dft Pc).getD j 0))) with hMdef
  have hMlen : M.length = T.length := by simp [hMdef]
  have hMclen : (M.map conjC).length = T.length := by simp [hMlen]
  unfold ifft
  rw [fft_eq_dft m (M.map conjC) (by rw [hMclen, hT])]
  have hreslen : k < (dft (M.map conjC)).length := by
    rw [dft_length, hMclen]
    exact hk
  rw [List.getD_eq_getElem _ _ (by simpa using hreslen), List.getElem_map,
    ← List.getD_eq_getElem _ 0 hreslen]
  have hS : (dft (M.map conjC)).getD k 0
      = ∑ j ∈ Finset.range T.length,
          (starRingEnd ℂ) (M.getD j 0) * eN T.length ((j : Int) * (k : Int)) := by
    rw [dft_getD (by rw [hMclen]; exact hk), hMclen]
    apply Finset.sum_congr rfl
    intro j hj
    have hjl : j < T.length := List.mem_range.mp hj
    congr 1
    rw [List.getD_eq_getElem _ _ (by rw [hMclen]; exact hjl), List.getElem_map,
      conjC_eq, ← List.getD_eq_getElem _ 0 (by rw [hMlen]; exact hjl)]
  have hMj : ∀ j ∈ Finset.range T.length,
      M.getD j 0 = ((dft Tc).getD j 0) * (starRingEnd ℂ) ((dft Pc).getD j 0) := by
    intro j hj
    have hjl : j < T.length := List.mem_range.mp hj
    rw [hMdef]
    rw [List.getD_eq_getElem _ _ (by simpa using hjl), List.getElem_map,
      List.getElem_range, multiplyComplex_eq, conjC_eq]
  have hconjS : (starRingEnd ℂ) ((dft (M.map conjC)).getD k 0)
      = ∑ j ∈ Finset.range T.length,
          ((dft Tc).getD j 0) * (starRingEnd ℂ) ((dft Pc).getD j 0)
            * eN T.length (-((j : Int) * (k : Int))) := by
    rw [hS, map_sum]
    apply Finset.sum_congr rfl
    intro j hj
    rw [map_mul, eN_conj]
    congr 1
    rw [starRingEnd_apply, starRingEnd_apply, star_star]
    exact hMj j hj
  have hdftT : ∀ j ∈ Finset.range T.length, (dft Tc).getD j 0
      = ∑ a ∈ Finset.range T.length,
          ((T.getD a 0 : ℝ) : ℂ) * eN T.length ((a : Int) * (j : Int)) := by
    intro j hj
    rw [dft_getD (by rw [hTc]; exact List.mem_range.mp hj), hTc]
    apply Finset.sum_congr rfl
    intro a _
    rw [hTcdef, getD_map_ofReal]
  have hdftPconj : ∀ j ∈ Finset.range T.length,
      (starRingEnd ℂ) ((dft Pc).getD j 0)
      = ∑ b ∈ Finset.range T.length,
          ((P.getD b 0 : ℝ) : ℂ) * eN T.length (-((b : Int) * (j : Int))) := by
    intro j hj
    rw [dft_getD (by rw [hPc]; exact List.mem_range.mp hj), hPc, map_sum]
    apply Finset.sum_congr rfl
    intro b _
    rw [map_mul, eN_conj]
    congr 1
    rw [hPcdef, getD_map_ofReal, Complex.conj_ofReal]
  have hexpand : (starRingEnd ℂ) ((dft (M.map conjC)).getD k 0)
      = ∑ j ∈ Finset.range T.length, ∑ a ∈ Finset.range T.length,
          ∑ b ∈ Finset.range T.length,
          ((T.getD a 0 : ℝ) : ℂ) * ((P.getD b 0 : ℝ) : ℂ)
            * eN T.length (((a : Int) - (b : Int) - (k : Int)) * (j : Int)) := by
    rw [hconjS]
    apply Finset.sum_congr rfl
    intro j hj
    rw [hdftT j hj, hdftPconj j hj, Finset.sum_mul_sum, Finset.sum_mul]
    apply Finset.sum_congr rfl
    intro a _
    rw [Finset.sum_mul]
    apply Finset.sum_congr rfl
    intro b _
    rw [show ((T.getD a 0 : ℝ) : ℂ) * eN T.length ((a : Int) * (j : Int))
          * (((P.getD b 0 : ℝ) : ℂ) * eN T.length (-((b : Int) * (j : Int))))
          * eN T.length (-((j : Int) * (k : Int)))
        = ((T.getD a 0 : ℝ) : ℂ) * ((P.getD b 0 : ℝ) : ℂ)
          * (eN T.length ((a : Int) * (j : Int))
            * eN T.length (-((b : Int) * (j : Int)))
            * eN T.length (-((j : Int) * (k : Int)))) by ring]
    congr 1
    rw [← eN_add, ← eN_add]
    congr 1
    ring
  have hswap : (starRingEnd ℂ) ((dft (M.map conjC)).getD k 0)
      = ∑ b ∈ Finset.range T.length, ∑ a ∈ Finset.range T.length,
          ((T.getD a 0 : ℝ) : ℂ) * ((P.getD b 0 : ℝ) : ℂ)
            * ∑ j ∈ Finset.range T.length,
                eN T.length (((a : Int) - (b : Int) - (k : Int)) * (j : Int)) := by
    rw [hexpand]
    rw [Finset.sum_congr rfl (fun j _ => (Finset.sum_comm : _ = _))]
    rw [Finset.sum_comm]
    apply Finset.sum_congr rfl
    intro b _
    rw [Finset.sum_comm]
    apply Finset.sum_congr rfl
    intro a _
    rw [Finset.mul_sum]
  have hcollapse : (starRingEnd ℂ) ((dft (M.map conjC)).getD k 0)
      = ((∑ b ∈ Finset.range T.length,
          T.getD ((b + k) % T.length) 0 * P.getD b 0 * (T.length : ℝ) : ℝ) : ℂ) := by
    rw [hswap]
    have hrow : ∀ b ∈ Finset.range T.length,
        (∑ a ∈ Finset.range T.length,
          ((T.getD a 0 : ℝ) : ℂ) * ((P.getD b 0 : ℝ) : ℂ)
            * ∑ j ∈ Finset.range T.length,
                eN T.length (((a : Int) - (b : Int) - (k : Int)) * (j : Int)))
          = ((T.getD ((b + k) % T.length) 0 * P.getD b 0 * (T.length : ℝ) : ℝ) : ℂ) := by
      intro b hb
      have hbl : b < T.length := List.mem_range.mp hb
      have hterm : ∀ a ∈ Finset.range T.length,
          ((T.getD a 0 : ℝ) : ℂ) * ((P.getD b 0 : ℝ) : ℂ)
            * ∑ j ∈ Finset.range T.length,
                eN T.length (((a : Int) - (b : Int) - (k : Int)) * (j : Int))
          = if a = (b + k) % T.length
            then ((T.getD a 0 : ℝ) : ℂ) * ((P.getD b 0 : ℝ) : ℂ) * (T.length : ℂ)
            else 0 := by
        intro a ha
        have hal : a < T.length := List.mem_range.mp ha
        rw [eN_orth _ hn0]
        by_cases hcond : a = (b + k) % T.length
        · rw [if_pos ((corr_dvd_iff hn0 hal hbl hk).mpr hcond), if_pos hcond]
        · rw [if_neg (fun hdvd => hcond ((corr_dvd_iff hn0 hal hbl hk).mp hdvd)),
            if_neg hcond, mul_zero]
      rw [Finset.sum_congr rfl hterm,
        Finset.sum_ite_eq' (Finset.range T.length) ((b + k) % T.length)
          (fun a => ((T.getD a 0 : ℝ) : ℂ) * ((P.getD b 0 : ℝ) : ℂ) * (T.length : ℂ)),
        if_pos (Finset.mem_range.mpr (Nat.mod_lt _ (Nat.pos_of_ne_zero hn0)))]
      push_cast
      ring
    rw [Finset.sum_congr rfl hrow]
    push_cast
    ring
  have hSr : (dft (M.map conjC)).getD k 0
      = ((∑ b ∈ Finset.range T.length,
          T.getD ((b + k) % T.length) 0 * P.getD b 0 * (T.length : ℝ) : ℝ) : ℂ) := by
    calc (dft (M.map conjC)).getD k 0
        = (starRingEnd ℂ) ((starRingEnd ℂ) ((dft (M.map conjC)).getD k 0)) := by
          rw [Complex.conj_conj]
      _ = (starRingEnd ℂ) ((∑ b ∈ Finset.range T.length,
            T.getD ((b + k) % T.length) 0 * P.getD b 0 * (T.length : ℝ) : ℝ) : ℂ) := by
          rw [hcollapse]
      _ = _ := Complex.conj_ofReal _
  rw [hSr, hMlen]
  have hnR : (T.length : ℝ) ≠ 0 := Nat.cast_ne_zero.mpr hn0
  apply Complex.ext
  · show (((∑ b ∈ Finset.range T.length,
        T.getD ((b + k) % T.length) 0 * P.getD b 0 * (T.length : ℝ) : ℝ) : ℂ)).re
      / (T.length : ℝ) = _
    rw [Complex.ofReal_re, Complex.ofReal_re, ← Finset.sum_mul,
      mul_div_cancel_right₀ _ hnR]
  · show -(((∑ b ∈ Finset.range T.length,
        T.getD ((b + k) % T.length) 0 * P.getD b 0 * (T.length : ℝ) : ℝ) : ℂ)).im
      / (T.length : ℝ) = _
    rw [Complex.ofReal_im, Complex.ofReal_im]
    simp

/-! ### Bridging the two engines (C1) -/

theorem zipWith_mul_sum :
    ∀ (a b : List Nat), (a.zipWith (· * ·) b).sum
      = ∑ u ∈ Finset.range (min a.length b.length), a.getD u 0 * b.getD u 0 := by
  intro a
  induction a with
  | nil => intro b; simp
  | cons x a' ih =>
      intro b
      cases b with
      | nil => simp
      | cons y b' =>
          show (x * y :: a'.zipWith (· * ·) b').sum = _
          rw [List.sum_cons, ih b']
          have hmin : min (x :: a').length (y :: b').length
              = min a'.length b'.length + 1 := by
            simp only [List.length_cons]
            omega
          rw [hmin, Finset.sum_range_succ']
          simp only [List.getD_cons_succ, List.getD_cons_zero]
          omega

theorem cleanDNA_valid : ∀ (s : List Char),
    (∀ c ∈ s, c = 'A' ∨ c = 'T' ∨ c = 'G' ∨ c = 'C') → cleanDNA s = s := by
  intro s
  induction s with
  | nil => intro _; rfl
  | cons c rest ih =>
      intro h
      have hc := h c (List.mem_cons_self c rest)
      have hup : Char.toUpper c = c := by
        rcases hc with h1 | h1 | h1 | h1 <;> subst h1 <;> decide
      have hf : isATGC c = true := by
        rcases hc with h1 | h1 | h1 | h1 <;> subst h1 <;> decide
      show ((c :: rest).map Char.toUpper).filter isATGC = c :: rest
      rw [List.map_cons, hup, List.filter_cons, if_pos hf]
      congr 1
      exact ih (fun x hx => h x (List.mem_cons_of_mem _ hx))

theorem createPaddedSignal_getD (s : List Char) (c : Char) (N a : Nat) :
    (createPaddedSignal s c N).getD a 0
      = (s.map (fun x => if x = c then (1 : ℝ) else 0)).getD a 0 := by
  unfold createPaddedSignal
  by_cases h : a < (s.map (fun x => if x = c then (1 : ℝ) else 0)).length
  · exact List.getD_append _ _ 0 a h
  · rw [List.getD_eq_default _ _ (Nat.le_of_not_lt h)]
    by_cases h3 : a < ((s.map (fun x => if x = c then (1 : ℝ) else 0))
        ++ List.replicate (N - (s.map (fun x => if x = c then (1 : ℝ) else 0)).length) 0).length
    · rw [List.getD_eq_getElem _ _ h3,
        List.getElem_append_right (Nat.le_of_not_lt h)]
      exact List.getElem_replicate _ _
    · rw [List.getD_eq_default _ _ (Nat.le_of_not_lt h3)]

/-- The circular correlation of the two padded indicator signals at a
valid alignment equals the sliding-window per-base dot product: the
padding guarantees no wrap-around touches a nonzero entry. -/
theorem corr_window (t p : List Char) (b : Char) (N i : Nat)
    (hpl1 : 1 ≤ p.length) (hple : p.length ≤ t.length) (htN : t.length ≤ N)
    (hi : i ≤ t.length - p.length) :
    ∑ u ∈ Finset.range N,
        (createPaddedSignal t b N).getD ((u + i) % N) 0
          * (createPaddedSignal p b N).getD u 0
      = ((((indicatorN ((t.drop i).take p.length) b).zipWith (· * ·)
          (indicatorN p b)).sum : Nat) : ℝ) := by
  have hslice_len : ((t.drop i).take p.length).length = p.length := by
    simp
    omega
  have hsub : Finset.range p.length ⊆ Finset.range N :=
    Finset.range_subset.mpr (by omega)
  have hzero : ∀ u ∈ Finset.range N, u ∉ Finset.range p.length →
      (createPaddedSignal t b N).getD ((u + i) % N) 0
        * (createPaddedSignal p b N).getD u 0 = 0 := by
    intro u _ hu
    have hup : p.length ≤ u :=
      Nat.le_of_not_lt (fun h => hu (Finset.mem_range.mpr h))
    have hp0 : (createPaddedSignal p b N).getD u 0 = 0 := by
      rw [createPaddedSignal_getD p b N u]
      exact List.getD_eq_default _ _ (by simpa using hup)
    rw [hp0, mul_zero]
  rw [← Finset.sum_subset hsub hzero]
  have hterm : ∀ u ∈ Finset.range p.length,
      (createPaddedSignal t b N).getD ((u + i) % N) 0
        * (createPaddedSignal p b N).getD u 0
      = (((t.map (fun x => if x = b then (1 : Nat) else 0)).getD (i + u) 0
          * (p.map (fun x => if x = b then (1 : Nat) else 0)).getD u 0 : Nat) : ℝ) := by
    intro u hu
    have hupl : u < p.length := Finset.mem_range.mp hu
    have huiN : u + i < N := by omega
    have huit : i + u < t.length := by omega
    rw [createPaddedSignal_getD, createPaddedSignal_getD,
      Nat.mod_eq_of_lt huiN, Nat.add_comm u i]
    rw [List.getD_eq_getElem _ _ (by simpa using huit),
      List.getD_eq_getElem _ _ (by simpa using hupl),
      List.getD_eq_getElem _ _ (by simpa using huit),
      List.getD_eq_getElem _ _ (by simpa using hupl)]
    rw [List.getElem_map, List.getElem_map, List.getElem_map, List.getElem_map]
    by_cases h1 : t[i + u] = b <;> by_cases h2 : p[u] = b <;>
      simp [h1, h2]
  rw [Finset.sum_congr rfl hterm]
  rw [zipWith_mul_sum]
  have hminlen : min (indicatorN ((t.drop i).take p.length) b).length
      (indicatorN p b).length = p.length := by
    simp [indicatorN]
    omega
  rw [hminlen, Nat.cast_sum]
  apply Finset.sum_congr rfl
  intro u hu
  have hupl : u < p.length := Finset.mem_range.mp hu
  have huit : i + u < t.length := by omega
  congr 2
  unfold indicatorN
  rw [List.getD_eq_getElem _ _ (by simpa using huit),
    List.getD_eq_getElem _ _ (by simp; omega)]
  rw [List.getElem_map, List.getElem_map, List.getElem_take, List.getElem_drop]

theorem calculateSteps_pos (t p : List Char) (ht : cleanDNA t ≠ [])
    (hp : cleanDNA p ≠ []) :
    calculateSteps t p =
      (List.range ((cleanDNA t).length + 1 - (cleanDNA p).length)).map (fun i =>
        { position := i,
          textSlice := ((cleanDNA t).drop i).take (cleanDNA p).length,
          pat := cleanDNA p,
          totalScore := windowScore (((cleanDNA t).drop i).take (cleanDNA p).length)
            (cleanDNA p),
          isMatch := windowScore (((cleanDNA t).drop i).take (cleanDNA p).length)
            (cleanDNA p) == (cleanDNA p).length }) := by
  unfold calculateSteps
  rw [if_neg (by rintro (h | h); exact ht h; exact hp h)]

/-- C1: over the DNA alphabet, within the pipeline's caps (text ≤ 12,
pattern ≤ 6, pattern no longer than text), the FFT pipeline's rounded
final scores coincide position-by-position with the sliding-window
matcher's total scores. -/
theorem C1_fft_sliding_equivalence (t p : List Char)
    (ht : ∀ c ∈ t, c = 'A' ∨ c = 'T' ∨ c = 'G' ∨ c = 'C')
    (hp : ∀ c ∈ p, c = 'A' ∨ c = 'T' ∨ c = 'G' ∨ c = 'C')
    (hpl1 : 1 ≤ p.length) (hpl6 : p.length ≤ 6)
    (htl12 : t.length ≤ 12) (hple : p.length ≤ t.length) :
    (calculateAllSteps t p).finalScores
      = (calculateSteps t p).map (fun s => (s.totalScore : Int)) := by
  have hct : cleanDNA t = t := cleanDNA_valid t ht
  have hcp : cleanDNA p = p := cleanDNA_valid p hp
  have htk : (cleanDNA t).take 12 = t := by
    rw [hct]
    exact List.take_of_length_le htl12
  have hpk : (cleanDNA p).take 6 = p := by
    rw [hcp]
    exact List.take_of_length_le hpl6
  have hN2m : paddedLen t.length p.length
      = 2 ^ Nat.clog 2 (max (t.length + p.length - 1) 8) := rfl
  have hmaxN : max (t.length + p.length - 1) 8 ≤ paddedLen t.length p.length := by
    rw [hN2m]
    exact Nat.le_pow_clog (by norm_num) _
  have hmax1 : t.length + p.length - 1 ≤ max (t.length + p.length - 1) 8 :=
    le_max_left _ _
  have hmax2 : 8 ≤ max (t.length + p.length - 1) 8 := le_max_right _ _
  have htN : t.length ≤ paddedLen t.length p.length := by omega
  have hN0 : paddedLen t.length p.length ≠ 0 := by omega
  have hTlen : ∀ b : Char,
      (createPaddedSignal t b (paddedLen t.length p.length)).length
        = paddedLen t.length p.length := by
    intro b
    simp [createPaddedSignal]
    omega
  have hPlen : ∀ b : Char,
      (createPaddedSignal p b (paddedLen t.length p.length)).length
        = paddedLen t.length p.length := by
    intro b
    simp [createPaddedSignal]
    omega
  have hTClen : ∀ b : Char,
      ((createPaddedSignal t b (paddedLen t.length p.length)).map
        (fun x => (⟨x, 0⟩ : ℂ))).length = paddedLen t.length p.length := by
    intro b
    rw [List.length_map, hTlen b]
  have hPClen : ∀ b : Char,
      ((createPaddedSignal p b (paddedLen t.length p.length)).map
        (fun x => (⟨x, 0⟩ : ℂ))).length = paddedLen t.length p.length := by
    intro b
    rw [List.length_map, hPlen b]
  have hfftT : ∀ b, (calculateAllSteps t p).textFFT b
      = dft ((createPaddedSignal t b (paddedLen t.length p.length)).map
          (fun x => (⟨x, 0⟩ : ℂ))) := by
    intro b
    rw [calcAll_textFFT, htk, hpk]
    exact fft_eq_dft _ _ (by rw [hTClen b, hN2m])
  have hfftP : ∀ b, (calculateAllSteps t p).patternFFT b
      = dft ((createPaddedSignal p b (paddedLen t.length p.length)).map
          (fun x => (⟨x, 0⟩ : ℂ))) := by
    intro b
    rw [calcAll_patternFFT, htk, hpk]
    exact fft_eq_dft _ _ (by rw [hPClen b, hN2m])
  have hmulB : ∀ b, (calculateAllSteps t p).multipliedFFT b
      = (List.range (createPaddedSignal t b (paddedLen t.length p.length)).length).map
          (fun (j : Nat) => multiplyComplex
            ((dft ((createPaddedSignal t b (paddedLen t.length p.length)).map
              (fun x => (⟨x, 0⟩ : ℂ)))).getD j 0)
            (conjC ((dft ((createPaddedSignal p b (paddedLen t.length p.length)).map
              (fun x => (⟨x, 0⟩ : ℂ)))).getD j 0))) := by
    intro b
    rw [calcAll_multipliedFFT, hfftT b, hfftP b, dft_length, hTClen b, hTlen b]
  have hcorrB : ∀ b, ∀ i, i < t.length - p.length + 1 →
      ((calculateAllSteps t p).correlations b).getD i 0
        = ((((indicatorN ((t.drop i).take p.length) b).zipWith (· * ·)
            (indicatorN p b)).sum : Nat) : Int) := by
    intro b i hi
    rw [calcAll_correlations, htk, hpk, hmulB b]
    unfold jsSlice0
    rw [if_neg (by omega)]
    have hvpn : ((t.length : Int) - (p.length : Int) + 1).toNat
        = t.length - p.length + 1 := by omega
    rw [hvpn]
    have hic := ifft_corr_entry
      (createPaddedSignal t b (paddedLen t.length p.length))
      (createPaddedSignal p b (paddedLen t.length p.length))
      (Nat.clog 2 (max (t.length + p.length - 1) 8))
      (by rw [hTlen b, hN2m]) (by rw [hPlen b, hTlen b]) i
      (by rw [hTlen b]; omega)
    have hiffl : (ifft ((List.range
        (createPaddedSignal t b (paddedLen t.length p.length)).length).map
          (fun (j : Nat) => multiplyComplex
            ((dft ((createPaddedSignal t b (paddedLen t.length p.length)).map
              (fun x => (⟨x, 0⟩ : ℂ)))).getD j 0)
            (conjC ((dft ((createPaddedSignal p b (paddedLen t.length p.length)).map
              (fun x => (⟨x, 0⟩ : ℂ)))).getD j 0))))).length
        = paddedLen t.length p.length := by
      unfold ifft
      rw [List.length_map]
      rw [@fft_length_pow _ (Nat.clog 2 (max (t.length + p.length - 1) 8)) (by
        simp only [List.length_map, List.length_range]
        rw [hTlen b, hN2m])]
      simp only [List.length_map, List.length_range]
      rw [hTlen b]
    have higet : i < ((ifft ((List.range
        (createPaddedSignal t b (paddedLen t.length p.length)).length).map
          (fun (j : Nat) => multiplyComplex
            ((dft ((createPaddedSignal t b (paddedLen t.length p.length)).map
              (fun x => (⟨x, 0⟩ : ℂ)))).getD j 0)
            (conjC ((dft ((createPaddedSignal p b (paddedLen t.length p.length)).map
              (fun x => (⟨x, 0⟩ : ℂ)))).getD j 0))))).map
          (fun c => round c.re)).length := by
      rw [List.length_map, hiffl]
      omega
    rw [List.getD_eq_getElem _ _ (by
        rw [List.length_take]
        exact lt_min hi (by rw [List.length_map, hiffl]; omega))]
    rw [List.getElem_take, List.getElem_map]
    rw [← List.getD_eq_getElem _ 0 (by rw [hiffl]; omega)]
    rw [hic, hTlen b]
    rw [corr_window t p b (paddedLen t.length p.length) i hpl1 hple htN (by omega)]
    rw [Complex.ofReal_re, round_natCast]
  rw [calcAll_finalScores, htk, hpk]
  have hvpn : ((t.length : Int) - (p.length : Int) + 1).toNat
      = t.length - p.length + 1 := by omega
  rw [hvpn]
  rw [calculateSteps_pos t p
    (by rw [hct]; intro h; have h0 : t.length = 0 := (by simp [h]); omega)
    (by rw [hcp]; intro h; rw [h] at hpl1; exact absurd hpl1 (by decide))]
  rw [hct, hcp, List.map_map]
  have hlen_eq : t.length + 1 - p.length = t.length - p.length + 1 := by omega
  rw [hlen_eq]
  apply List.map_congr_left
  intro i hi
  have hi' : i < t.length - p.length + 1 := List.mem_range.mp hi
  have hrow : ∀ b ∈ basesL,
      ((calculateAllSteps t p).correlations b).getD i 0
        = ((((indicatorN ((t.drop i).take p.length) b).zipWith (· * ·)
            (indicatorN p b)).sum : Nat) : Int) :=
    fun b _ => hcorrB b i hi'
  rw [List.map_congr_left hrow]
  show _ = ((windowScore ((t.drop i).take p.length) p : Nat) : Int)
  unfold windowScore
  simp [basesL]
  try push_cast
  try ring

theorem C1_fft_sliding_equivalence_witness :
    ((∀ c ∈ (['A', 'T', 'C', 'G'] : List Char),
        c = 'A' ∨ c = 'T' ∨ c = 'G' ∨ c = 'C') ∧
      (∀ c ∈ (['T', 'C', 'G'] : List Char),
        c = 'A' ∨ c = 'T' ∨ c = 'G' ∨ c = 'C') ∧
      1 ≤ (['T', 'C', 'G'] : List Char).length ∧
      (['T', 'C', 'G'] : List Char).length ≤ 6 ∧
      (['A', 'T', 'C', 'G'] : List Char).length ≤ 12 ∧
      (['T', 'C', 'G'] : List Char).length ≤ (['A', 'T', 'C', 'G'] : List Char).length) ∧
    (calculateAllSteps ['A', 'T', 'C', 'G'] ['T', 'C', 'G']).finalScores
      = (calculateSteps ['A', 'T', 'C', 'G'] ['T', 'C', 'G']).map
          (fun s => (s.totalScore : Int)) :=
  ⟨⟨by decide, by decide, by decide, by decide, by decide, by decide⟩,
    C1_fft_sliding_equivalence ['A', 'T', 'C', 'G'] ['T', 'C', 'G']
      (by decide) (by decide) (by decide) (by decide) (by decide) (by decide)⟩
